import Mathlib

/-!
# SenderQueueManager: a shallow embedding

The queue registry of `core/collection_pipeline/queue/SenderQueueManager.cpp`
as pure state-passing functions.

* the two `unordered_map`s are association lists kept in iteration order;
  an `unordered_map` never holds a key twice, which the theorems that need it
  assume as `keysNodup`;
* `time(nullptr)` is an argument of the operations that read the clock;
* the collaborators that live outside this file of the repository
  (`SenderQueue`, `ExactlyOnceQueueManager`, `QueueKeyManager`) are parameters.
-/

namespace logtail

/-- The key type `QueueKey` (an `int64_t`). -/
abbrev QueueKey := Int

/-! ## Collaborators -/

/-- Modelled from the spec: the member functions of `SenderQueue` that the
manager calls (`SenderQueue.h` is not among the sources).  They are taken as
parameters over an arbitrary queue state `Q`: `Push` reports acceptance and the
queue afterwards, `GetAvailableItems q limit` the items it appends to the output
vector and the queue afterwards. -/
structure SenderQueueOps (Q Item : Type) where
  /-- The test `SenderQueue::Empty()`. -/
  Empty : Q → Bool
  /-- The call `SenderQueue::Push(item)`. -/
  Push : Q → Item → Bool × Q
  /-- The call `SenderQueue::GetAvailableItems(items, limit)`. -/
  GetAvailableItems : Q → Int → List Item × Q
  /-- The call `SenderQueue::Remove(item)`: result and queue afterwards. -/
  Remove : Q → Item → Bool × Q
  /-- The test `SenderQueue::IsValidToPush()`. -/
  IsValidToPush : Q → Bool

/-- Modelled from the spec: the interface of the exactly-once registry
(`ExactlyOnceQueueManager.h` is not among the sources), over an arbitrary
registry state `E`. -/
structure ExactlyOnceOps (E Item : Type) where
  /-- The call `PushSenderQueue(key, item)`: result code and registry afterwards. -/
  PushSenderQueue : E → QueueKey → Item → Int × E
  /-- The call `GetAvailableSenderQueueItems(items, limit)`: appended items and
  registry afterwards. -/
  GetAvailableSenderQueueItems : E → Int → List Item × E
  /-- The call `RemoveSenderQueueItem(key, item)`: result and registry afterwards. -/
  RemoveSenderQueueItem : E → QueueKey → Item → Bool × E
  /-- The test `IsAllSenderQueueEmpty()`. -/
  IsAllSenderQueueEmpty : E → Bool

/-- Modelled from the spec: construction and hot reconfiguration of a
`SenderQueue` (`SenderQueue.h` is not among the sources), as used by
`CreateQueue`: the constructor takes capacity, low watermark, high watermark,
key, flusher id and pipeline context; the two setters return the queue
afterwards. -/
structure SenderQueueConfigOps (Q Ctx Limiters : Type) where
  /-- The constructor called by `try_emplace`. -/
  Create : Nat → Nat → Nat → QueueKey → String → Ctx → Q
  /-- The call `SetConcurrencyLimiters(map)`. -/
  SetConcurrencyLimiters : Q → Limiters → Q
  /-- The call `SetRateLimiter(maxRate)`. -/
  SetRateLimiter : Q → Nat → Q

/-! ## Maps -/

/-- The lookup `m.find(key)` of an `unordered_map`. -/
def mapFind {V : Type} : List (QueueKey × V) → QueueKey → Option V
  | [], _ => none
  | (k, v) :: rest, key => if k = key then some v else mapFind rest key

/-- The keys of a map, in iteration order. -/
def mapKeys {V : Type} (m : List (QueueKey × V)) : List QueueKey :=
  m.map Prod.fst

/-- The removal `m.erase(m.find(key))`: keys are unique in an `unordered_map`,
so the entry found is every entry with that key. -/
def mapErase {V : Type} (m : List (QueueKey × V)) (key : QueueKey) : List (QueueKey × V) :=
  m.filter (fun p => p.1 != key)

/-- In-place update of the value stored under `key` (a write through
`iter->second`). -/
def mapSet {V : Type} (m : List (QueueKey × V)) (key : QueueKey) (v : V) : List (QueueKey × V) :=
  m.map (fun p => if p.1 = key then (p.1, v) else p)

/-- A map holds no key twice. -/
def keysNodup {V : Type} (m : List (QueueKey × V)) : Prop :=
  (mapKeys m).Nodup

instance {V : Type} (m : List (QueueKey × V)) : Decidable (keysNodup m) := by
  unfold keysNodup; infer_instance

/-! ## State -/

/-- The members of `SenderQueueManager`, together with the two singletons its
operations act on: the exactly-once registry and the log of the keys handed to
`QueueKeyManager::RemoveKey`. -/
structure SenderQueueManager (Q E : Type) where
  /-- The map `mQueues`, in iteration order. -/
  mQueues : List (QueueKey × Q)
  /-- The map `mQueueDeletionTimeMap`, in iteration order. -/
  mQueueDeletionTimeMap : List (QueueKey × Int)
  /-- The cursor `mSenderQueueBeginIndex`. -/
  mSenderQueueBeginIndex : Nat
  /-- The flag `mValidToPop`. -/
  mValidToPop : Bool
  /-- The value `mDefaultQueueParam.GetCapacity()`, set by the constructor from
  the flag `sender_queue_capacity`. -/
  mDefaultCapacity : Nat
  /-- State of `ExactlyOnceQueueManager::GetInstance()`. -/
  exactlyOnce : E
  /-- Keys passed to `QueueKeyManager::GetInstance()->RemoveKey`, oldest first. -/
  removedKeys : List QueueKey
deriving DecidableEq

/-- Default of the flag `sender_queue_gc_threshold_sec`. -/
def sender_queue_gc_threshold_sec : Int := 30

/-- Default of the flag `sender_queue_capacity`. -/
def sender_queue_capacity : Nat := 15

variable {Q E Item : Type}

/-! ## Lookup, tombstones -/

/-- `SenderQueueManager::GetQueue`: the queue stored under `key`, or `nullptr`. -/
def GetQueue (s : SenderQueueManager Q E) (key : QueueKey) : Option Q :=
  mapFind s.mQueues key

/-- `SenderQueueManager::DeleteQueue`, with `now` the value of `time(nullptr)`.
The new tombstone is put last; where `operator[]` places it in the iteration
order is left open by `unordered_map`. -/
def DeleteQueue (s : SenderQueueManager Q E) (now : Int) (key : QueueKey) :
    Bool × SenderQueueManager Q E :=
  if (mapFind s.mQueues key).isNone then (false, s)
  else if (mapFind s.mQueueDeletionTimeMap key).isSome then (false, s)
  else (true, { s with mQueueDeletionTimeMap := s.mQueueDeletionTimeMap ++ [(key, now)] })

/-- `SenderQueueManager::ReuseQueue`. -/
def ReuseQueue (s : SenderQueueManager Q E) (key : QueueKey) :
    Bool × SenderQueueManager Q E :=
  if (mapFind s.mQueueDeletionTimeMap key).isNone then (false, s)
  else (true, { s with mQueueDeletionTimeMap := mapErase s.mQueueDeletionTimeMap key })

/-! ## Push -/

/-- `SenderQueueManager::Trigger` (the flag; the condition variable is not modelled). -/
def Trigger (s : SenderQueueManager Q E) : SenderQueueManager Q E :=
  { s with mValidToPop := true }

/-- `SenderQueueManager::PushQueue`: result code and state afterwards. -/
def PushQueue (ops : SenderQueueOps Q Item) (eo : ExactlyOnceOps E Item)
    (s : SenderQueueManager Q E) (key : QueueKey) (item : Item) :
    Int × SenderQueueManager Q E :=
  match mapFind s.mQueues key with
  | some q =>
    let r := ops.Push q item
    let s1 := { s with mQueues := mapSet s.mQueues key r.2 }
    if !r.1 then (1, s1) else (0, Trigger s1)
  | none =>
    let r := eo.PushSenderQueue s.exactlyOnce key item
    let s1 := { s with exactlyOnce := r.2 }
    if r.1 != 0 then (r.1, s1) else (0, Trigger s1)

/-! ## Drain -/

/-- Conversion of an `int32_t` to `size_t` (64 bits). -/
def toSizeT (x : Int) : Nat := (x % 2 ^ 64).toNat

/-- The cast `(int)` of a `size_t`: the low 32 bits, read as two's complement. -/
def toInt32 (n : Nat) : Int :=
  if n % 2 ^ 32 < 2 ^ 31 then ((n % 2 ^ 32 : Nat) : Int) else ((n % 2 ^ 32 : Nat) : Int) - 2 ^ 32

/-- The value `(int)(mDefaultQueueParam.GetCapacity() * 0.3)`.  The product is
computed in `double` and truncated; for every capacity below `2 ^ 31` (the
capacity comes from an `INT32` flag) that is `⌊3 * cap / 10⌋`. -/
def capacityShare (cap : Nat) : Int := ((cap * 3 / 10 : Nat) : Int)

/-- The local `cntLimitPerQueue`:
`std::max((int)(cap * 0.3), (int)(itemsCntLimit / mQueues.size()))`, where the
division is done in `size_t`. -/
def cntLimitPerQueue (cap : Nat) (itemsCntLimit : Int) (size : Nat) : Int :=
  max (capacityShare cap) (toInt32 (toSizeT itemsCntLimit / size))

/-- One `for` loop of `GetAvailableItems` over a range of `mQueues`: each queue
in turn appends to `items`.  Returns the queues afterwards and the vector. -/
def drainRange (ops : SenderQueueOps Q Item) (limit : Int) :
    List (QueueKey × Q) → List Item → List (QueueKey × Q) × List Item
  | [], items => ([], items)
  | (k, q) :: rest, items =>
    let r := ops.GetAvailableItems q limit
    let t := drainRange ops limit rest (items ++ r.1)
    ((k, r.2) :: t.1, t.2)

/-- `SenderQueueManager::GetAvailableItems`: state afterwards and the vector
`items` afterwards. -/
def GetAvailableItems (ops : SenderQueueOps Q Item) (eo : ExactlyOnceOps E Item)
    (s : SenderQueueManager Q E) (items : List Item) (itemsCntLimit : Int) :
    SenderQueueManager Q E × List Item :=
  if s.mQueues.isEmpty then (s, items)
  else
    let n :=
      if itemsCntLimit = -1 then
        let d := drainRange ops (-1) s.mQueues items
        ({ s with mQueues := d.1 }, d.2)
      else
        let cnt := cntLimitPerQueue s.mDefaultCapacity itemsCntLimit s.mQueues.length
        let idx := s.mSenderQueueBeginIndex % s.mQueues.length
        let back := drainRange ops cnt (s.mQueues.drop idx) items
        let front := drainRange ops cnt (s.mQueues.take idx) back.2
        ({ s with mQueues := front.1 ++ back.1, mSenderQueueBeginIndex := idx + 1 }, front.2)
    let r := eo.GetAvailableSenderQueueItems n.1.exactlyOnce itemsCntLimit
    ({ n.1 with exactlyOnce := r.2 }, n.2 ++ r.1)

/-! ## Garbage collection -/

/-- The test of line 176 without its negation:
`curTime >= deletionTime && curTime - deletionTime >= threshold`. -/
def tombstoneAged (curTime threshold deletionTime : Int) : Bool :=
  decide (curTime ≥ deletionTime) && decide (curTime - deletionTime ≥ threshold)

/-- The variables of the `while` loop of `ClearUnusedQueues`: the tombstones
before `iter` and from `iter` on, the queue map, and the `RemoveKey` log. -/
structure GCLoop (Q : Type) where
  /-- Tombstones the iterator has passed. -/
  kept : List (QueueKey × Int)
  /-- Tombstones from `iter` to `end()`. -/
  rest : List (QueueKey × Int)
  /-- The map `mQueues`. -/
  mQueues : List (QueueKey × Q)
  /-- The `RemoveKey` log. -/
  removedKeys : List QueueKey
deriving DecidableEq

/-- One iteration of the `while` loop; the identity once `iter == end()`.  A
tombstone without a queue takes the `continue` that does not advance `iter`. -/
def gcStep (ops : SenderQueueOps Q Item) (curTime threshold : Int) (st : GCLoop Q) : GCLoop Q :=
  match st.rest with
  | [] => st
  | (k, t) :: tl =>
    if !tombstoneAged curTime threshold t then
      { st with kept := st.kept ++ [(k, t)], rest := tl }
    else
      match mapFind st.mQueues k with
      | none => st
      | some q =>
        if !ops.Empty q then
          { st with kept := st.kept ++ [(k, t)], rest := tl }
        else
          { st with rest := tl, mQueues := mapErase st.mQueues k,
                    removedKeys := st.removedKeys ++ [k] }

/-- The loop variables on entry to the loop. -/
def gcStart (s : SenderQueueManager Q E) : GCLoop Q :=
  { kept := [], rest := s.mQueueDeletionTimeMap, mQueues := s.mQueues,
    removedKeys := s.removedKeys }

/-- The loop variables after `n` iterations. -/
def gcIterate (ops : SenderQueueOps Q Item) (curTime threshold : Int) : Nat → GCLoop Q → GCLoop Q
  | 0, st => st
  | n + 1, st => gcIterate ops curTime threshold n (gcStep ops curTime threshold st)

/-- `SenderQueueManager::ClearUnusedQueues`, with `curTime` the value of
`time(nullptr)` and `threshold` the flag `sender_queue_gc_threshold_sec`:
the state on return, or `none` when the loop is still running after `fuel`
iterations. -/
def ClearUnusedQueues (ops : SenderQueueOps Q Item) (fuel : Nat) (curTime threshold : Int)
    (s : SenderQueueManager Q E) : Option (SenderQueueManager Q E) :=
  let st := gcIterate ops curTime threshold fuel (gcStart s)
  if st.rest.isEmpty then
    some { s with mQueues := st.mQueues, mQueueDeletionTimeMap := st.kept,
                  removedKeys := st.removedKeys }
  else none

/-- A key whose queue a GC pass at `curTime` may destroy in the state `s`: it
has a tombstone `t` with `curTime >= t` and `curTime - t >= threshold`, and it is
mapped to a queue that is empty. -/
def gcRemovable (ops : SenderQueueOps Q Item) (curTime threshold : Int)
    (s : SenderQueueManager Q E) (k : QueueKey) : Prop :=
  ∃ t q, (k, t) ∈ s.mQueueDeletionTimeMap ∧ curTime ≥ t ∧ curTime - t ≥ threshold ∧
    mapFind s.mQueues k = some q ∧ ops.Empty q = true

/-- Loop invariant of `ClearUnusedQueues` relative to the state `s` on entry: the
tombstones still to visit are tombstones of `s`, and every key is either mapped
as in `s` or is absent and was removable in `s`. -/
def gcSound (ops : SenderQueueOps Q Item) (curTime threshold : Int)
    (s : SenderQueueManager Q E) (st : GCLoop Q) : Prop :=
  (∀ p ∈ st.rest, p ∈ s.mQueueDeletionTimeMap) ∧
  ∀ k, mapFind st.mQueues k = mapFind s.mQueues k ∨
    (mapFind st.mQueues k = none ∧ gcRemovable ops curTime threshold s k)

/-- The outcome of the tests of one loop iteration for the tombstone `p` when the
queue map is `qs`: the tombstone is aged (line 176) and its queue is found and
empty (lines 182 to 187), so that the iteration erases both. -/
def gcDestroys (ops : SenderQueueOps Q Item) (curTime threshold : Int)
    (qs : List (QueueKey × Q)) (p : QueueKey × Int) : Bool :=
  tombstoneAged curTime threshold p.2 &&
    (match mapFind qs p.1 with
     | some q => ops.Empty q
     | none => false)

/-! ## Creation, removal, emptiness, backpressure, wake-up -/

/-- Modelled from the spec: `mDefaultQueueParam.GetLowWatermark()`
(`BoundedQueueParam` is not among the sources).  The constructor builds the
parameter with ratio `1.0`; §6: the low watermark equals the capacity. -/
def defaultLowWatermark (s : SenderQueueManager Q E) : Nat := s.mDefaultCapacity

/-- Modelled from the spec: `mDefaultQueueParam.GetHighWatermark()`
(`BoundedQueueParam` is not among the sources); §6: the high watermark equals
the capacity. -/
def defaultHighWatermark (s : SenderQueueManager Q E) : Nat := s.mDefaultCapacity

/-- `SenderQueueManager::CreateQueue`.  When the key is absent the queue built by
`try_emplace` is found again by `find` and receives the two setters; it is put
last, where `try_emplace` places it in the iteration order being left open by
`unordered_map`. -/
def CreateQueue {Ctx Limiters : Type} (cfg : SenderQueueConfigOps Q Ctx Limiters)
    (s : SenderQueueManager Q E) (key : QueueKey) (flusherId : String) (ctx : Ctx)
    (concurrencyLimitersMap : Limiters) (maxRate : Nat) : Bool × SenderQueueManager Q E :=
  match mapFind s.mQueues key with
  | none =>
    let q := cfg.Create s.mDefaultCapacity (defaultLowWatermark s) (defaultHighWatermark s)
      key flusherId ctx
    let q2 := cfg.SetRateLimiter (cfg.SetConcurrencyLimiters q concurrencyLimitersMap) maxRate
    (true, { s with mQueues := s.mQueues ++ [(key, q2)] })
  | some q =>
    let q2 := cfg.SetRateLimiter (cfg.SetConcurrencyLimiters q concurrencyLimitersMap) maxRate
    (true, { s with mQueues := mapSet s.mQueues key q2 })

/-- `SenderQueueManager::RemoveItem`: result and state afterwards. -/
def RemoveItem (ops : SenderQueueOps Q Item) (eo : ExactlyOnceOps E Item)
    (s : SenderQueueManager Q E) (key : QueueKey) (item : Item) :
    Bool × SenderQueueManager Q E :=
  match mapFind s.mQueues key with
  | some q =>
    let r := ops.Remove q item
    (r.1, { s with mQueues := mapSet s.mQueues key r.2 })
  | none =>
    let r := eo.RemoveSenderQueueItem s.exactlyOnce key item
    (r.1, { s with exactlyOnce := r.2 })

/-- `SenderQueueManager::IsAllQueueEmpty`, a `const` member: the loop returns
false at the first queue that is not empty, otherwise the exactly-once registry
decides. -/
def IsAllQueueEmpty (ops : SenderQueueOps Q Item) (eo : ExactlyOnceOps E Item)
    (s : SenderQueueManager Q E) : Bool :=
  if s.mQueues.any (fun p => !ops.Empty p.2) then false
  else eo.IsAllSenderQueueEmpty s.exactlyOnce

/-- `SenderQueueManager::IsValidToPush`, a `const` member. -/
def IsValidToPush (ops : SenderQueueOps Q Item) (s : SenderQueueManager Q E)
    (key : QueueKey) : Bool :=
  match mapFind s.mQueues key with
  | some q => ops.IsValidToPush q
  | none => false

/-- `SenderQueueManager::Wait(ms)` when no `Trigger` runs during the wait:
`wait_for` returns with the flag as it found it (at once when it is set, after
`ms` milliseconds otherwise), and the flag is consumed. -/
def Wait (s : SenderQueueManager Q E) (_ms : Nat) : Bool × SenderQueueManager Q E :=
  if s.mValidToPop then (true, { s with mValidToPop := false }) else (false, s)

/-- `SenderQueueManager::Clear` (unit-test build). -/
def Clear (s : SenderQueueManager Q E) : SenderQueueManager Q E :=
  { s with mQueues := [], mQueueDeletionTimeMap := [] }

/-- Consecutive drain cycles: `GetAvailableItems` called `n` times with the limit
`itemsCntLimit`, the vector being passed on from one call to the next. -/
def drainCycles (ops : SenderQueueOps Q Item) (eo : ExactlyOnceOps E Item)
    (itemsCntLimit : Int) :
    Nat → SenderQueueManager Q E → List Item → SenderQueueManager Q E × List Item
  | 0, s, items => (s, items)
  | n + 1, s, items =>
    let r := GetAvailableItems ops eo s items itemsCntLimit
    drainCycles ops eo itemsCntLimit n r.1 r.2

/-- Modelled from the spec: the admission law of `SenderQueue` (`SenderQueue.h`
is not among the sources), §3 and §4.1: a push succeeds only if the queue is
valid to push, so a queue that is not valid to push refuses every item. -/
def PushRespectsValidToPush (ops : SenderQueueOps Q Item) : Prop :=
  ∀ q item, ops.IsValidToPush q = false → (ops.Push q item).1 = false

/-! ## Sequences of operations -/

/-- A call of one of the state-changing operations, with its arguments. -/
inductive ManagerOp (Item Ctx Limiters : Type) where
  /-- `CreateQueue(key, flusherId, ctx, concurrencyLimitersMap, maxRate)`. -/
  | createQueue (key : QueueKey) (flusherId : String) (ctx : Ctx) (lims : Limiters)
      (maxRate : Nat)
  /-- `DeleteQueue(key)` at clock value `now`. -/
  | deleteQueue (now : Int) (key : QueueKey)
  /-- `ReuseQueue(key)`. -/
  | reuseQueue (key : QueueKey)
  /-- `PushQueue(key, item)`. -/
  | pushQueue (key : QueueKey) (item : Item)
  /-- `GetAvailableItems(items, itemsCntLimit)`. -/
  | getAvailableItems (items : List Item) (itemsCntLimit : Int)
  /-- `RemoveItem(key, item)`. -/
  | removeItem (key : QueueKey) (item : Item)
  /-- `ClearUnusedQueues()` at clock value `curTime`, the flag
  `sender_queue_gc_threshold_sec` being `threshold`. -/
  | clearUnusedQueues (curTime threshold : Int)
  /-- `Clear()`. -/
  | clear

/-- The state after one call, or `none` when the call does not return.  The loop
of `ClearUnusedQueues` is given one iteration per tombstone: it either erases or
passes a tombstone in each iteration, or stays at the same tombstone for ever. -/
def applyOp {Ctx Limiters : Type} (ops : SenderQueueOps Q Item) (eo : ExactlyOnceOps E Item)
    (cfg : SenderQueueConfigOps Q Ctx Limiters) (s : SenderQueueManager Q E) :
    ManagerOp Item Ctx Limiters → Option (SenderQueueManager Q E)
  | .createQueue key flusherId ctx lims maxRate =>
    some (CreateQueue cfg s key flusherId ctx lims maxRate).2
  | .deleteQueue now key => some (DeleteQueue s now key).2
  | .reuseQueue key => some (ReuseQueue s key).2
  | .pushQueue key item => some (PushQueue ops eo s key item).2
  | .getAvailableItems items itemsCntLimit =>
    some (GetAvailableItems ops eo s items itemsCntLimit).1
  | .removeItem key item => some (RemoveItem ops eo s key item).2
  | .clearUnusedQueues curTime threshold =>
    ClearUnusedQueues ops s.mQueueDeletionTimeMap.length curTime threshold s
  | .clear => some (Clear s)

/-- The state after a sequence of calls made one after the other. -/
def runOps {Ctx Limiters : Type} (ops : SenderQueueOps Q Item) (eo : ExactlyOnceOps E Item)
    (cfg : SenderQueueConfigOps Q Ctx Limiters) :
    SenderQueueManager Q E → List (ManagerOp Item Ctx Limiters) →
      Option (SenderQueueManager Q E)
  | s, [] => some s
  | s, op :: rest =>
    match applyOp ops eo cfg s op with
    | none => none
    | some s2 => runOps ops eo cfg s2 rest

/-- The loop of `ClearUnusedQueues` is about to take the `continue` of line 185
(`// should not happen`): the tombstone at `iter` is aged and `mQueues` has no
queue for its key. -/
def gcAtMissingQueue (curTime threshold : Int) (st : GCLoop Q) : Bool :=
  match st.rest with
  | [] => false
  | (k, t) :: _ => tombstoneAged curTime threshold t && (mapFind st.mQueues k).isNone

/-- The registry invariant: no key is tombstoned twice and every tombstoned key
has a queue. -/
def registryInvariant (s : SenderQueueManager Q E) : Prop :=
  keysNodup s.mQueueDeletionTimeMap ∧
  ∀ k ∈ mapKeys s.mQueueDeletionTimeMap, k ∈ mapKeys s.mQueues

/-- The registry invariant on the variables of the GC loop. -/
def gcRegistered (st : GCLoop Q) : Prop :=
  keysNodup (st.kept ++ st.rest) ∧
  ∀ k ∈ mapKeys (st.kept ++ st.rest), k ∈ mapKeys st.mQueues

/-! ## Lock traces -/

/-- The three mutexes of `SenderQueueManager`. -/
inductive Mutex where
  /-- Guards `mQueues`. -/
  | mQueueMux
  /-- Guards `mQueueDeletionTimeMap`. -/
  | mGCMux
  /-- Guards `mValidToPop`. -/
  | mStateMux
deriving DecidableEq

/-- An event in the lock trace of an operation. -/
inductive LockEvent where
  /-- A `lock_guard` or `unique_lock` takes the mutex. -/
  | acquire (m : Mutex)
  /-- The guard goes out of scope, or `wait_for` unlocks. -/
  | release (m : Mutex)
deriving DecidableEq

/-- A call of a member function of `SenderQueueManager`, with the arguments its
lock trace depends on. -/
inductive ManagerCall (Item : Type) where
  /-- `CreateQueue`. -/
  | CreateQueue
  /-- `GetQueue`. -/
  | GetQueue
  /-- `DeleteQueue(key)`. -/
  | DeleteQueue (key : QueueKey)
  /-- `ReuseQueue`. -/
  | ReuseQueue
  /-- `PushQueue(key, item)`. -/
  | PushQueue (key : QueueKey) (item : Item)
  /-- `GetAvailableItems`. -/
  | GetAvailableItems
  /-- `RemoveItem`. -/
  | RemoveItem
  /-- `DecreaseConcurrencyLimiterInSendingCnt`. -/
  | DecreaseConcurrencyLimiterInSendingCnt
  /-- `IsAllQueueEmpty`. -/
  | IsAllQueueEmpty
  /-- `ClearUnusedQueues`, observed for `iterations` loop iterations. -/
  | ClearUnusedQueues (iterations : Nat) (curTime threshold : Int)
  /-- `IsValidToPush`. -/
  | IsValidToPush
  /-- `Wait`. -/
  | Wait
  /-- `Trigger`. -/
  | Trigger
  /-- `SetPipelineForItems`. -/
  | SetPipelineForItems
  /-- `Clear` (unit-test build). -/
  | Clear
  /-- `IsQueueMarkedDeleted` (unit-test build). -/
  | IsQueueMarkedDeleted

/-- The lock events of the loop of `ClearUnusedQueues` during its next `n`
iterations, `mGCMux` being held: an iteration whose tombstone is aged opens and
closes the block that locks `mQueueMux` (lines 180 to 192; both `continue`s
leave the block); when the loop has ended the function returns and `mGCMux` is
released. -/
def gcLocks (ops : SenderQueueOps Q Item) (curTime threshold : Int) :
    Nat → GCLoop Q → List LockEvent
  | 0, st => if st.rest.isEmpty then [.release .mGCMux] else []
  | n + 1, st =>
    match st.rest with
    | [] => [.release .mGCMux]
    | (_, t) :: _ =>
      (if tombstoneAged curTime threshold t then
        [.acquire .mQueueMux, .release .mQueueMux]
       else [])
        ++ gcLocks ops curTime threshold n (gcStep ops curTime threshold st)

/-- The acquire/release trace of a call in the state `s`, read off the
`lock_guard` and `unique_lock` scopes of the member functions. -/
def lockTrace (ops : SenderQueueOps Q Item) (eo : ExactlyOnceOps E Item)
    (s : SenderQueueManager Q E) : ManagerCall Item → List LockEvent
  | .CreateQueue => [.acquire .mQueueMux, .release .mQueueMux]
  | .GetQueue => [.acquire .mQueueMux, .release .mQueueMux]
  | .DeleteQueue key =>
    [.acquire .mQueueMux, .release .mQueueMux] ++
      (if (mapFind s.mQueues key).isNone then []
       else [.acquire .mGCMux, .release .mGCMux])
  | .ReuseQueue => [.acquire .mGCMux, .release .mGCMux]
  | .PushQueue key item =>
    [.acquire .mQueueMux, .release .mQueueMux] ++
      (if (PushQueue ops eo s key item).1 = 0 then [.acquire .mStateMux, .release .mStateMux]
       else [])
  | .GetAvailableItems => [.acquire .mQueueMux, .release .mQueueMux]
  | .RemoveItem => [.acquire .mQueueMux, .release .mQueueMux]
  | .DecreaseConcurrencyLimiterInSendingCnt => [.acquire .mQueueMux, .release .mQueueMux]
  | .IsAllQueueEmpty => [.acquire .mQueueMux, .release .mQueueMux]
  | .ClearUnusedQueues iterations curTime threshold =>
    .acquire .mGCMux :: gcLocks ops curTime threshold iterations (gcStart s)
  | .IsValidToPush => [.acquire .mQueueMux, .release .mQueueMux]
  | .Wait =>
    [.acquire .mStateMux] ++
      (if s.mValidToPop then [] else [.release .mStateMux, .acquire .mStateMux]) ++
      [.release .mStateMux]
  | .Trigger => [.acquire .mStateMux, .release .mStateMux]
  | .SetPipelineForItems => [.acquire .mQueueMux, .release .mQueueMux]
  | .Clear => [.acquire .mQueueMux, .release .mQueueMux]
  | .IsQueueMarkedDeleted => [.acquire .mGCMux, .release .mGCMux]

/-- Some event of the trace acquires `inner` while `outer` is held, `held` being
the mutexes held when the trace starts. -/
def acquiresWhileHeld (inner outer : Mutex) : List Mutex → List LockEvent → Bool
  | _, [] => false
  | held, .acquire m :: rest =>
    (m == inner && held.contains outer) || acquiresWhileHeld inner outer (m :: held) rest
  | held, .release m :: rest => acquiresWhileHeld inner outer (held.erase m) rest

/-- The lock regions of the trace are strictly nested: no mutex is acquired
while it is held, and every release is of the mutex acquired last among those
still held (`held` lists them, the last acquired first). -/
def properlyNested : List Mutex → List LockEvent → Bool
  | _, [] => true
  | held, .acquire m :: rest => !held.contains m && properlyNested (m :: held) rest
  | [], .release _ :: _ => false
  | h :: held, .release m :: rest => h == m && properlyNested held rest

/-! ## A plain queue and a plain exactly-once registry

Concrete collaborators on which the operations can be evaluated. -/

/-- Modelled from the spec: a `SenderQueue` with no limiter attached (§3, §4.1;
`SenderQueue.h` is not among the sources): high watermark, pending items and the
number of items in flight. -/
structure PlainQueue where
  /-- High watermark `H`. -/
  high : Nat
  /-- Pending items, head first. -/
  pending : List Nat
  /-- The counter `sending`. -/
  sending : Nat
deriving DecidableEq

/-- Modelled from the spec: the operations of a `SenderQueue` with no limiter
attached (§4.1): `push` is accepted iff `len(pending) + sending < H` and appends
to the tail; `get_available(limit)` takes up to `limit` items from the head
(`-1`: all of them) and adds their number to `sending`; the queue is empty when
nothing is pending and nothing is in flight; `remove` finalises one item in
flight and decrements `sending`; `valid_to_push` is `len(pending) + sending < H`. -/
def plainQueueOps : SenderQueueOps PlainQueue Nat where
  Empty q := q.pending.isEmpty && q.sending == 0
  Push q item :=
    if q.pending.length + q.sending < q.high then (true, { q with pending := q.pending ++ [item] })
    else (false, q)
  GetAvailableItems q limit :=
    let n := if limit = -1 then q.pending.length else limit.toNat
    (q.pending.take n,
      { q with pending := q.pending.drop n, sending := q.sending + (q.pending.take n).length })
  Remove q _ :=
    if 0 < q.sending then (true, { q with sending := q.sending - 1 }) else (false, q)
  IsValidToPush q := decide (q.pending.length + q.sending < q.high)

/-- Modelled from the spec: an exactly-once registry (§6, §7;
`ExactlyOnceQueueManager.h` is not among the sources) holding one item list per
key: a push to a key it holds is accepted with code 0, a push to any other key
is refused with the registry's own code 2; a drain hands out every item; a
remove succeeds for a key it holds; it is empty when every list is. -/
def plainExactlyOnceOps : ExactlyOnceOps (List (QueueKey × List Nat)) Nat where
  PushSenderQueue e key item :=
    match mapFind e key with
    | some q => (0, mapSet e key (q ++ [item]))
    | none => (2, e)
  GetAvailableSenderQueueItems e _ :=
    ((e.map Prod.snd).flatten, e.map (fun p => (p.1, [])))
  RemoveSenderQueueItem e key _ := ((mapFind e key).isSome, e)
  IsAllSenderQueueEmpty e := e.all (fun p => p.2.isEmpty)

/-- A queue that only records the limits it is asked for. -/
def recordingQueueOps : SenderQueueOps (List Int) Nat where
  Empty q := q.isEmpty
  Push q _ := (true, q)
  GetAvailableItems q limit := ([], q ++ [limit])
  Remove q _ := (true, q)
  IsValidToPush _ := true

/-- A plain queue holding the items `first, first + 1, ..., first + count - 1`,
with the default capacity as high watermark. -/
def plainQueueOf (first count : Nat) : PlainQueue :=
  { high := sender_queue_capacity, pending := List.range' first count, sending := 0 }

/-- An empty manager with the default capacity and the given exactly-once state. -/
def emptyManager {Q E : Type} (e : E) : SenderQueueManager Q E :=
  { mQueues := [], mQueueDeletionTimeMap := [], mSenderQueueBeginIndex := 0,
    mValidToPop := false, mDefaultCapacity := sender_queue_capacity, exactlyOnce := e,
    removedKeys := [] }

/-- Scenario S3: queues 0, 1, 2 with ten items each (`0..9`, `10..19`, `20..29`). -/
def scenarioS3 : SenderQueueManager PlainQueue (List (QueueKey × List Nat)) :=
  { mQueues := [(0, plainQueueOf 0 10), (1, plainQueueOf 10 10), (2, plainQueueOf 20 10)],
    mQueueDeletionTimeMap := [], mSenderQueueBeginIndex := 0, mValidToPop := false,
    mDefaultCapacity := sender_queue_capacity, exactlyOnce := [], removedKeys := [] }

/-- A manager with no normal queue whose exactly-once registry holds the
(empty) queue 5. -/
def scenarioExactlyOnceOnly : SenderQueueManager PlainQueue (List (QueueKey × List Nat)) :=
  emptyManager [(5, [])]

/-- Three recording queues 0, 1, 2 that have not been asked yet, default capacity. -/
def scenarioRecording : SenderQueueManager (List Int) (List (QueueKey × List Nat)) :=
  { mQueues := [(0, []), (1, []), (2, [])], mQueueDeletionTimeMap := [],
    mSenderQueueBeginIndex := 0, mValidToPop := false,
    mDefaultCapacity := sender_queue_capacity, exactlyOnce := [], removedKeys := [] }

/-- Scenario S4: queue 7 holds one item, queue 8 is empty, queue 9 is empty;
7 and 8 were tombstoned at time 100, 9 is live. -/
def scenarioS4 : SenderQueueManager PlainQueue (List (QueueKey × List Nat)) :=
  { mQueues := [(7, plainQueueOf 0 1), (8, plainQueueOf 0 0), (9, plainQueueOf 0 0)],
    mQueueDeletionTimeMap := [(7, 100), (8, 100)], mSenderQueueBeginIndex := 0,
    mValidToPop := false, mDefaultCapacity := sender_queue_capacity, exactlyOnce := [],
    removedKeys := [] }

/-- Scenario S3 after one drain with limit 9: the cursor is 1 and every queue
has six items left. -/
def scenarioS3Drained : SenderQueueManager PlainQueue (List (QueueKey × List Nat)) :=
  (GetAvailableItems plainQueueOps plainExactlyOnceOps scenarioS3 [] 9).1

/-- Scenario S2: queue 1 has `H = 2` and holds two items. -/
def scenarioS2 : SenderQueueManager PlainQueue (List (QueueKey × List Nat)) :=
  { mQueues := [(1, { high := 2, pending := [10, 11], sending := 0 })],
    mQueueDeletionTimeMap := [], mSenderQueueBeginIndex := 0, mValidToPop := false,
    mDefaultCapacity := sender_queue_capacity, exactlyOnce := [], removedKeys := [] }

/-- Modelled from the spec: reconfiguration of a plain queue, which carries no
limiter (§4.1: the setters must not invalidate items): both setters leave the
queue as it is; the constructor builds an empty queue with the high watermark
it is given. -/
def plainQueueConfigOps : SenderQueueConfigOps PlainQueue Unit Unit where
  Create _ _ high _ _ _ := { high := high, pending := [], sending := 0 }
  SetConcurrencyLimiters q _ := q
  SetRateLimiter q _ := q

/-- A life cycle of queue 1: created, one item pushed, tombstoned at 100,
drained, the item removed, collected at 200, created again with an item,
tombstoned at 300, collected at 400 while not empty, then everything cleared and
queue 2 created. -/
def scenarioLifeCycle : List (ManagerOp Nat Unit Unit) :=
  [.createQueue 1 "flusher" () () 0, .pushQueue 1 50, .deleteQueue 100 1,
   .getAvailableItems [] (-1), .removeItem 1 50, .clearUnusedQueues 200 30,
   .createQueue 1 "flusher" () () 0, .pushQueue 1 51, .deleteQueue 300 1,
   .clearUnusedQueues 400 30, .reuseQueue 1, .clear, .createQueue 2 "flusher" () () 0]

/-! ## Strptime

`core/common/Strptime.cpp` as pure functions.  A `const char*` into a
NUL-terminated string is the list of the characters from the pointer up to the
terminator, `NULL` is `none`; the objects behind `tm`, `nanosecond` and
`nanosecondLength` are passed in and returned.  The POSIX build is embedded
(`localtime_r`; `_TM_DEFINED`, `TM_GMTOFF` and `TM_ZONE` are not defined). -/

/-- The fields of `struct tm` that the parser writes. -/
structure Tm where
  /-- Seconds. -/
  tm_sec : Int
  /-- Minutes. -/
  tm_min : Int
  /-- Hours. -/
  tm_hour : Int
  /-- Day of the month. -/
  tm_mday : Int
  /-- Month, 0 to 11. -/
  tm_mon : Int
  /-- Year minus 1900. -/
  tm_year : Int
  /-- Day of the week. -/
  tm_wday : Int
  /-- Day of the year. -/
  tm_yday : Int
  /-- Daylight saving flag. -/
  tm_isdst : Int
deriving DecidableEq

/-- The macro `TM_YEAR_BASE`. -/
def TM_YEAR_BASE : Int := 1900

/-- The macro `ALT_E`. -/
def ALT_E : Nat := 1

/-- The macro `ALT_O`. -/
def ALT_O : Nat := 2

/-- The macro `LEGAL_ALT(x)` does not return: `alt_format & ~(x)` is zero (32-bit
complement). -/
def LEGAL_ALT (alt_format x : Nat) : Bool :=
  (alt_format &&& (2 ^ 32 - 1 - x)) == 0

/-- The array `gmt`. -/
def gmt : List Char := "GMT".toList

/-- The array `utc`. -/
def utc : List Char := "UTC".toList

/-- The table `nast`; its fifth entry is the empty string. -/
def nast : List (List Char) := ["EST".toList, "CST".toList, "MST".toList, "PST".toList, []]

/-- The table `nadt`; its fifth entry is the empty string. -/
def nadt : List (List Char) := ["EDT".toList, "CDT".toList, "MDT".toList, "PDT".toList, []]

/-- The table `day`. -/
def day : List (List Char) :=
  ["Sunday".toList, "Monday".toList, "Tuesday".toList, "Wednesday".toList, "Thursday".toList,
   "Friday".toList, "Saturday".toList]

/-- The table `abday`. -/
def abday : List (List Char) :=
  ["Sun".toList, "Mon".toList, "Tue".toList, "Wed".toList, "Thu".toList, "Fri".toList,
   "Sat".toList]

/-- The table `mon`. -/
def mon : List (List Char) :=
  ["January".toList, "February".toList, "March".toList, "April".toList, "May".toList,
   "June".toList, "July".toList, "August".toList, "September".toList, "October".toList,
   "November".toList, "December".toList]

/-- The table `abmon`. -/
def abmon : List (List Char) :=
  ["Jan".toList, "Feb".toList, "Mar".toList, "Apr".toList, "May".toList, "Jun".toList,
   "Jul".toList, "Aug".toList, "Sep".toList, "Oct".toList, "Nov".toList, "Dec".toList]

/-- The table `am_pm`. -/
def am_pm : List (List Char) := ["AM".toList, "PM".toList]

/-- The terminator of a C string. -/
def NUL : Char := Char.ofNat 0

/-- The character `*bp`: the terminator when nothing is left.  (A read beyond the
terminator, which only `%G` at the end of the input can make, is undefined in C;
here it reads the terminator again.) -/
def peek (bp : List Char) : Char := bp.headD NUL

/-- `isspace` in the C locale. -/
def isspace (c : Char) : Bool :=
  c.toNat == 32 || (decide (9 ≤ c.toNat) && decide (c.toNat ≤ 13))

/-- `isdigit`, which is also the test `ch >= '0' && ch <= '9'`. -/
def isdigit (c : Char) : Bool :=
  decide (48 ≤ c.toNat) && decide (c.toNat ≤ 57)

/-- The value `ch - '0'` of a digit. -/
def digitValue (c : Char) : Nat := c.toNat - 48

/-- The loop `while (isspace(*bp)) bp++`. -/
def skipSpace (bp : List Char) : List Char := bp.dropWhile isspace

/-- `tolower` in the C locale. -/
def tolower (c : Char) : Char :=
  if 65 ≤ c.toNat ∧ c.toNat ≤ 90 then Char.ofNat (c.toNat + 32) else c

/-- Modelled from the spec: the macro `CStringNCaseInsensitiveCmp`
(`common/StringTools.h` is not among the sources), which names `strncasecmp`:
the first `n` characters of two C strings are compared without regard to case,
the comparison ending at a terminator.  The result is 0 when they agree; the
code tests nothing else, and any other result is given as 1. -/
def CStringNCaseInsensitiveCmp : List Char → List Char → Nat → Int
  | _, _, 0 => 0
  | a, b, n + 1 =>
    if tolower (peek a) ≠ tolower (peek b) then 1
    else if peek a = NUL then 0
    else CStringNCaseInsensitiveCmp a.tail b.tail n

/-- The `do ... while` loop of `conv_num`, entered with `ch` the digit at `buf`
and `rest` the characters after it; `result` is an `unsigned int`.  Returns
`result` and `buf` on exit. -/
def conv_numLoop (ulim : Nat) : Nat → Nat → Char → List Char → Nat × List Char
  | result, _, ch, [] => ((result * 10 % 2 ^ 32 + digitValue ch) % 2 ^ 32, [])
  | result, rulim, ch, ch2 :: rest2 =>
    if decide ((result * 10 % 2 ^ 32 + digitValue ch) % 2 ^ 32 * 10 % 2 ^ 32 ≤ ulim)
        && decide (rulim / 10 ≠ 0) && isdigit ch2 then
      conv_numLoop ulim ((result * 10 % 2 ^ 32 + digitValue ch) % 2 ^ 32) (rulim / 10) ch2 rest2
    else ((result * 10 % 2 ^ 32 + digitValue ch) % 2 ^ 32, ch2 :: rest2)

/-- `conv_num(buf, dest, llim, ulim)`: the pointer returned and `*dest`
afterwards. -/
def conv_num (buf : List Char) (dest : Int) (llim ulim : Nat) : Option (List Char) × Int :=
  match buf with
  | [] => (none, dest)
  | ch :: rest =>
    if !isdigit ch then (none, dest)
    else
      let r := conv_numLoop ulim 0 ulim ch rest
      if r.1 < llim || r.1 > ulim then (none, dest)
      else (some r.2, toInt32 r.1)

/-- The `do ... while` loop of `conv_nanosecond`, entered with `ch` the digit at
`buf`: `result` (an `unsigned int`), `digitNum` and `buf` on exit. -/
def conv_nanosecondLoop : Nat → Nat → Char → List Char → Nat × Nat × List Char
  | result, digitNum, ch, [] =>
    ((result * 10 % 2 ^ 32 + digitValue ch) % 2 ^ 32, digitNum + 1, [])
  | result, digitNum, ch, ch2 :: rest2 =>
    if isdigit ch2 then
      conv_nanosecondLoop ((result * 10 % 2 ^ 32 + digitValue ch) % 2 ^ 32) (digitNum + 1) ch2
        rest2
    else ((result * 10 % 2 ^ 32 + digitValue ch) % 2 ^ 32, digitNum + 1, ch2 :: rest2)

/-- The loop `for (i = 0; i < 9 - digitNum; i++) result *= 10`, run `count`
times. -/
def padNanosecond : Nat → Nat → Nat
  | 0, result => result
  | count + 1, result => padNanosecond count (result * 10 % 2 ^ 32)

/-- `conv_nanosecond(buf, dest, nanosecondLength)`: the pointer returned, `*dest`
and `*nanosecondLength` afterwards. -/
def conv_nanosecond (buf : List Char) (dest : Int) (nanosecondLength : Int) :
    Option (List Char) × Int × Int :=
  match buf with
  | [] => (none, dest, nanosecondLength)
  | ch :: rest =>
    if !isdigit ch then (none, dest, nanosecondLength)
    else
      let r := conv_nanosecondLoop 0 0 ch rest
      (some r.2.2, ((padNanosecond (9 - r.2.1) r.1 : Nat) : Int), ((r.2.1 : Nat) : Int))

/-- The inner loop of `find_string` over one table, from index `i` on. -/
def find_stringIn (bp : List Char) : List (List Char) → Nat → Option (Nat × List Char)
  | [], _ => none
  | name :: names, i =>
    if CStringNCaseInsensitiveCmp name bp name.length = 0 then some (i, bp.drop name.length)
    else find_stringIn bp names (i + 1)

/-- `find_string(bp, tgt, n1, n2, c)`: the pointer returned and `*tgt`
afterwards; `n2` is `none` for `NULL`. -/
def find_string (bp : List Char) (tgt : Int) (n1 : List (List Char))
    (n2 : Option (List (List Char))) (c : Nat) : Option (List Char) × Int :=
  match find_stringIn bp (n1.take c) 0 with
  | some r => (some r.2, (r.1 : Int))
  | none =>
    match n2 with
    | none => (none, tgt)
    | some names =>
      match find_stringIn bp (names.take c) 0 with
      | some r => (some r.2, (r.1 : Int))
      | none => (none, tgt)

/-- The number written by a run of decimal digits. -/
def decimalValue (ds : List Char) : Nat :=
  ds.foldl (fun a c => a * 10 + digitValue c) 0

/-- The library function `strtoll(buf, &cp, 10)`: white-space, an optional sign
and decimal digits; the value is clamped to the range of `long long`; without a
digit the value is 0 and `cp` is `buf`. -/
def strtoll (buf : List Char) : Int × List Char :=
  let s := skipSpace buf
  let neg := decide (peek s = '-')
  let s1 := if peek s = '-' ∨ peek s = '+' then s.drop 1 else s
  let ds := s1.takeWhile isdigit
  if ds.isEmpty then (0, buf)
  else
    let v : Int := ((decimalValue ds : Nat) : Int)
    (if neg then (if v > 2 ^ 63 then -(2 ^ 63) else -v)
     else (if v > 2 ^ 63 - 1 then 2 ^ 63 - 1 else v),
     s1.dropWhile isdigit)

/-- The number of decimal digits of a natural number below `10 ^ (fuel + 1)`. -/
def decimalDigits : Nat → Nat → Nat
  | 0, _ => 1
  | fuel + 1, n => if n < 10 then 1 else decimalDigits fuel (n / 10) + 1

/-- The value `std::to_string(n).length()` for a `long long`: at most 19 digits,
and the sign of a negative number. -/
def to_string_length (n : Int) : Nat :=
  decimalDigits 18 n.natAbs + (if n < 0 then 1 else 0)

/-- What `strptime_ns` hands back: the pointer returned and the three objects it
writes. -/
structure StrptimeResult where
  /-- The pointer returned, `none` for `NULL`. -/
  ret : Option (List Char)
  /-- The object `*tm`. -/
  tm : Tm
  /-- The object `*nanosecond`. -/
  nanosecond : Int
  /-- The object `*nanosecondLength`. -/
  nanosecondLength : Int
deriving DecidableEq

/-- The variables of the `while` loop of `strptime_ns`.  A `return NULL` inside
the loop is the state with `bp = NULL`, at which the loop guard stops and
`return bp` gives the same result. -/
structure StrptimeState where
  /-- The pointer `bp`, `none` for `NULL`. -/
  bp : Option (List Char)
  /-- The object `*tm`. -/
  tm : Tm
  /-- The object `*nanosecond`. -/
  nanosecond : Int
  /-- The object `*nanosecondLength`. -/
  nanosecondLength : Int
  /-- The flag `split_year`. -/
  split_year : Bool
deriving DecidableEq

/-- The effect of `LEGAL_ALT(x)` placed after a conversion: `return NULL` when the
modifier is not allowed. -/
def legalAlt (alt_format x : Nat) (st : StrptimeState) : StrptimeState :=
  if LEGAL_ALT alt_format x then st else { st with bp := none }

/-- The `%s` branch of `strptime_ns` (lines 85 to 112); `localtime_r` is the
library function, `none` when it fails.  `time_t` is 64 bits wide, so the test
`(long long)(t = n) != n` never fires. -/
def strptime_epoch (localtime_r : Int → Option Tm) (buf : List Char) (tm : Tm)
    (nanosecond nanosecondLength : Int) : StrptimeResult :=
  let r := strtoll buf
  let bufLength := to_string_length r.1
  let secondTimestampLength := if bufLength ≥ 10 then 10 else bufLength
  let n := (fun x : Int => x.tdiv 10)^[bufLength - secondTimestampLength] r.1
  if n = 0 then
    { ret := none, tm := tm, nanosecond := nanosecond, nanosecondLength := nanosecondLength }
  else
    match localtime_r n with
    | none =>
      { ret := none, tm := tm, nanosecond := nanosecond, nanosecondLength := nanosecondLength }
    | some tm2 =>
      let c := conv_nanosecond (buf.drop secondTimestampLength) 0 0
      { ret := some r.2, tm := tm2, nanosecond := c.2.1, nanosecondLength := c.2.2 }

/-- The loop `for (i = 0; i < 4;)` of the `%z` conversion: `i`, `offs` and `bp`
on exit. -/
def zoneOffsetLoop : Nat → Nat → List Char → Nat × Nat × List Char
  | i, offs, [] => (i, offs, [])
  | i, offs, ch :: rest =>
    if i < 4 then
      if isdigit ch then zoneOffsetLoop (i + 1) (offs * 10 + digitValue ch) rest
      else if i = 2 ∧ ch = ':' then zoneOffsetLoop i offs rest
      else (i, offs, ch :: rest)
    else (i, offs, ch :: rest)

/-- The part of the `%z` conversion after the sign (lines 479 to 515). -/
def zoneNumeric (bp : List Char) (st : StrptimeState) : StrptimeState :=
  let r := zoneOffsetLoop 0 0 bp
  if r.1 = 2 then
    { st with bp := some r.2.2, tm := { st.tm with tm_isdst := 0 } }
  else if r.1 = 4 then
    if r.2.1 % 100 ≥ 60 then { st with bp := none }
    else { st with bp := some r.2.2, tm := { st.tm with tm_isdst := 0 } }
  else { st with bp := none }

/-- The `default` label of the inner `switch` of the `%z` conversion (lines 435
to 477), `bp` being back at the character switched on. -/
def zoneNamed (bp : List Char) (st : StrptimeState) : StrptimeState :=
  match (find_string bp 0 nast none 4).1 with
  | some ep => { st with bp := some ep }
  | none =>
    match (find_string bp 0 nadt none 4).1 with
    | some ep => { st with bp := some ep, tm := { st.tm with tm_isdst := 1 } }
    | none =>
      if (65 ≤ (peek bp).toNat ∧ (peek bp).toNat ≤ 73)
          ∨ (76 ≤ (peek bp).toNat ∧ (peek bp).toNat ≤ 89) then
        { st with bp := some (bp.drop 1) }
      else { st with bp := none }

/-- The `%z` conversion (lines 390 to 515). -/
def zoneConversion (bp0 : List Char) (st : StrptimeState) : StrptimeState :=
  let bp := skipSpace bp0
  let c := peek bp
  let bp1 := bp.drop 1
  if c = 'G' then
    if peek bp1 ≠ 'M' then { st with bp := none }
    else if peek (bp1.drop 1) ≠ 'T' then { st with bp := none }
    else { st with bp := some (bp1.drop 2), tm := { st.tm with tm_isdst := 0 } }
  else if c = 'U' then
    if peek bp1 ≠ 'T' then { st with bp := none }
    else { st with bp := some (bp1.drop 1), tm := { st.tm with tm_isdst := 0 } }
  else if c = 'Z' then
    { st with bp := some bp1, tm := { st.tm with tm_isdst := 0 } }
  else if c = '+' ∨ c = '-' then zoneNumeric bp1 st
  else zoneNamed bp st

/-- The recursive call at the label `recurse` and the `LEGAL_ALT(ALT_E)` after
it; `none` when the call does not return. -/
def recurseConversion
    (recurse : List Char → List Char → Tm → Int → Int → Option StrptimeResult)
    (alt_format : Nat) (new_fmt : List Char) (bp : List Char) (st : StrptimeState) :
    Option StrptimeState :=
  match recurse bp new_fmt st.tm st.nanosecond st.nanosecondLength with
  | none => none
  | some r =>
    some (legalAlt alt_format ALT_E
      { st with bp := r.ret, tm := r.tm, nanosecond := r.nanosecond,
                nanosecondLength := r.nanosecondLength })

/-- The `switch (c = *fmt++)` at the label `again`, with `alt_format` as set so
far, `fmt` at the conversion character and `bp` not `NULL`: the format pointer
and the loop variables at the `continue`, or `none` when a recursive call does
not return.  `recurse` is `strptime_ns` itself. -/
def strptimeSwitch
    (recurse : List Char → List Char → Tm → Int → Int → Option StrptimeResult) :
    Nat → List Char → List Char → StrptimeState → Option (List Char × StrptimeState)
  | _, [], _, st => some ([], { st with bp := none })
  | alt_format, c :: fmt, bp, st =>
    if c = '%' then
      if c ≠ peek bp then some (fmt, { st with bp := none })
      else some (fmt, legalAlt alt_format 0 { st with bp := some (bp.drop 1) })
    else if c = 'E' then
      if !LEGAL_ALT alt_format 0 then some (fmt, { st with bp := none })
      else strptimeSwitch recurse (alt_format ||| ALT_E) fmt bp st
    else if c = 'O' then
      if !LEGAL_ALT alt_format 0 then some (fmt, { st with bp := none })
      else strptimeSwitch recurse (alt_format ||| ALT_O) fmt bp st
    else if c = 'c' then
      (recurseConversion recurse alt_format "%a %b %d %H:%M:%S %Y".toList bp st).map
        (fun st2 => (fmt, st2))
    else if c = 'D' then
      if !LEGAL_ALT alt_format 0 then some (fmt, { st with bp := none })
      else (recurseConversion recurse alt_format "%m/%d/%y".toList bp st).map
        (fun st2 => (fmt, st2))
    else if c = 'F' then
      if !LEGAL_ALT alt_format 0 then some (fmt, { st with bp := none })
      else (recurseConversion recurse alt_format "%Y-%m-%d".toList bp st).map
        (fun st2 => (fmt, st2))
    else if c = 'R' then
      if !LEGAL_ALT alt_format 0 then some (fmt, { st with bp := none })
      else (recurseConversion recurse alt_format "%H:%M".toList bp st).map
        (fun st2 => (fmt, st2))
    else if c = 'r' then
      if !LEGAL_ALT alt_format 0 then some (fmt, { st with bp := none })
      else (recurseConversion recurse alt_format "%I:%M:%S %p".toList bp st).map
        (fun st2 => (fmt, st2))
    else if c = 'T' then
      if !LEGAL_ALT alt_format 0 then some (fmt, { st with bp := none })
      else (recurseConversion recurse alt_format "%H:%M:%S".toList bp st).map
        (fun st2 => (fmt, st2))
    else if c = 'X' then
      (recurseConversion recurse alt_format "%H:%M:%S".toList bp st).map
        (fun st2 => (fmt, st2))
    else if c = 'x' then
      (recurseConversion recurse alt_format "%m/%d/%y".toList bp st).map
        (fun st2 => (fmt, st2))
    else if c = 'A' ∨ c = 'a' then
      let r := find_string bp st.tm.tm_wday day (some abday) 7
      some (fmt, legalAlt alt_format 0 { st with bp := r.1, tm := { st.tm with tm_wday := r.2 } })
    else if c = 'B' ∨ c = 'b' ∨ c = 'h' then
      let r := find_string bp st.tm.tm_mon mon (some abmon) 12
      some (fmt, legalAlt alt_format 0 { st with bp := r.1, tm := { st.tm with tm_mon := r.2 } })
    else if c = 'C' then
      let r := conv_num bp 20 0 99
      let i := r.2 * 100 - TM_YEAR_BASE
      let i2 := if st.split_year then i + st.tm.tm_year.tmod 100 else i
      some (fmt, legalAlt alt_format ALT_E
        { st with bp := r.1, split_year := true, tm := { st.tm with tm_year := i2 } })
    else if c = 'd' ∨ c = 'e' then
      let r := conv_num bp st.tm.tm_mday 1 31
      some (fmt, legalAlt alt_format ALT_O
        { st with bp := r.1, tm := { st.tm with tm_mday := r.2 } })
    else if c = 'f' then
      let r := conv_nanosecond bp st.nanosecond st.nanosecondLength
      some (fmt, legalAlt alt_format ALT_O
        { st with bp := r.1, nanosecond := r.2.1, nanosecondLength := r.2.2 })
    else if c = 'k' ∨ c = 'H' then
      if c = 'k' ∧ !LEGAL_ALT alt_format 0 then some (fmt, { st with bp := none })
      else
        let r := conv_num bp st.tm.tm_hour 0 23
        some (fmt, legalAlt alt_format ALT_O
          { st with bp := r.1, tm := { st.tm with tm_hour := r.2 } })
    else if c = 'l' ∨ c = 'I' then
      if c = 'l' ∧ !LEGAL_ALT alt_format 0 then some (fmt, { st with bp := none })
      else
        let r := conv_num bp st.tm.tm_hour 1 12
        some (fmt, legalAlt alt_format ALT_O
          { st with bp := r.1, tm := { st.tm with tm_hour := if r.2 = 12 then 0 else r.2 } })
    else if c = 'j' then
      let r := conv_num bp 1 1 366
      some (fmt, legalAlt alt_format 0
        { st with bp := r.1, tm := { st.tm with tm_yday := r.2 - 1 } })
    else if c = 'M' then
      let r := conv_num bp st.tm.tm_min 0 59
      some (fmt, legalAlt alt_format ALT_O
        { st with bp := r.1, tm := { st.tm with tm_min := r.2 } })
    else if c = 'm' then
      let r := conv_num bp 1 1 12
      some (fmt, legalAlt alt_format ALT_O
        { st with bp := r.1, tm := { st.tm with tm_mon := r.2 - 1 } })
    else if c = 'p' then
      let r := find_string bp 0 am_pm none 2
      if st.tm.tm_hour > 11 then some (fmt, { st with bp := none })
      else
        some (fmt, legalAlt alt_format 0
          { st with bp := r.1, tm := { st.tm with tm_hour := st.tm.tm_hour + r.2 * 12 } })
    else if c = 'S' then
      let r := conv_num bp st.tm.tm_sec 0 61
      some (fmt, legalAlt alt_format ALT_O
        { st with bp := r.1, tm := { st.tm with tm_sec := r.2 } })
    else if c = 'U' ∨ c = 'W' then
      some (fmt, legalAlt alt_format ALT_O { st with bp := (conv_num bp 0 0 53).1 })
    else if c = 'w' then
      let r := conv_num bp st.tm.tm_wday 0 6
      some (fmt, legalAlt alt_format ALT_O
        { st with bp := r.1, tm := { st.tm with tm_wday := r.2 } })
    else if c = 'u' then
      let r := conv_num bp 0 1 7
      some (fmt, legalAlt alt_format ALT_O
        { st with bp := r.1, tm := { st.tm with tm_wday := r.2.tmod 7 } })
    else if c = 'g' then
      some (fmt, { st with bp := (conv_num bp 0 0 99).1 })
    else if c = 'G' then
      some (fmt, { st with bp := some ((bp.drop 1).dropWhile isdigit) })
    else if c = 'V' then
      some (fmt, { st with bp := (conv_num bp 0 0 53).1 })
    else if c = 'Y' then
      let r := conv_num bp TM_YEAR_BASE 0 9999
      some (fmt, legalAlt alt_format ALT_E
        { st with bp := r.1, tm := { st.tm with tm_year := r.2 - TM_YEAR_BASE } })
    else if c = 'y' then
      let r := conv_num bp 0 0 99
      let i :=
        if st.split_year then r.2 + (st.tm.tm_year.tdiv 100) * 100
        else if r.2 ≤ 68 then r.2 + 2000 - TM_YEAR_BASE
        else r.2 + 1900 - TM_YEAR_BASE
      some (fmt, { st with bp := r.1, split_year := true, tm := { st.tm with tm_year := i } })
    else if c = 'Z' then
      if CStringNCaseInsensitiveCmp bp gmt 3 = 0 ∨ CStringNCaseInsensitiveCmp bp utc 3 = 0 then
        some (fmt, { st with bp := some (bp.drop 3), tm := { st.tm with tm_isdst := 0 } })
      else some (fmt, st)
    else if c = 'z' then
      some (fmt, zoneConversion bp st)
    else if c = 'n' ∨ c = 't' then
      some (fmt, legalAlt alt_format 0 { st with bp := some (skipSpace bp) })
    else some (fmt, { st with bp := none })

/-- The `while` loop of `strptime_ns`, with fuel for its iterations: the loop
variables on exit, or `none` when the fuel is used up or a recursive call does
not return. -/
def strptimeLoop
    (recurse : List Char → List Char → Tm → Int → Int → Option StrptimeResult) :
    Nat → List Char → StrptimeState → Option StrptimeState
  | fuel, fmt, st =>
    match st.bp, fmt with
    | none, _ => some st
    | some _, [] => some st
    | some bp, c :: fmt2 =>
      match fuel with
      | 0 => none
      | fuel2 + 1 =>
        if isspace c then
          strptimeLoop recurse fuel2 fmt2 { st with bp := some (skipSpace bp) }
        else if c ≠ '%' then
          if c ≠ peek bp then some { st with bp := none }
          else strptimeLoop recurse fuel2 fmt2 { st with bp := some (bp.drop 1) }
        else
          match strptimeSwitch recurse 0 fmt2 bp st with
          | none => none
          | some r => strptimeLoop recurse fuel2 r.1 r.2

/-- `strptime_ns` with a bound on the depth of its recursion: `none` when the
depth or the fuel of a loop is used up.  Each loop gets one iteration per format
character. -/
def strptime_nsDepth (localtime_r : Int → Option Tm) :
    Nat → List Char → List Char → Tm → Int → Int → Option StrptimeResult
  | 0, _, _, _, _, _ => none
  | depth + 1, buf, fmt, tm, nanosecond, nanosecondLength =>
    if fmt = "%s".toList then
      some (strptime_epoch localtime_r buf tm nanosecond nanosecondLength)
    else
      (strptimeLoop (strptime_nsDepth localtime_r depth) fmt.length fmt
        { bp := some buf, tm := tm, nanosecond := 0, nanosecondLength := nanosecondLength,
          split_year := false }).map
        (fun st => { ret := st.bp, tm := st.tm, nanosecond := st.nanosecond,
                     nanosecondLength := st.nanosecondLength })

/-- `strptime_ns(buf, fmt, tm, nanosecond, nanosecondLength)`: one level of
recursion below the top call is provided for. -/
def strptime_ns (localtime_r : Int → Option Tm) (buf fmt : List Char) (tm : Tm)
    (nanosecond nanosecondLength : Int) : Option StrptimeResult :=
  strptime_nsDepth localtime_r 2 buf fmt tm nanosecond nanosecondLength

/-- The formats `new_fmt` of the recursive calls (lines 164 to 199). -/
def compositeFormats : List (List Char) :=
  ["%a %b %d %H:%M:%S %Y".toList, "%m/%d/%y".toList, "%Y-%m-%d".toList, "%H:%M".toList,
   "%I:%M:%S %p".toList, "%H:%M:%S".toList]

/-- The conversion characters whose `case` ends at the label `recurse`. -/
def compositeConversions : List Char := ['c', 'D', 'F', 'R', 'r', 'T', 'X', 'x']

/-- A `struct tm` with every field zero. -/
def zeroTm : Tm :=
  { tm_sec := 0, tm_min := 0, tm_hour := 0, tm_mday := 0, tm_mon := 0, tm_year := 0,
    tm_wday := 0, tm_yday := 0, tm_isdst := 0 }

/-- A stand-in for `localtime_r` in UTC that fills in the time of day only and
never fails. -/
def utcClock (t : Int) : Option Tm :=
  some { zeroTm with tm_sec := t % 60, tm_min := t / 60 % 60, tm_hour := t / 3600 % 24 }

/-! ## Facts about maps -/

theorem mapFind_eq_none_iff {V : Type} (m : List (QueueKey × V)) (key : QueueKey) :
    mapFind m key = none ↔ key ∉ mapKeys m := by
  induction m with
  | nil => simp [mapFind, mapKeys]
  | cons p rest ih =>
    obtain ⟨k, v⟩ := p
    by_cases h : k = key
    · simp [mapFind, mapKeys, h]
    · have h2 : ¬ key = k := fun e => h e.symm
      simpa [mapFind, mapKeys, h, h2] using ih

theorem mapFind_isSome_iff {V : Type} (m : List (QueueKey × V)) (key : QueueKey) :
    (mapFind m key).isSome = true ↔ key ∈ mapKeys m := by
  rw [← not_iff_not, ← mapFind_eq_none_iff]
  cases mapFind m key <;> simp

theorem mapFind_isNone_iff {V : Type} (m : List (QueueKey × V)) (key : QueueKey) :
    (mapFind m key).isNone = true ↔ key ∉ mapKeys m := by
  rw [← mapFind_eq_none_iff]
  cases mapFind m key <;> simp

theorem mapFind_mem {V : Type} (m : List (QueueKey × V)) (key : QueueKey) (v : V)
    (h : mapFind m key = some v) : (key, v) ∈ m := by
  induction m with
  | nil => simp [mapFind] at h
  | cons p rest ih =>
    obtain ⟨k, w⟩ := p
    by_cases hk : k = key
    · simp [mapFind, hk] at h
      simp [hk, h]
    · simp [mapFind, hk] at h
      exact List.mem_cons_of_mem _ (ih h)

theorem mapFind_of_mem {V : Type} (m : List (QueueKey × V)) (key : QueueKey) (v : V)
    (hn : keysNodup m) (h : (key, v) ∈ m) : mapFind m key = some v := by
  induction m with
  | nil => simp at h
  | cons p rest ih =>
    obtain ⟨k, w⟩ := p
    have hn2 : k ∉ mapKeys rest ∧ keysNodup rest := by
      simpa [keysNodup, mapKeys] using hn
    rcases List.mem_cons.mp h with h1 | h1
    · injection h1 with h2 h3
      simp [mapFind, h2, h3]
    · have hk : k ≠ key := by
        intro e
        apply hn2.1
        rw [e]
        exact List.mem_map_of_mem Prod.fst h1
      simp [mapFind, hk, ih hn2.2 h1]

theorem mapFind_mapErase_self {V : Type} (m : List (QueueKey × V)) (key : QueueKey) :
    mapFind (mapErase m key) key = none := by
  rw [mapFind_eq_none_iff]
  simp [mapErase, mapKeys]

theorem mapFind_mapErase_ne {V : Type} (m : List (QueueKey × V)) (key k : QueueKey)
    (h : k ≠ key) : mapFind (mapErase m key) k = mapFind m k := by
  induction m with
  | nil => simp [mapErase, mapFind]
  | cons p rest ih =>
    obtain ⟨a, v⟩ := p
    by_cases ha : a = key
    · have hak : ¬ a = k := fun e => h (e.symm.trans ha)
      have e1 : mapErase ((a, v) :: rest) key = mapErase rest key := by
        simp [mapErase, ha]
      rw [e1, ih]
      simp [mapFind, hak]
    · have e1 : mapErase ((a, v) :: rest) key = (a, v) :: mapErase rest key := by
        simp [mapErase, ha]
      rw [e1]
      by_cases hk : a = k
      · simp [mapFind, hk]
      · simp [mapFind, hk, ih]

theorem mapErase_of_not_mem {V : Type} (m : List (QueueKey × V)) (key : QueueKey)
    (h : key ∉ mapKeys m) : mapErase m key = m := by
  unfold mapErase
  rw [List.filter_eq_self]
  intro p hp
  have : p.1 ≠ key := by
    intro e
    apply h
    rw [← e]
    exact List.mem_map_of_mem Prod.fst hp
  simpa using this

theorem mapKeys_mapSet {V : Type} (m : List (QueueKey × V)) (key : QueueKey) (v : V) :
    mapKeys (mapSet m key v) = mapKeys m := by
  induction m with
  | nil => rfl
  | cons p rest ih =>
    simp only [mapSet, mapKeys, List.map_cons] at ih ⊢
    rw [ih]
    split <;> rfl

/-! ## DeleteQueue and ReuseQueue -/

/-- C3: `DeleteQueue(key)` returns true if and only if the key is in the queue
map and is not already in the deletion-time map. -/
theorem DeleteQueue_true_iff (s : SenderQueueManager Q E) (now : Int) (key : QueueKey) :
    (DeleteQueue s now key).1 = true ↔
      key ∈ mapKeys s.mQueues ∧ key ∉ mapKeys s.mQueueDeletionTimeMap := by
  rw [← mapFind_isSome_iff, ← mapFind_isNone_iff]
  unfold DeleteQueue
  cases mapFind s.mQueues key <;> cases mapFind s.mQueueDeletionTimeMap key <;> simp

/-- C4: `ReuseQueue(key)` returns true if and only if the key is in the
deletion-time map; when it returns true the state afterwards is the state before
with the entries of that key filtered out of the deletion-time map and every
other member as it was; when it returns false the state is unchanged; in both
cases the queue map is the one before. -/
theorem ReuseQueue_spec (s : SenderQueueManager Q E) (key : QueueKey) :
    ((ReuseQueue s key).1 = true ↔ key ∈ mapKeys s.mQueueDeletionTimeMap) ∧
    ((ReuseQueue s key).1 = true →
      (ReuseQueue s key).2 =
        { s with mQueueDeletionTimeMap :=
                  s.mQueueDeletionTimeMap.filter (fun p => decide (p.1 ≠ key)) } ∧
      key ∉ mapKeys (ReuseQueue s key).2.mQueueDeletionTimeMap ∧
      ∀ k, k ≠ key →
        mapFind (ReuseQueue s key).2.mQueueDeletionTimeMap k
          = mapFind s.mQueueDeletionTimeMap k) ∧
    ((ReuseQueue s key).1 = false → (ReuseQueue s key).2 = s) ∧
    (ReuseQueue s key).2.mQueues = s.mQueues := by
  have hfilter : s.mQueueDeletionTimeMap.filter (fun p => decide (p.1 ≠ key))
      = mapErase s.mQueueDeletionTimeMap key := by
    unfold mapErase
    congr 1
    funext p
    by_cases h : p.1 = key <;> simp [h]
  rw [← mapFind_isSome_iff, hfilter]
  unfold ReuseQueue
  cases hfind : mapFind s.mQueueDeletionTimeMap key with
  | none => simp
  | some t =>
    simp only [Option.isNone_some, Bool.false_eq_true, if_false, Option.isSome_some, true_iff,
      forall_true_left, true_and]
    refine ⟨⟨?_, ?_⟩, by simp⟩
    · rw [← mapFind_eq_none_iff]
      exact mapFind_mapErase_self _ _
    · intro k hk
      exact mapFind_mapErase_ne _ _ _ hk

/-! ## ClearUnusedQueues: what a pass may remove -/

theorem tombstoneAged_iff (curTime threshold t : Int) :
    tombstoneAged curTime threshold t = true ↔ curTime ≥ t ∧ curTime - t ≥ threshold := by
  simp [tombstoneAged]

theorem gcStart_sound (ops : SenderQueueOps Q Item) (curTime threshold : Int)
    (s : SenderQueueManager Q E) : gcSound ops curTime threshold s (gcStart s) :=
  ⟨fun _ hp => hp, fun _ => Or.inl rfl⟩

theorem gcStep_sound (ops : SenderQueueOps Q Item) (curTime threshold : Int)
    (s : SenderQueueManager Q E) (st : GCLoop Q)
    (h : gcSound ops curTime threshold s st) :
    gcSound ops curTime threshold s (gcStep ops curTime threshold st) := by
  obtain ⟨kept, rest, qs, rm⟩ := st
  obtain ⟨hsub, hinv⟩ := h
  simp only at hsub hinv
  cases rest with
  | nil => exact ⟨hsub, hinv⟩
  | cons p tl =>
    obtain ⟨k, t⟩ := p
    have htl : ∀ p ∈ tl, p ∈ s.mQueueDeletionTimeMap :=
      fun p hp => hsub p (List.mem_cons_of_mem _ hp)
    simp only [gcStep]
    by_cases hage : tombstoneAged curTime threshold t = true
    · simp only [hage, Bool.not_true, Bool.false_eq_true, if_false]
      cases hfind : mapFind qs k with
      | none => exact ⟨hsub, hinv⟩
      | some q =>
        by_cases hempty : ops.Empty q = true
        · simp only [hempty, Bool.not_true, Bool.false_eq_true, if_false]
          refine ⟨htl, fun k2 => ?_⟩
          simp only
          by_cases hk : k2 = k
          · right
            subst hk
            refine ⟨mapFind_mapErase_self _ _, t, q, hsub _ (List.mem_cons_self _ _), ?_⟩
            have hq : mapFind s.mQueues k2 = some q := by
              rcases hinv k2 with h1 | h1
              · rw [← h1, hfind]
              · rw [hfind] at h1
                exact absurd h1.1 (by simp)
            exact ⟨((tombstoneAged_iff _ _ _).mp hage).1, ((tombstoneAged_iff _ _ _).mp hage).2,
              hq, hempty⟩
          · rw [mapFind_mapErase_ne _ _ _ hk]
            exact hinv k2
        · simp only [hempty, Bool.not_false, if_true]
          exact ⟨htl, hinv⟩
    · simp only [hage, Bool.not_false, if_true]
      exact ⟨htl, hinv⟩

theorem gcIterate_sound (ops : SenderQueueOps Q Item) (curTime threshold : Int)
    (s : SenderQueueManager Q E) (n : Nat) (st : GCLoop Q)
    (h : gcSound ops curTime threshold s st) :
    gcSound ops curTime threshold s (gcIterate ops curTime threshold n st) := by
  induction n generalizing st with
  | zero => exact h
  | succ n ih => exact ih _ (gcStep_sound ops curTime threshold s st h)

theorem ClearUnusedQueues_mQueues (ops : SenderQueueOps Q Item) (fuel : Nat)
    (curTime threshold : Int) (s s2 : SenderQueueManager Q E)
    (h : ClearUnusedQueues ops fuel curTime threshold s = some s2) :
    s2.mQueues = (gcIterate ops curTime threshold fuel (gcStart s)).mQueues := by
  unfold ClearUnusedQueues at h
  simp only at h
  split at h
  · injection h with h
    rw [← h]
  · exact absurd h (by simp)

theorem gcIterate_find_cases (ops : SenderQueueOps Q Item) (curTime threshold : Int)
    (s : SenderQueueManager Q E) (k : QueueKey) (q : Q)
    (hbefore : mapFind s.mQueues k = some q) (n : Nat) :
    mapFind (gcIterate ops curTime threshold n (gcStart s)).mQueues k = some q ∨
      (mapFind (gcIterate ops curTime threshold n (gcStart s)).mQueues k = none ∧
        k ∈ mapKeys s.mQueueDeletionTimeMap ∧ ops.Empty q = true ∧
        ∃ t, (k, t) ∈ s.mQueueDeletionTimeMap ∧ curTime ≥ t ∧ curTime - t ≥ threshold) := by
  have hs := (gcIterate_sound ops curTime threshold s n _
    (gcStart_sound ops curTime threshold s)).2 k
  rcases hs with h1 | ⟨h1, t, q2, hmem, hge, hage, hq2, hempty⟩
  · left
    rw [h1]
    exact hbefore
  · right
    have hqq : q2 = q := by
      have : some q2 = some q := by rw [← hq2]; exact hbefore
      injection this
    subst hqq
    exact ⟨h1, List.mem_map_of_mem Prod.fst hmem, hempty, t, hmem, hge, hage⟩

theorem gcIterate_live_stays (ops : SenderQueueOps Q Item) (curTime threshold : Int)
    (s : SenderQueueManager Q E) (k : QueueKey) (q : Q)
    (hbefore : mapFind s.mQueues k = some q) (hk : k ∉ mapKeys s.mQueueDeletionTimeMap) :
    (∀ n, mapFind (gcIterate ops curTime threshold n (gcStart s)).mQueues k = some q) ∧
    ∀ fuel s2, ClearUnusedQueues ops fuel curTime threshold s = some s2 →
      GetQueue s2 k = some q := by
  have third : ∀ n,
      mapFind (gcIterate ops curTime threshold n (gcStart s)).mQueues k = some q := by
    intro n
    rcases gcIterate_find_cases ops curTime threshold s k q hbefore n with h1 | h1
    · exact h1
    · exact absurd h1.2.1 hk
  refine ⟨third, ?_⟩
  intro fuel s2 hret
  unfold GetQueue
  rw [ClearUnusedQueues_mQueues ops fuel curTime threshold s s2 hret]
  exact third fuel

/-- C1 (GC soundness): let `k` be mapped to the queue `q` before
`ClearUnusedQueues` runs at `curTime`.  If `k` is absent from the queue map after
any number of loop iterations, and in particular in the state the call returns,
then before the call `k` was in the deletion-time map, `q` was empty, and the
tombstone `t` of `k` had `curTime >= t` and `curTime - t >= threshold`.  A key
that is not tombstoned stays mapped to `q` throughout. -/
theorem ClearUnusedQueues_sound (ops : SenderQueueOps Q Item) (curTime threshold : Int)
    (s : SenderQueueManager Q E) (k : QueueKey) (q : Q)
    (hbefore : GetQueue s k = some q) :
    (∀ n, mapFind (gcIterate ops curTime threshold n (gcStart s)).mQueues k = none →
      k ∈ mapKeys s.mQueueDeletionTimeMap ∧ ops.Empty q = true ∧
      ∃ t, (k, t) ∈ s.mQueueDeletionTimeMap ∧ curTime ≥ t ∧ curTime - t ≥ threshold) ∧
    (∀ fuel s2, ClearUnusedQueues ops fuel curTime threshold s = some s2 →
      GetQueue s2 k = none →
      k ∈ mapKeys s.mQueueDeletionTimeMap ∧ ops.Empty q = true ∧
      ∃ t, (k, t) ∈ s.mQueueDeletionTimeMap ∧ curTime ≥ t ∧ curTime - t ≥ threshold) ∧
    (k ∉ mapKeys s.mQueueDeletionTimeMap →
      (∀ n, mapFind (gcIterate ops curTime threshold n (gcStart s)).mQueues k = some q) ∧
      ∀ fuel s2, ClearUnusedQueues ops fuel curTime threshold s = some s2 →
        GetQueue s2 k = some q) := by
  have first : ∀ n, mapFind (gcIterate ops curTime threshold n (gcStart s)).mQueues k = none →
      k ∈ mapKeys s.mQueueDeletionTimeMap ∧ ops.Empty q = true ∧
      ∃ t, (k, t) ∈ s.mQueueDeletionTimeMap ∧ curTime ≥ t ∧ curTime - t ≥ threshold := by
    intro n hn
    rcases gcIterate_find_cases ops curTime threshold s k q hbefore n with h1 | h1
    · rw [hn] at h1
      exact absurd h1 (by simp)
    · exact h1.2
  refine ⟨first, ?_, gcIterate_live_stays ops curTime threshold s k q hbefore⟩
  intro fuel s2 hret hgone
  apply first fuel
  rw [← ClearUnusedQueues_mQueues ops fuel curTime threshold s s2 hret]
  exact hgone

/-- Witness of C1: in scenario S4 the pass at time 130 with the default threshold
destroys queue 8, which was tombstoned at 100 and is empty. -/
theorem ClearUnusedQueues_sound_witness :
    GetQueue scenarioS4 8 = some (plainQueueOf 0 0) ∧
    (∃ s2, ClearUnusedQueues plainQueueOps 2 130 sender_queue_gc_threshold_sec scenarioS4
        = some s2 ∧
      GetQueue s2 8 = none) ∧
    ((8 : QueueKey) ∈ mapKeys scenarioS4.mQueueDeletionTimeMap ∧
      plainQueueOps.Empty (plainQueueOf 0 0) = true ∧
      ∃ t, ((8 : QueueKey), t) ∈ scenarioS4.mQueueDeletionTimeMap ∧ (130 : Int) ≥ t ∧
        130 - t ≥ sender_queue_gc_threshold_sec) :=
  ⟨by decide, ⟨_, rfl, by decide⟩,
    (ClearUnusedQueues_sound plainQueueOps 130 sender_queue_gc_threshold_sec scenarioS4 8
      (plainQueueOf 0 0) (by decide)).2.1 2 _ rfl (by decide)⟩

/-! ## Delete, then reuse -/

theorem DeleteQueue_of_live (s : SenderQueueManager Q E) (now : Int) (k : QueueKey)
    (hreg : k ∈ mapKeys s.mQueues) (hlive : k ∉ mapKeys s.mQueueDeletionTimeMap) :
    DeleteQueue s now k =
      (true, { s with mQueueDeletionTimeMap := s.mQueueDeletionTimeMap ++ [(k, now)] }) := by
  rw [← mapFind_isSome_iff] at hreg
  rw [← mapFind_isNone_iff] at hlive
  unfold DeleteQueue
  cases h1 : mapFind s.mQueues k with
  | none => rw [h1] at hreg; simp at hreg
  | some q =>
    cases h2 : mapFind s.mQueueDeletionTimeMap k with
    | none => simp
    | some t => rw [h2] at hlive; simp at hlive

theorem ReuseQueue_DeleteQueue (s : SenderQueueManager Q E) (now : Int) (k : QueueKey)
    (hreg : k ∈ mapKeys s.mQueues) (hlive : k ∉ mapKeys s.mQueueDeletionTimeMap) :
    ReuseQueue (DeleteQueue s now k).2 k = (true, s) := by
  rw [DeleteQueue_of_live s now k hreg hlive]
  have hin : (mapFind (s.mQueueDeletionTimeMap ++ [(k, now)]) k).isNone = false := by
    have : (mapFind (s.mQueueDeletionTimeMap ++ [(k, now)]) k).isSome = true := by
      rw [mapFind_isSome_iff]
      simp [mapKeys]
    cases h : mapFind (s.mQueueDeletionTimeMap ++ [(k, now)]) k with
    | none => rw [h] at this; simp at this
    | some t => rfl
  have herase : mapErase (s.mQueueDeletionTimeMap ++ [(k, now)]) k = s.mQueueDeletionTimeMap := by
    have h1 := mapErase_of_not_mem s.mQueueDeletionTimeMap k hlive
    unfold mapErase at h1 ⊢
    rw [List.filter_append, h1]
    simp
  unfold ReuseQueue
  simp only [hin, Bool.false_eq_true, if_false, herase]

/-- C5 (delete/reuse round trip): for a key `k` that is registered and not
tombstoned, `DeleteQueue(k)` and then `ReuseQueue(k)` both return true and the
state after the two calls is the state before them (queue map, deletion-time map
and every other member); `GetQueue(k)` returns the same queue, and in a following
`ClearUnusedQueues` the key stays mapped to that queue after every loop
iteration and in the state the call returns. -/
theorem DeleteQueue_ReuseQueue_roundtrip (ops : SenderQueueOps Q Item)
    (s : SenderQueueManager Q E) (now : Int) (k : QueueKey) (curTime threshold : Int)
    (hreg : k ∈ mapKeys s.mQueues) (hlive : k ∉ mapKeys s.mQueueDeletionTimeMap) :
    (DeleteQueue s now k).1 = true ∧
    (ReuseQueue (DeleteQueue s now k).2 k).1 = true ∧
    (ReuseQueue (DeleteQueue s now k).2 k).2 = s ∧
    (∃ q, GetQueue s k = some q ∧
      GetQueue (ReuseQueue (DeleteQueue s now k).2 k).2 k = some q ∧
      (∀ n, mapFind (gcIterate ops curTime threshold n
              (gcStart (ReuseQueue (DeleteQueue s now k).2 k).2)).mQueues k = some q) ∧
      ∀ fuel s3,
        ClearUnusedQueues ops fuel curTime threshold (ReuseQueue (DeleteQueue s now k).2 k).2
          = some s3 →
        GetQueue s3 k = some q) := by
  rw [ReuseQueue_DeleteQueue s now k hreg hlive, DeleteQueue_of_live s now k hreg hlive]
  refine ⟨rfl, rfl, rfl, ?_⟩
  have hsome : (mapFind s.mQueues k).isSome = true := (mapFind_isSome_iff _ _).mpr hreg
  cases hq : mapFind s.mQueues k with
  | none => rw [hq] at hsome; simp at hsome
  | some q =>
    have hs := gcIterate_live_stays ops curTime threshold s k q hq hlive
    exact ⟨q, hq, hq, hs.1, hs.2⟩

/-- Witness of C5: queue 9 of scenario S4 is registered and live. -/
theorem DeleteQueue_ReuseQueue_roundtrip_witness :
    ((9 : QueueKey) ∈ mapKeys scenarioS4.mQueues ∧
      (9 : QueueKey) ∉ mapKeys scenarioS4.mQueueDeletionTimeMap) ∧
    (ReuseQueue (DeleteQueue scenarioS4 200 9).2 9).2 = scenarioS4 :=
  ⟨by decide,
    (DeleteQueue_ReuseQueue_roundtrip plainQueueOps scenarioS4 200 9 300 30
      (by decide) (by decide)).2.2.1⟩

/-- Witness of C4: key 7 of scenario S4 is tombstoned. -/
theorem ReuseQueue_spec_witness :
    (ReuseQueue scenarioS4 7).1 = true ∧
    (7 : QueueKey) ∉ mapKeys (ReuseQueue scenarioS4 7).2.mQueueDeletionTimeMap :=
  ⟨by decide, ((ReuseQueue_spec scenarioS4 7).2.1 (by decide)).2.1⟩

/-! ## ClearUnusedQueues: the outcome of a pass -/

theorem mem_mapKeys_mapErase {V : Type} (m : List (QueueKey × V)) (key k : QueueKey) :
    k ∈ mapKeys (mapErase m key) ↔ k ∈ mapKeys m ∧ k ≠ key := by
  simp only [mapKeys, mapErase, List.mem_map, List.mem_filter]
  constructor
  · rintro ⟨p, ⟨hp, hne⟩, rfl⟩
    exact ⟨⟨p, hp, rfl⟩, by simpa using hne⟩
  · rintro ⟨⟨p, hp, rfl⟩, hne⟩
    exact ⟨p, ⟨hp, by simpa using hne⟩, rfl⟩

theorem gcIterate_done (ops : SenderQueueOps Q Item) (curTime threshold : Int) (n : Nat)
    (st : GCLoop Q) (h : st.rest = []) : gcIterate ops curTime threshold n st = st := by
  induction n with
  | zero => rfl
  | succ n ih =>
    have hstep : gcStep ops curTime threshold st = st := by
      unfold gcStep
      rw [h]
    simp only [gcIterate, hstep, ih]

theorem gcIterate_closed (ops : SenderQueueOps Q Item) (curTime threshold : Int)
    (r : List (QueueKey × Int)) :
    ∀ (kept : List (QueueKey × Int)) (qs : List (QueueKey × Q)) (rm : List QueueKey) (n : Nat),
      keysNodup r → (∀ k ∈ mapKeys r, k ∈ mapKeys qs) → r.length ≤ n →
      gcIterate ops curTime threshold n { kept := kept, rest := r, mQueues := qs, removedKeys := rm }
        = { kept := kept ++ r.filter (fun p => !gcDestroys ops curTime threshold qs p),
            rest := [],
            mQueues := qs.filter (fun p =>
              !(mapKeys (r.filter (gcDestroys ops curTime threshold qs))).contains p.1),
            removedKeys := rm ++ mapKeys (r.filter (gcDestroys ops curTime threshold qs)) } := by
  induction r with
  | nil =>
    intro kept qs rm n _ _ _
    rw [gcIterate_done ops curTime threshold n _ rfl]
    simp [mapKeys]
  | cons p tl ih =>
    intro kept qs rm n hnd hreg hlen
    obtain ⟨k, t⟩ := p
    have hnd2 : k ∉ mapKeys tl ∧ keysNodup tl := by
      simpa [keysNodup, mapKeys] using hnd
    have hkq : k ∈ mapKeys qs := hreg k (by simp [mapKeys])
    have hregtl : ∀ k2 ∈ mapKeys tl, k2 ∈ mapKeys qs := by
      intro k2 hk2
      apply hreg
      simp only [mapKeys, List.map_cons, List.mem_cons]
      exact Or.inr hk2
    cases n with
    | zero => simp at hlen
    | succ m =>
      have hm : tl.length ≤ m := by simpa using hlen
      have hsome : (mapFind qs k).isSome = true := (mapFind_isSome_iff _ _).mpr hkq
      cases hfind : mapFind qs k with
      | none => rw [hfind] at hsome; simp at hsome
      | some q =>
        by_cases hD : gcDestroys ops curTime threshold qs (k, t) = true
        · have hage : tombstoneAged curTime threshold t = true := by
            simp only [gcDestroys, Bool.and_eq_true] at hD
            exact hD.1
          have hempty : ops.Empty q = true := by
            simp only [gcDestroys, hfind, Bool.and_eq_true] at hD
            exact hD.2
          have hstep : gcStep ops curTime threshold
              { kept := kept, rest := (k, t) :: tl, mQueues := qs, removedKeys := rm }
              = { kept := kept, rest := tl, mQueues := mapErase qs k, removedKeys := rm ++ [k] } := by
            simp [gcStep, hage, hfind, hempty]
          have hregE : ∀ k2 ∈ mapKeys tl, k2 ∈ mapKeys (mapErase qs k) := by
            intro k2 hk2
            rw [mem_mapKeys_mapErase]
            refine ⟨hregtl k2 hk2, ?_⟩
            intro e
            exact hnd2.1 (e ▸ hk2)
          have hcongr : ∀ p ∈ tl, gcDestroys ops curTime threshold (mapErase qs k) p
              = gcDestroys ops curTime threshold qs p := by
            intro p hp
            have hne : p.1 ≠ k := by
              intro e
              apply hnd2.1
              rw [← e]
              exact List.mem_map_of_mem Prod.fst hp
            simp only [gcDestroys, mapFind_mapErase_ne _ _ _ hne]
          have hf1 : tl.filter (gcDestroys ops curTime threshold (mapErase qs k))
              = tl.filter (gcDestroys ops curTime threshold qs) :=
            List.filter_congr hcongr
          have hf2 : tl.filter (fun p => !gcDestroys ops curTime threshold (mapErase qs k) p)
              = tl.filter (fun p => !gcDestroys ops curTime threshold qs p) :=
            List.filter_congr (fun p hp => by rw [hcongr p hp])
          simp only [gcIterate, hstep]
          rw [ih kept (mapErase qs k) (rm ++ [k]) m hnd2.2 hregE hm, hf1, hf2]
          simp only [List.filter_cons, hD, Bool.not_true, Bool.false_eq_true, if_false, if_true,
            mapKeys, List.map_cons, List.append_assoc, List.singleton_append, mapErase,
            List.filter_filter]
          congr 1
          apply List.filter_congr
          intro p _
          by_cases hpk : p.1 = k
          · simp [hpk, List.contains_cons]
          · have h1 : (p.1 != k) = true := by simpa using hpk
            have h2 : (p.1 == k) = false := by simpa using hpk
            simp [List.contains_cons, h1, h2]
        · have hDf : gcDestroys ops curTime threshold qs (k, t) = false := by
            simpa using hD
          have hstep : gcStep ops curTime threshold
              { kept := kept, rest := (k, t) :: tl, mQueues := qs, removedKeys := rm }
              = { kept := kept ++ [(k, t)], rest := tl, mQueues := qs, removedKeys := rm } := by
            by_cases hage : tombstoneAged curTime threshold t = true
            · have hempty : ops.Empty q = false := by
                simp only [gcDestroys, hfind, hage, Bool.true_and] at hDf
                exact hDf
              simp [gcStep, hage, hfind, hempty]
            · simp [gcStep, hage]
          simp only [gcIterate, hstep]
          rw [ih (kept ++ [(k, t)]) qs rm m hnd2.2 hregtl hm]
          simp [List.filter_cons, hDf]

theorem mapFind_filter_keys {V : Type} (m : List (QueueKey × V)) (f : QueueKey → Bool)
    (k : QueueKey) (hk : f k = true) :
    mapFind (m.filter (fun p => f p.1)) k = mapFind m k := by
  induction m with
  | nil => rfl
  | cons p rest ih =>
    obtain ⟨a, v⟩ := p
    by_cases ha : a = k
    · subst ha
      simp [List.filter_cons, hk, mapFind]
    · by_cases hf : f a = true
      · simp [List.filter_cons, hf, mapFind, ha, ih]
      · simp [List.filter_cons, hf, mapFind, ha, ih]

theorem mapFind_mapSet_self {V : Type} (m : List (QueueKey × V)) (k : QueueKey) (v : V)
    (hk : k ∈ mapKeys m) : mapFind (mapSet m k v) k = some v := by
  induction m with
  | nil => simp [mapKeys] at hk
  | cons p rest ih =>
    obtain ⟨a, w⟩ := p
    by_cases ha : a = k
    · have e : mapSet ((a, w) :: rest) k v = (a, v) :: mapSet rest k v := by
        simp [mapSet, ha]
      rw [e]
      simp [mapFind, ha]
    · have hk2 : k ∈ mapKeys rest := by
        simp only [mapKeys, List.map_cons, List.mem_cons] at hk
        rcases hk with h | h
        · exact absurd h.symm ha
        · exact h
      have e : mapSet ((a, w) :: rest) k v = (a, w) :: mapSet rest k v := by
        simp [mapSet, ha]
      rw [e]
      simp [mapFind, ha, ih hk2]

theorem not_contains_iff (l : List QueueKey) (k : QueueKey) :
    (!l.contains k) = true ↔ k ∉ l := by
  simp

theorem keysNodup_filter {V : Type} (m : List (QueueKey × V)) (f : QueueKey × V → Bool)
    (h : keysNodup m) : keysNodup (m.filter f) := by
  unfold keysNodup mapKeys at h ⊢
  exact List.Nodup.sublist (List.Sublist.map _ (List.filter_sublist m)) h

theorem gcDestroys_iff (ops : SenderQueueOps Q Item) (curTime threshold : Int)
    (qs : List (QueueKey × Q)) (k : QueueKey) (t : Int) (q : Q)
    (hq : mapFind qs k = some q) :
    gcDestroys ops curTime threshold qs (k, t) = true ↔
      (curTime ≥ t ∧ curTime - t ≥ threshold) ∧ ops.Empty q = true := by
  simp only [gcDestroys, hq, Bool.and_eq_true, tombstoneAged_iff]

theorem ClearUnusedQueues_closed (ops : SenderQueueOps Q Item) (fuel : Nat)
    (curTime threshold : Int) (s : SenderQueueManager Q E)
    (hnodup : keysNodup s.mQueueDeletionTimeMap)
    (hreg : ∀ k ∈ mapKeys s.mQueueDeletionTimeMap, k ∈ mapKeys s.mQueues)
    (hfuel : s.mQueueDeletionTimeMap.length ≤ fuel) :
    ClearUnusedQueues ops fuel curTime threshold s =
      some { s with
        mQueues := s.mQueues.filter (fun p =>
          !(mapKeys (s.mQueueDeletionTimeMap.filter
              (gcDestroys ops curTime threshold s.mQueues))).contains p.1)
        mQueueDeletionTimeMap := s.mQueueDeletionTimeMap.filter
          (fun p => !gcDestroys ops curTime threshold s.mQueues p)
        removedKeys := s.removedKeys ++ mapKeys (s.mQueueDeletionTimeMap.filter
          (gcDestroys ops curTime threshold s.mQueues)) } := by
  unfold ClearUnusedQueues gcStart
  rw [gcIterate_closed ops curTime threshold s.mQueueDeletionTimeMap [] s.mQueues s.removedKeys
    fuel hnodup hreg hfuel]
  simp

/-- What one pass does to a single tombstone, and what it leaves for the next
pass: the state returned keeps the map invariants. -/
theorem ClearUnusedQueues_pass (ops : SenderQueueOps Q Item) (fuel : Nat)
    (curTime threshold : Int) (s : SenderQueueManager Q E)
    (hnodup : keysNodup s.mQueueDeletionTimeMap)
    (hreg : ∀ k ∈ mapKeys s.mQueueDeletionTimeMap, k ∈ mapKeys s.mQueues)
    (hfuel : s.mQueueDeletionTimeMap.length ≤ fuel) :
    ∃ s2, ClearUnusedQueues ops fuel curTime threshold s = some s2 ∧
      keysNodup s2.mQueueDeletionTimeMap ∧
      (∀ k ∈ mapKeys s2.mQueueDeletionTimeMap, k ∈ mapKeys s2.mQueues) ∧
      s2.mQueueDeletionTimeMap.length ≤ s.mQueueDeletionTimeMap.length ∧
      ∀ k t q, (k, t) ∈ s.mQueueDeletionTimeMap → mapFind s.mQueues k = some q →
        (((curTime ≥ t ∧ curTime - t ≥ threshold) ∧ ops.Empty q = true) →
          k ∉ mapKeys s2.mQueues ∧ k ∉ mapKeys s2.mQueueDeletionTimeMap ∧
          s2.removedKeys.count k = s.removedKeys.count k + 1) ∧
        (¬ ((curTime ≥ t ∧ curTime - t ≥ threshold) ∧ ops.Empty q = true) →
          (k, t) ∈ s2.mQueueDeletionTimeMap ∧ mapFind s2.mQueueDeletionTimeMap k = some t ∧
          mapFind s2.mQueues k = some q ∧
          s2.removedKeys.count k = s.removedKeys.count k) := by
  refine ⟨_, ClearUnusedQueues_closed ops fuel curTime threshold s hnodup hreg hfuel, ?_⟩
  simp only
  have hnd2 : keysNodup (s.mQueueDeletionTimeMap.filter
      (fun p => !gcDestroys ops curTime threshold s.mQueues p)) :=
    keysNodup_filter _ _ hnodup
  -- a key among the destroyed ones has a destroyed tombstone
  have hL : ∀ k, k ∈ mapKeys (s.mQueueDeletionTimeMap.filter
      (gcDestroys ops curTime threshold s.mQueues)) →
      ∃ t, (k, t) ∈ s.mQueueDeletionTimeMap ∧
        gcDestroys ops curTime threshold s.mQueues (k, t) = true := by
    intro k hk
    simp only [mapKeys, List.mem_map, List.mem_filter] at hk
    obtain ⟨p, ⟨hp, hD⟩, rfl⟩ := hk
    exact ⟨p.2, hp, hD⟩
  have huniq : ∀ k t t2, (k, t) ∈ s.mQueueDeletionTimeMap → (k, t2) ∈ s.mQueueDeletionTimeMap →
      t2 = t := by
    intro k t t2 h1 h2
    have e1 := mapFind_of_mem _ k t hnodup h1
    have e2 := mapFind_of_mem _ k t2 hnodup h2
    rw [e1] at e2
    injection e2 with e2
    exact e2.symm
  refine ⟨hnd2, ?_, List.length_filter_le _ _, ?_⟩
  · intro k hk
    simp only [mapKeys, List.mem_map, List.mem_filter] at hk
    obtain ⟨p, ⟨hp, hD⟩, rfl⟩ := hk
    have hin : p.1 ∈ mapKeys s.mQueues := hreg _ (List.mem_map_of_mem Prod.fst hp)
    simp only [mapKeys, List.mem_map] at hin
    obtain ⟨e, he, hek⟩ := hin
    simp only [mapKeys, List.mem_map, List.mem_filter]
    refine ⟨e, ⟨he, ?_⟩, hek⟩
    rw [not_contains_iff]
    intro hmem
    rw [hek] at hmem
    obtain ⟨t2, hm2, hD2⟩ := hL _ hmem
    have := huniq p.1 p.2 t2 hp hm2
    rw [this] at hD2
    simp [hD2] at hD
  · intro k t q hmem hq
    rw [← gcDestroys_iff ops curTime threshold s.mQueues k t q hq]
    constructor
    · intro hD
      have hkL : k ∈ mapKeys (s.mQueueDeletionTimeMap.filter
          (gcDestroys ops curTime threshold s.mQueues)) := by
        simp only [mapKeys, List.mem_map, List.mem_filter]
        exact ⟨(k, t), ⟨hmem, hD⟩, rfl⟩
      refine ⟨?_, ?_, ?_⟩
      · simp only [mapKeys, List.mem_map, List.mem_filter, not_exists, not_and, and_imp]
        intro e _ hne hek
        rw [hek, not_contains_iff] at hne
        exact hne hkL
      · simp only [mapKeys, List.mem_map, List.mem_filter, not_exists, not_and, and_imp]
        intro e he hne hek
        have : e = (k, e.2) := by rw [← hek]
        rw [this] at he hne
        have := huniq k t e.2 hmem he
        rw [this, hD] at hne
        simp at hne
      · rw [List.count_append]
        have hndL : (mapKeys (s.mQueueDeletionTimeMap.filter
            (gcDestroys ops curTime threshold s.mQueues))).Nodup :=
          keysNodup_filter _ _ hnodup
        rw [List.count_eq_one_of_mem hndL hkL]
    · intro hD
      have hDf : gcDestroys ops curTime threshold s.mQueues (k, t) = false := by
        simpa using hD
      have hkL : k ∉ mapKeys (s.mQueueDeletionTimeMap.filter
          (gcDestroys ops curTime threshold s.mQueues)) := by
        intro hk
        obtain ⟨t2, hm2, hD2⟩ := hL k hk
        rw [huniq k t t2 hmem hm2] at hD2
        exact hD hD2
      have hin : (k, t) ∈ s.mQueueDeletionTimeMap.filter
          (fun p => !gcDestroys ops curTime threshold s.mQueues p) := by
        simp only [List.mem_filter]
        exact ⟨hmem, by simp [hDf]⟩
      refine ⟨hin, mapFind_of_mem _ k t hnd2 hin, ?_, ?_⟩
      · rw [← hq]
        exact mapFind_filter_keys s.mQueues
          (fun a => !(mapKeys (s.mQueueDeletionTimeMap.filter
            (gcDestroys ops curTime threshold s.mQueues))).contains a) k
          ((not_contains_iff _ _).mpr hkL)
      · rw [List.count_append, List.count_eq_zero_of_not_mem hkL]
        rfl

/-- C2 (GC pass outcome): in a state whose deletion-time map holds no key twice
and whose tombstoned keys are all in the queue map, `ClearUnusedQueues` returns
(any fuel of at least the number of tombstones suffices), and for every
tombstone `k ↦ t` whose queue is `q`:

* if `curTime >= t`, `curTime - t >= threshold` and `q` is empty, then afterwards
  `k` is absent from the queue map and from the deletion-time map and `RemoveKey`
  has been called on `k` exactly once more than before;
* otherwise (too young, or `q` non-empty, whatever the threshold) the tombstone
  `k ↦ t` and the queue `q` are still there and `RemoveKey` was not called on `k`;
  and once the queue of `k` has become empty, with the registry keys and the
  tombstones as the pass left them, a pass at a time `curTime3` at which the
  tombstone is aged destroys it. -/
theorem ClearUnusedQueues_pass_outcome (ops : SenderQueueOps Q Item) (fuel : Nat)
    (curTime threshold : Int) (s : SenderQueueManager Q E)
    (hnodup : keysNodup s.mQueueDeletionTimeMap)
    (hreg : ∀ k ∈ mapKeys s.mQueueDeletionTimeMap, k ∈ mapKeys s.mQueues)
    (hfuel : s.mQueueDeletionTimeMap.length ≤ fuel) :
    ∃ s2, ClearUnusedQueues ops fuel curTime threshold s = some s2 ∧
      ∀ k t q, (k, t) ∈ s.mQueueDeletionTimeMap → GetQueue s k = some q →
        (((curTime ≥ t ∧ curTime - t ≥ threshold) ∧ ops.Empty q = true) →
          k ∉ mapKeys s2.mQueues ∧ k ∉ mapKeys s2.mQueueDeletionTimeMap ∧
          s2.removedKeys.count k = s.removedKeys.count k + 1) ∧
        (¬ ((curTime ≥ t ∧ curTime - t ≥ threshold) ∧ ops.Empty q = true) →
          mapFind s2.mQueueDeletionTimeMap k = some t ∧ GetQueue s2 k = some q ∧
          s2.removedKeys.count k = s.removedKeys.count k ∧
          ∀ (s3 : SenderQueueManager Q E) (q3 : Q) (fuel3 : Nat) (curTime3 : Int),
            s3.mQueueDeletionTimeMap = s2.mQueueDeletionTimeMap →
            mapKeys s3.mQueues = mapKeys s2.mQueues →
            s3.removedKeys = s2.removedKeys →
            GetQueue s3 k = some q3 → ops.Empty q3 = true →
            curTime3 ≥ t → curTime3 - t ≥ threshold →
            s3.mQueueDeletionTimeMap.length ≤ fuel3 →
            ∃ s4, ClearUnusedQueues ops fuel3 curTime3 threshold s3 = some s4 ∧
              k ∉ mapKeys s4.mQueues ∧ k ∉ mapKeys s4.mQueueDeletionTimeMap ∧
              s4.removedKeys.count k = s.removedKeys.count k + 1) := by
  obtain ⟨s2, hret, hnd2, hreg2, _, hall⟩ :=
    ClearUnusedQueues_pass ops fuel curTime threshold s hnodup hreg hfuel
  refine ⟨s2, hret, ?_⟩
  intro k t q hmem hq
  refine ⟨(hall k t q hmem hq).1, ?_⟩
  intro hno
  obtain ⟨hmem2, hfind2, hq2, hcount2⟩ := (hall k t q hmem hq).2 hno
  refine ⟨hfind2, hq2, hcount2, ?_⟩
  intro s3 q3 fuel3 curTime3 hdel hkeys hrm hq3 hempty3 hge hage hfuel3
  obtain ⟨s4, hret4, _, _, _, hall4⟩ :=
    ClearUnusedQueues_pass ops fuel3 curTime3 threshold s3
      (by rw [hdel]; exact hnd2) (by rw [hdel, hkeys]; exact hreg2) hfuel3
  refine ⟨s4, hret4, ?_⟩
  have h4 := (hall4 k t q3 (by rw [hdel]; exact hmem2) hq3).1 ⟨⟨hge, hage⟩, hempty3⟩
  refine ⟨h4.1, h4.2.1, ?_⟩
  rw [h4.2.2, hrm, hcount2]

/-- Witness of C2: scenario S4 at time 100 with threshold 0.  Queue 8 (empty) is
destroyed; queue 7 (one item) survives with its tombstone. -/
theorem ClearUnusedQueues_pass_outcome_witness :
    (keysNodup scenarioS4.mQueueDeletionTimeMap ∧
      (∀ k ∈ mapKeys scenarioS4.mQueueDeletionTimeMap, k ∈ mapKeys scenarioS4.mQueues) ∧
      scenarioS4.mQueueDeletionTimeMap.length ≤ 2) ∧
    ∃ s2, ClearUnusedQueues plainQueueOps 2 100 0 scenarioS4 = some s2 ∧
      (8 : QueueKey) ∉ mapKeys s2.mQueues ∧
      s2.removedKeys.count 8 = 1 ∧
      mapFind s2.mQueueDeletionTimeMap 7 = some 100 ∧
      GetQueue s2 7 = some (plainQueueOf 0 1) := by
  refine ⟨by decide, ?_⟩
  obtain ⟨s2, hret, hall⟩ :=
    ClearUnusedQueues_pass_outcome plainQueueOps 2 100 0 scenarioS4
      (by decide) (by decide) (by decide)
  have h8 := (hall 8 100 (plainQueueOf 0 0) (by decide) (by decide)).1 (by decide)
  have h7 := (hall 7 100 (plainQueueOf 0 1) (by decide) (by decide)).2 (by decide)
  exact ⟨s2, hret, h8.1, h8.2.2, h7.1, h7.2.1⟩

/-! ## PushQueue -/

/-- C6: the result of `PushQueue`.  For a registered key it is 0 when the queue's
`Push` succeeds and 1 when it fails, the exactly-once registry is left as it was
and the outcome is the same whatever the exactly-once registry would do; for an
unregistered key it is the code of `PushSenderQueue`.  Hence the result is 0
exactly when the item was accepted.  The flag `mValidToPop` is true after a
result 0 and is the flag before after any other result. -/
theorem PushQueue_spec (ops : SenderQueueOps Q Item) (eo : ExactlyOnceOps E Item)
    (s : SenderQueueManager Q E) (key : QueueKey) (item : Item) :
    (∀ q, GetQueue s key = some q →
      (PushQueue ops eo s key item).1 = (if (ops.Push q item).1 = true then 0 else 1) ∧
      (PushQueue ops eo s key item).2.exactlyOnce = s.exactlyOnce ∧
      ∀ eo2 : ExactlyOnceOps E Item,
        PushQueue ops eo2 s key item = PushQueue ops eo s key item) ∧
    (GetQueue s key = none →
      (PushQueue ops eo s key item).1 = (eo.PushSenderQueue s.exactlyOnce key item).1) ∧
    ((PushQueue ops eo s key item).1 = 0 ↔
      match GetQueue s key with
      | some q => (ops.Push q item).1 = true
      | none => (eo.PushSenderQueue s.exactlyOnce key item).1 = 0) ∧
    ((PushQueue ops eo s key item).1 = 0 →
      (PushQueue ops eo s key item).2.mValidToPop = true) ∧
    ((PushQueue ops eo s key item).1 ≠ 0 →
      (PushQueue ops eo s key item).2.mValidToPop = s.mValidToPop) := by
  unfold GetQueue PushQueue
  cases hq : mapFind s.mQueues key with
  | some q =>
    cases hp : (ops.Push q item).1 <;> simp [hp, Trigger]
  | none =>
    by_cases hr : (eo.PushSenderQueue s.exactlyOnce key item).1 = 0
    · simp [hr, Trigger]
    · simp [hr, Trigger]

/-- Witness of C6: a push to queue 0 of scenario S3 (ten of fifteen slots used)
is accepted and sets the flag. -/
theorem PushQueue_spec_witness :
    (PushQueue plainQueueOps plainExactlyOnceOps scenarioS3 0 99).1 = 0 ∧
    (PushQueue plainQueueOps plainExactlyOnceOps scenarioS3 0 99).2.mValidToPop = true :=
  ⟨by decide,
    (PushQueue_spec plainQueueOps plainExactlyOnceOps scenarioS3 0 99).2.2.2.1 (by decide)⟩

/-! ## GetAvailableItems -/

theorem drainRange_eq (ops : SenderQueueOps Q Item) (limit : Int) (l : List (QueueKey × Q)) :
    ∀ items : List Item,
      drainRange ops limit l items =
        (l.map (fun p => (p.1, (ops.GetAvailableItems p.2 limit).2)),
          items ++ (l.map (fun p => (ops.GetAvailableItems p.2 limit).1)).flatten) := by
  induction l with
  | nil => intro items; simp [drainRange]
  | cons p rest ih =>
    intro items
    obtain ⟨k, q⟩ := p
    simp [drainRange, ih, List.append_assoc]

theorem GetAvailableItems_no_queue (ops : SenderQueueOps Q Item) (eo : ExactlyOnceOps E Item)
    (s : SenderQueueManager Q E) (items : List Item) (itemsCntLimit : Int)
    (h : s.mQueues = []) :
    GetAvailableItems ops eo s items itemsCntLimit = (s, items) := by
  simp [GetAvailableItems, h]

theorem GetAvailableItems_unlimited (ops : SenderQueueOps Q Item) (eo : ExactlyOnceOps E Item)
    (s : SenderQueueManager Q E) (items : List Item) (h : s.mQueues ≠ []) :
    GetAvailableItems ops eo s items (-1) =
      ({ s with
          mQueues := s.mQueues.map (fun p => (p.1, (ops.GetAvailableItems p.2 (-1)).2))
          exactlyOnce := (eo.GetAvailableSenderQueueItems s.exactlyOnce (-1)).2 },
        items ++ (s.mQueues.map (fun p => (ops.GetAvailableItems p.2 (-1)).1)).flatten
          ++ (eo.GetAvailableSenderQueueItems s.exactlyOnce (-1)).1) := by
  have hne : s.mQueues.isEmpty = false := by
    cases hq : s.mQueues with
    | nil => exact absurd hq h
    | cons a b => rfl
  simp [GetAvailableItems, hne, drainRange_eq]

theorem GetAvailableItems_limited (ops : SenderQueueOps Q Item) (eo : ExactlyOnceOps E Item)
    (s : SenderQueueManager Q E) (items : List Item) (itemsCntLimit : Int)
    (h : s.mQueues ≠ []) (hL : itemsCntLimit ≠ -1) :
    GetAvailableItems ops eo s items itemsCntLimit =
      ({ s with
          mQueues := s.mQueues.map (fun p => (p.1, (ops.GetAvailableItems p.2
            (cntLimitPerQueue s.mDefaultCapacity itemsCntLimit s.mQueues.length)).2))
          mSenderQueueBeginIndex := s.mSenderQueueBeginIndex % s.mQueues.length + 1
          exactlyOnce := (eo.GetAvailableSenderQueueItems s.exactlyOnce itemsCntLimit).2 },
        items ++ ((s.mQueues.rotate (s.mSenderQueueBeginIndex % s.mQueues.length)).map
            (fun p => (ops.GetAvailableItems p.2
              (cntLimitPerQueue s.mDefaultCapacity itemsCntLimit s.mQueues.length)).1)).flatten
          ++ (eo.GetAvailableSenderQueueItems s.exactlyOnce itemsCntLimit).1) := by
  have hne : s.mQueues.isEmpty = false := by
    cases hq : s.mQueues with
    | nil => exact absurd hq h
    | cons a b => rfl
  have hpos : 0 < s.mQueues.length := List.length_pos.mpr h
  have hle : s.mSenderQueueBeginIndex % s.mQueues.length ≤ s.mQueues.length :=
    Nat.le_of_lt (Nat.mod_lt _ hpos)
  simp only [GetAvailableItems, hne, Bool.false_eq_true, if_false, hL, drainRange_eq,
    List.rotate_eq_drop_append_take hle, List.map_append, List.flatten_append,
    List.append_assoc]
  rw [← List.map_append, List.take_append_drop]

/-- C7 (the code at the failing input): with no normal queue registered,
`GetAvailableItems` returns at its first test; the vector and the exactly-once
registry are as before, whatever the exactly-once registry holds and whatever
the limit. -/
theorem GetAvailableItems_without_queue_skips_exactlyOnce (ops : SenderQueueOps Q Item)
    (eo : ExactlyOnceOps E Item) (s : SenderQueueManager Q E) (items : List Item)
    (itemsCntLimit : Int) (h : s.mQueues = []) :
    (GetAvailableItems ops eo s items itemsCntLimit).2 = items ∧
    (GetAvailableItems ops eo s items itemsCntLimit).1 = s := by
  rw [GetAvailableItems_no_queue ops eo s items itemsCntLimit h]
  exact ⟨rfl, rfl⟩

/-- Witness of C7: item 41 is pushed to key 5, which only the exactly-once
registry holds; `PushQueue` accepts it with code 0 and the registry would hand
it out, yet `GetAvailableItems` appends nothing. -/
theorem GetAvailableItems_without_queue_skips_exactlyOnce_witness :
    (PushQueue plainQueueOps plainExactlyOnceOps scenarioExactlyOnceOnly 5 41).1 = 0 ∧
    (PushQueue plainQueueOps plainExactlyOnceOps scenarioExactlyOnceOnly 5 41).2.mQueues = [] ∧
    (plainExactlyOnceOps.GetAvailableSenderQueueItems
      (PushQueue plainQueueOps plainExactlyOnceOps scenarioExactlyOnceOnly 5 41).2.exactlyOnce
      (-1)).1 = [41] ∧
    (GetAvailableItems plainQueueOps plainExactlyOnceOps
      (PushQueue plainQueueOps plainExactlyOnceOps scenarioExactlyOnceOnly 5 41).2 [] (-1)).2
      = [] :=
  ⟨by decide, by decide, by decide,
    (GetAvailableItems_without_queue_skips_exactlyOnce plainQueueOps plainExactlyOnceOps
      (PushQueue plainQueueOps plainExactlyOnceOps scenarioExactlyOnceOnly 5 41).2 [] (-1)
      (by decide)).1⟩

theorem cntLimitPerQueue_of_nonneg (cap : Nat) (L : Int) (n : Nat)
    (h0 : 0 ≤ L) (h31 : L < 2 ^ 31) :
    cntLimitPerQueue cap L n = max ((cap * 3 / 10 : Nat) : Int) (L / (n : Int)) := by
  obtain ⟨l, rfl⟩ := Int.eq_ofNat_of_zero_le h0
  have hl : l < 2 ^ 31 := by exact_mod_cast h31
  have h1 : toSizeT (l : Int) = l := by
    unfold toSizeT
    have : ((l : Int) % 2 ^ 64) = (l : Int) := by
      apply Int.emod_eq_of_lt (by omega) (by omega)
    rw [this]
    simp
  have hdiv : l / n < 2 ^ 31 := lt_of_le_of_lt (Nat.div_le_self l n) hl
  have h2 : toInt32 (l / n) = ((l / n : Nat) : Int) := by
    unfold toInt32
    have hmod : l / n % 2 ^ 32 = l / n := Nat.mod_eq_of_lt (by omega)
    rw [hmod, if_pos hdiv]
  unfold cntLimitPerQueue capacityShare
  rw [h1, h2]
  simp

theorem capacityShare_eq_floor (cap : Nat) :
    capacityShare cap = ⌊(cap : ℚ) * (3 / 10)⌋ := by
  unfold capacityShare
  have : (cap : ℚ) * (3 / 10) = ((cap * 3 : Nat) : ℚ) / ((10 : Nat) : ℚ) := by
    push_cast
    ring
  rw [this, Rat.floor_natCast_div_natCast]
  norm_cast

theorem cntLimitPerQueue_eq_floor (cap : Nat) (L : Int) (n : Nat)
    (h0 : 0 ≤ L) (h31 : L < 2 ^ 31) :
    cntLimitPerQueue cap L n = max ⌊(cap : ℚ) * (3 / 10)⌋ ⌊(L : ℚ) / (n : ℚ)⌋ := by
  rw [cntLimitPerQueue_of_nonneg cap L n h0 h31, Rat.floor_intCast_div_natCast,
    ← capacityShare_eq_floor]
  rfl

/-- C8 (per-queue slice): on a registry with at least one queue, for a limit `L`
with `0 <= L` (an `int32_t`, so `L < 2 ^ 31`) or `L = -1`, `GetAvailableItems`
replaces every queue of the map by the result of asking that queue once, with
the argument `max(⌊cap * 0.3⌋, ⌊L / N⌋)` when `L >= 0` and `-1` when `L = -1`; the
vector receives what the queues yield for that argument, in some order of the
queues, followed by the exactly-once items.  For `L >= 0` the local
`cntLimitPerQueue` has that value, and for the default capacity 15 the first
operand is 4. -/
theorem GetAvailableItems_slice (ops : SenderQueueOps Q Item) (eo : ExactlyOnceOps E Item)
    (s : SenderQueueManager Q E) (items : List Item) (L : Int)
    (hne : s.mQueues ≠ []) (hL : (0 ≤ L ∧ L < 2 ^ 31) ∨ L = -1) :
    (GetAvailableItems ops eo s items L).1.mQueues =
      s.mQueues.map (fun p => (p.1, (ops.GetAvailableItems p.2
        (if L = -1 then -1
         else max ⌊(s.mDefaultCapacity : ℚ) * (3 / 10)⌋
                  ⌊(L : ℚ) / (s.mQueues.length : ℚ)⌋)).2)) ∧
    (∃ order : List (QueueKey × Q), order.Perm s.mQueues ∧
      (GetAvailableItems ops eo s items L).2 =
        items ++ (order.map (fun p => (ops.GetAvailableItems p.2
          (if L = -1 then -1
           else max ⌊(s.mDefaultCapacity : ℚ) * (3 / 10)⌋
                    ⌊(L : ℚ) / (s.mQueues.length : ℚ)⌋)).1)).flatten
          ++ (eo.GetAvailableSenderQueueItems s.exactlyOnce L).1) ∧
    (L ≠ -1 →
      cntLimitPerQueue s.mDefaultCapacity L s.mQueues.length =
        max ⌊(s.mDefaultCapacity : ℚ) * (3 / 10)⌋ ⌊(L : ℚ) / (s.mQueues.length : ℚ)⌋) ∧
    ⌊(sender_queue_capacity : ℚ) * (3 / 10)⌋ = 4 := by
  have h15 : ⌊(sender_queue_capacity : ℚ) * (3 / 10)⌋ = 4 := by
    rw [← capacityShare_eq_floor]
    rfl
  rcases hL with ⟨h0, h31⟩ | hm
  · have hL : L ≠ -1 := by omega
    have hcnt := cntLimitPerQueue_eq_floor s.mDefaultCapacity L s.mQueues.length h0 h31
    rw [GetAvailableItems_limited ops eo s items L hne hL, if_neg hL, ← hcnt]
    exact ⟨rfl, ⟨_, List.rotate_perm _ _, rfl⟩, fun _ => rfl, h15⟩
  · subst hm
    rw [GetAvailableItems_unlimited ops eo s items hne]
    exact ⟨rfl, ⟨_, List.Perm.refl _, rfl⟩, fun h => absurd rfl h, h15⟩

/-- Witness of C8: three recording queues, default capacity, limit 20: every
queue has recorded the single request 6 = max(4, ⌊20 / 3⌋). -/
theorem GetAvailableItems_slice_witness :
    (scenarioRecording.mQueues ≠ [] ∧ ((0 : Int) ≤ 20 ∧ (20 : Int) < 2 ^ 31)) ∧
    (GetAvailableItems recordingQueueOps plainExactlyOnceOps scenarioRecording [] 20).1.mQueues
      = [(0, [6]), (1, [6]), (2, [6])] ∧
    cntLimitPerQueue scenarioRecording.mDefaultCapacity 20 scenarioRecording.mQueues.length =
      max ⌊(scenarioRecording.mDefaultCapacity : ℚ) * (3 / 10)⌋
        ⌊((20 : Int) : ℚ) / (scenarioRecording.mQueues.length : ℚ)⌋ :=
  ⟨by decide, by decide,
    (GetAvailableItems_slice recordingQueueOps plainExactlyOnceOps scenarioRecording [] 20
      (by decide) (Or.inl (by decide))).2.2.1 (by decide)⟩

/-! ## Scenario S3 -/

/-- C9 as stated fails: in scenario S3 (default capacity 15, three queues of ten
items, limit 9, cursor 0) the slice is 4, not 3, and the drain appends twelve
items, four from each queue, which is more than the limit. -/
theorem GetAvailableItems_S3_not_three_each :
    cntLimitPerQueue scenarioS3.mDefaultCapacity 9 scenarioS3.mQueues.length = 4 ∧
    (GetAvailableItems plainQueueOps plainExactlyOnceOps scenarioS3 [] 9).2
      = [0, 1, 2, 3, 10, 11, 12, 13, 20, 21, 22, 23] ∧
    ¬ (cntLimitPerQueue scenarioS3.mDefaultCapacity 9 scenarioS3.mQueues.length = 3 ∧
        (GetAvailableItems plainQueueOps plainExactlyOnceOps scenarioS3 [] 9).2.length = 9) ∧
    ¬ ((GetAvailableItems plainQueueOps plainExactlyOnceOps scenarioS3 [] 9).2.length ≤ 9) := by
  decide

theorem plainQueueOf_yield (first : Nat) (n : Int) (h0 : 0 ≤ n) (h10 : n ≤ 10) :
    ((plainQueueOps.GetAvailableItems (plainQueueOf first 10) n).1).length = n.toNat := by
  have hn : n ≠ -1 := by omega
  simp only [plainQueueOps, plainQueueOf, if_neg hn, List.length_take, List.length_range']
  omega

/-- C9 as amended: with the default capacity, three registered queues that each
yield `n` items when asked for `n <= 10`, and the limit 9, the slice is
`max(4, 3) = 4` and the drain appends twelve items of the normal queues, four
from each queue, in rotated registry order, before the exactly-once items. -/
theorem GetAvailableItems_three_queues_limit_nine (ops : SenderQueueOps Q Item)
    (eo : ExactlyOnceOps E Item) (s : SenderQueueManager Q E) (items : List Item)
    (hcap : s.mDefaultCapacity = sender_queue_capacity)
    (hthree : s.mQueues.length = 3)
    (hyield : ∀ p ∈ s.mQueues, ∀ n : Int, 0 ≤ n → n ≤ 10 →
      ((ops.GetAvailableItems p.2 n).1).length = n.toNat) :
    cntLimitPerQueue s.mDefaultCapacity 9 s.mQueues.length = 4 ∧
    ∃ a b c : QueueKey × Q,
      s.mQueues.rotate (s.mSenderQueueBeginIndex % 3) = [a, b, c] ∧
      (GetAvailableItems ops eo s items 9).2 =
        items ++ ((ops.GetAvailableItems a.2 4).1 ++ (ops.GetAvailableItems b.2 4).1
          ++ (ops.GetAvailableItems c.2 4).1)
          ++ (eo.GetAvailableSenderQueueItems s.exactlyOnce 9).1 ∧
      ((ops.GetAvailableItems a.2 4).1).length = 4 ∧
      ((ops.GetAvailableItems b.2 4).1).length = 4 ∧
      ((ops.GetAvailableItems c.2 4).1).length = 4 ∧
      ((ops.GetAvailableItems a.2 4).1 ++ (ops.GetAvailableItems b.2 4).1
          ++ (ops.GetAvailableItems c.2 4).1).length = 12 := by
  have hne : s.mQueues ≠ [] := by
    intro h
    rw [h] at hthree
    simp at hthree
  have hcnt : cntLimitPerQueue s.mDefaultCapacity 9 s.mQueues.length = 4 := by
    rw [hcap, hthree]
    decide
  have hrot : (s.mQueues.rotate (s.mSenderQueueBeginIndex % 3)).length = 3 := by
    rw [List.length_rotate, hthree]
  obtain ⟨a, b, c, habc⟩ := List.length_eq_three.mp hrot
  have hmem : ∀ p ∈ [a, b, c], p ∈ s.mQueues := by
    intro p hp
    rw [← habc] at hp
    exact List.mem_rotate.mp hp
  have hfour : ∀ p ∈ [a, b, c], ((ops.GetAvailableItems p.2 4).1).length = 4 := by
    intro p hp
    have := hyield p (hmem p hp) 4 (by decide) (by decide)
    simpa using this
  have ha := hfour a (by simp)
  have hb := hfour b (by simp)
  have hc := hfour c (by simp)
  refine ⟨hcnt, a, b, c, habc, ?_, ha, hb, hc, ?_⟩
  · rw [GetAvailableItems_limited ops eo s items 9 hne (by decide), hcnt, hthree, habc]
    simp
  · simp [List.length_append, ha, hb, hc]

/-- Witness of C9 as amended: scenario S3. -/
theorem GetAvailableItems_three_queues_limit_nine_witness :
    (scenarioS3.mDefaultCapacity = sender_queue_capacity ∧ scenarioS3.mQueues.length = 3) ∧
    cntLimitPerQueue scenarioS3.mDefaultCapacity 9 scenarioS3.mQueues.length = 4 ∧
    (GetAvailableItems plainQueueOps plainExactlyOnceOps scenarioS3 [] 9).2.length = 12 :=
  ⟨by decide,
    (GetAvailableItems_three_queues_limit_nine plainQueueOps plainExactlyOnceOps scenarioS3 []
      (by decide) (by decide)
      (by
        intro p hp n h0 h10
        have hp2 : p = (0, plainQueueOf 0 10) ∨ p = (1, plainQueueOf 10 10)
            ∨ p = (2, plainQueueOf 20 10) := by
          simpa [scenarioS3] using hp
        rcases hp2 with h | h | h <;> rw [h] <;> exact plainQueueOf_yield _ n h0 h10)).1,
    by decide⟩

/-! ## Round-robin rotation -/

/-- C10 (round-robin rotation): on a registry with `N >= 1` queues and for a
limit other than `-1`, with `r = mSenderQueueBeginIndex mod N`, the vector
receives the yields of the queues from index `r` to the end followed by those of
the queues before index `r` (the registry rotated left by `r`), each queue being
asked for `cntLimitPerQueue`, and then the exactly-once items; afterwards the
cursor is `r + 1`, the registry has the same keys in the same order, and the
start index of the next drain is `(old cursor + 1) mod N`. -/
theorem GetAvailableItems_rotation (ops : SenderQueueOps Q Item) (eo : ExactlyOnceOps E Item)
    (s : SenderQueueManager Q E) (items : List Item) (L : Int)
    (hne : s.mQueues ≠ []) (hL : L ≠ -1) :
    (GetAvailableItems ops eo s items L).2 =
      items ++ ((s.mQueues.drop (s.mSenderQueueBeginIndex % s.mQueues.length)
                  ++ s.mQueues.take (s.mSenderQueueBeginIndex % s.mQueues.length)).map
          (fun p => (ops.GetAvailableItems p.2
            (cntLimitPerQueue s.mDefaultCapacity L s.mQueues.length)).1)).flatten
        ++ (eo.GetAvailableSenderQueueItems s.exactlyOnce L).1 ∧
    s.mQueues.drop (s.mSenderQueueBeginIndex % s.mQueues.length)
        ++ s.mQueues.take (s.mSenderQueueBeginIndex % s.mQueues.length)
      = s.mQueues.rotate (s.mSenderQueueBeginIndex % s.mQueues.length) ∧
    (GetAvailableItems ops eo s items L).1.mSenderQueueBeginIndex
      = s.mSenderQueueBeginIndex % s.mQueues.length + 1 ∧
    mapKeys (GetAvailableItems ops eo s items L).1.mQueues = mapKeys s.mQueues ∧
    (GetAvailableItems ops eo s items L).1.mSenderQueueBeginIndex
        % (GetAvailableItems ops eo s items L).1.mQueues.length
      = (s.mSenderQueueBeginIndex + 1) % s.mQueues.length := by
  have hpos : 0 < s.mQueues.length := List.length_pos.mpr hne
  have hle : s.mSenderQueueBeginIndex % s.mQueues.length ≤ s.mQueues.length :=
    Nat.le_of_lt (Nat.mod_lt _ hpos)
  rw [GetAvailableItems_limited ops eo s items L hne hL,
    ← List.rotate_eq_drop_append_take hle]
  refine ⟨rfl, rfl, rfl, ?_, ?_⟩
  · simp [mapKeys, List.map_map, Function.comp_def]
  · simp only [List.length_map]
    exact (Nat.add_mod _ _ _).symm ▸ by simp [Nat.add_mod]

/-- Witness of C10: scenario S3, limit 9.  The first drain starts at queue 0, the
second drain at queue 1. -/
theorem GetAvailableItems_rotation_witness :
    (scenarioS3.mQueues ≠ [] ∧ (9 : Int) ≠ -1) ∧
    (GetAvailableItems plainQueueOps plainExactlyOnceOps scenarioS3 [] 9).2
      = [0, 1, 2, 3, 10, 11, 12, 13, 20, 21, 22, 23] ∧
    (GetAvailableItems plainQueueOps plainExactlyOnceOps
        (GetAvailableItems plainQueueOps plainExactlyOnceOps scenarioS3 [] 9).1 [] 9).2
      = [14, 15, 16, 17, 24, 25, 26, 27, 4, 5, 6, 7] ∧
    (GetAvailableItems plainQueueOps plainExactlyOnceOps scenarioS3 [] 9).1.mSenderQueueBeginIndex
      = scenarioS3.mSenderQueueBeginIndex % scenarioS3.mQueues.length + 1 :=
  ⟨by decide, by decide, by decide,
    (GetAvailableItems_rotation plainQueueOps plainExactlyOnceOps scenarioS3 [] 9
      (by decide) (by decide)).2.2.1⟩

/-! ## The cursor and the limit `-1` -/

/-- C11 as stated fails: in scenario S3 after one limited drain the cursor is 1,
so a drain that started at index `1 mod 3` would begin with the items of queue 1;
the drain with limit `-1` begins with the items of queue 0 and leaves the cursor
at 1 instead of 2. -/
theorem GetAvailableItems_unlimited_ignores_cursor :
    scenarioS3Drained.mSenderQueueBeginIndex % scenarioS3Drained.mQueues.length = 1 ∧
    (GetAvailableItems plainQueueOps plainExactlyOnceOps scenarioS3Drained [] (-1)).2
      = [4, 5, 6, 7, 8, 9, 14, 15, 16, 17, 18, 19, 24, 25, 26, 27, 28, 29] ∧
    (GetAvailableItems plainQueueOps plainExactlyOnceOps scenarioS3Drained [] (-1)).1.mSenderQueueBeginIndex
      = scenarioS3Drained.mSenderQueueBeginIndex ∧
    ¬ ((GetAvailableItems plainQueueOps plainExactlyOnceOps scenarioS3Drained [] (-1)).1.mSenderQueueBeginIndex
      = scenarioS3Drained.mSenderQueueBeginIndex % scenarioS3Drained.mQueues.length + 1) := by
  decide

/-- C11 as amended: on a registry with `N >= 1` queues, a drain with a limit
other than `-1` starts at the queue with index `cursor mod N` and leaves the
cursor at `(cursor mod N) + 1`; a drain with the limit `-1` visits the queues in
registry order from index 0 and leaves the cursor as it was. -/
theorem GetAvailableItems_cursor (ops : SenderQueueOps Q Item) (eo : ExactlyOnceOps E Item)
    (s : SenderQueueManager Q E) (items : List Item) (L : Int) (hne : s.mQueues ≠ []) :
    (L ≠ -1 →
      (GetAvailableItems ops eo s items L).2 =
        items ++ ((s.mQueues.drop (s.mSenderQueueBeginIndex % s.mQueues.length)
                    ++ s.mQueues.take (s.mSenderQueueBeginIndex % s.mQueues.length)).map
            (fun p => (ops.GetAvailableItems p.2
              (cntLimitPerQueue s.mDefaultCapacity L s.mQueues.length)).1)).flatten
          ++ (eo.GetAvailableSenderQueueItems s.exactlyOnce L).1 ∧
      (GetAvailableItems ops eo s items L).1.mSenderQueueBeginIndex
        = s.mSenderQueueBeginIndex % s.mQueues.length + 1) ∧
    (L = -1 →
      (GetAvailableItems ops eo s items L).2 =
        items ++ (s.mQueues.map (fun p => (ops.GetAvailableItems p.2 (-1)).1)).flatten
          ++ (eo.GetAvailableSenderQueueItems s.exactlyOnce (-1)).1 ∧
      (GetAvailableItems ops eo s items L).1.mSenderQueueBeginIndex
        = s.mSenderQueueBeginIndex) := by
  constructor
  · intro hL
    have hpos : 0 < s.mQueues.length := List.length_pos.mpr hne
    have hle : s.mSenderQueueBeginIndex % s.mQueues.length ≤ s.mQueues.length :=
      Nat.le_of_lt (Nat.mod_lt _ hpos)
    rw [GetAvailableItems_limited ops eo s items L hne hL,
      ← List.rotate_eq_drop_append_take hle]
    exact ⟨rfl, rfl⟩
  · intro hL
    subst hL
    rw [GetAvailableItems_unlimited ops eo s items hne]
    exact ⟨rfl, rfl⟩

/-- Witness of C11 as amended: scenario S3 after one drain, limit `-1`. -/
theorem GetAvailableItems_cursor_witness :
    scenarioS3Drained.mQueues ≠ [] ∧
    (GetAvailableItems plainQueueOps plainExactlyOnceOps scenarioS3Drained [] (-1)).1.mSenderQueueBeginIndex
      = scenarioS3Drained.mSenderQueueBeginIndex :=
  ⟨by decide,
    ((GetAvailableItems_cursor plainQueueOps plainExactlyOnceOps scenarioS3Drained [] (-1)
      (by decide)).2 rfl).2⟩

/-! ## Wait and Trigger -/

theorem Trigger_iterate_succ (s : SenderQueueManager Q E) (k : Nat) :
    (Trigger^[k + 1] s) = Trigger s := by
  induction k with
  | zero => rfl
  | succ n ih =>
    rw [Function.iterate_succ_apply', ih]
    rfl

/-- C13 (sequential model, no `Trigger` during the wait): `Wait` returns the
value the flag `mValidToPop` had and leaves the flag false, changing nothing
else; `Trigger` sets the flag to true, changing nothing else.  After `k >= 1`
consecutive `Trigger` calls the next `Wait` returns true and a second `Wait`
directly after it returns false. -/
theorem Wait_Trigger_edge (s : SenderQueueManager Q E) (ms ms2 : Nat) (k : Nat)
    (hk : 1 ≤ k) :
    (Wait s ms).1 = s.mValidToPop ∧
    (Wait s ms).2 = { s with mValidToPop := false } ∧
    Trigger s = { s with mValidToPop := true } ∧
    (Wait (Trigger^[k] s) ms).1 = true ∧
    (Wait (Wait (Trigger^[k] s) ms).2 ms2).1 = false := by
  obtain ⟨j, rfl⟩ : ∃ j, k = j + 1 := ⟨k - 1, by omega⟩
  rw [Trigger_iterate_succ]
  refine ⟨?_, ?_, rfl, rfl, rfl⟩
  · unfold Wait
    cases h : s.mValidToPop <;> simp
  · unfold Wait
    cases h : s.mValidToPop
    · simp only [Bool.false_eq_true, if_false]
      cases s
      simp_all
    · simp

/-- Witness of C13: three triggers on scenario S3, then two waits. -/
theorem Wait_Trigger_edge_witness :
    (1 ≤ 3) ∧
    (Wait (Trigger^[3] scenarioS3) 1000).1 = true ∧
    (Wait (Wait (Trigger^[3] scenarioS3) 1000).2 100).1 = false :=
  ⟨by decide,
    (Wait_Trigger_edge scenarioS3 1000 100 3 (by decide)).2.2.2.1,
    (Wait_Trigger_edge scenarioS3 1000 100 3 (by decide)).2.2.2.2⟩

/-! ## The state effect of DeleteQueue -/

theorem mapFind_append_singleton_ne {V : Type} (m : List (QueueKey × V)) (key k : QueueKey)
    (v : V) (h : k ≠ key) : mapFind (m ++ [(key, v)]) k = mapFind m k := by
  induction m with
  | nil =>
    have h2 : ¬ key = k := fun e => h e.symm
    simp [mapFind, h2]
  | cons p rest ih =>
    obtain ⟨a, w⟩ := p
    by_cases ha : a = k
    · simp [mapFind, ha]
    · simp [mapFind, ha, ih]

theorem mapFind_append_singleton_self {V : Type} (m : List (QueueKey × V)) (key : QueueKey)
    (v : V) (h : key ∉ mapKeys m) : mapFind (m ++ [(key, v)]) key = some v := by
  induction m with
  | nil => simp [mapFind]
  | cons p rest ih =>
    obtain ⟨a, w⟩ := p
    have h2 : a ≠ key ∧ key ∉ mapKeys rest := by
      simp only [mapKeys, List.map_cons, List.mem_cons, not_or] at h
      exact ⟨fun e => h.1 e.symm, h.2⟩
    simp [mapFind, h2.1, ih h2.2]

/-- C19 (state effect of `DeleteQueue`): the queue map is never changed; when the
call returns true the key had no tombstone and the state afterwards is the state
before with the one entry `key ↦ now` added to the deletion-time map, every
other tombstone being as before; when it returns false the whole state is
unchanged, so a key that is already tombstoned at `t` is refused and keeps `t`. -/
theorem DeleteQueue_effect (s : SenderQueueManager Q E) (now : Int) (key : QueueKey) :
    (DeleteQueue s now key).2.mQueues = s.mQueues ∧
    ((DeleteQueue s now key).1 = true →
      key ∉ mapKeys s.mQueueDeletionTimeMap ∧
      (DeleteQueue s now key).2 =
        { s with mQueueDeletionTimeMap := s.mQueueDeletionTimeMap ++ [(key, now)] } ∧
      mapFind (DeleteQueue s now key).2.mQueueDeletionTimeMap key = some now ∧
      ∀ k, k ≠ key →
        mapFind (DeleteQueue s now key).2.mQueueDeletionTimeMap k
          = mapFind s.mQueueDeletionTimeMap k) ∧
    ((DeleteQueue s now key).1 = false → (DeleteQueue s now key).2 = s) ∧
    (∀ t, mapFind s.mQueueDeletionTimeMap key = some t →
      (DeleteQueue s now key).1 = false ∧
      mapFind (DeleteQueue s now key).2.mQueueDeletionTimeMap key = some t) := by
  unfold DeleteQueue
  cases hq : mapFind s.mQueues key with
  | none =>
    simp only [Option.isNone_none, if_true, Bool.false_eq_true, false_implies, true_and,
      forall_true_left]
    exact fun t ht => ht
  | some q =>
    cases hd : mapFind s.mQueueDeletionTimeMap key with
    | some t => simp [hd]
    | none =>
      have hnot : key ∉ mapKeys s.mQueueDeletionTimeMap := (mapFind_eq_none_iff _ _).mp hd
      simp only [Option.isNone_some, Bool.false_eq_true, if_false, Option.isSome_none,
        forall_true_left, true_and, false_implies, and_true]
      refine ⟨⟨hnot, mapFind_append_singleton_self _ _ _ hnot, ?_⟩, by simp⟩
      intro k hk
      exact mapFind_append_singleton_ne _ _ _ _ hk

/-- Witness of C19: deleting the live queue 9 of scenario S4 at time 200 adds
`9 ↦ 200`; deleting queue 7, tombstoned at 100, is refused and keeps 100. -/
theorem DeleteQueue_effect_witness :
    (DeleteQueue scenarioS4 200 9).1 = true ∧
    mapFind (DeleteQueue scenarioS4 200 9).2.mQueueDeletionTimeMap 9 = some 200 ∧
    mapFind scenarioS4.mQueueDeletionTimeMap 7 = some 100 ∧
    mapFind (DeleteQueue scenarioS4 200 7).2.mQueueDeletionTimeMap 7 = some 100 :=
  ⟨by decide,
    ((DeleteQueue_effect scenarioS4 200 9).2.1 (by decide)).2.2.1,
    by decide,
    ((DeleteQueue_effect scenarioS4 200 7).2.2.2 100 (by decide)).2⟩

/-! ## IsAllQueueEmpty -/

/-- C17: `IsAllQueueEmpty` returns true if and only if every queue of the queue
map is empty and the exactly-once registry reports all of its sender queues
empty.  It is a `const` member: the embedding has no state to return. -/
theorem IsAllQueueEmpty_iff (ops : SenderQueueOps Q Item) (eo : ExactlyOnceOps E Item)
    (s : SenderQueueManager Q E) :
    IsAllQueueEmpty ops eo s = true ↔
      (∀ p ∈ s.mQueues, ops.Empty p.2 = true) ∧
      eo.IsAllSenderQueueEmpty s.exactlyOnce = true := by
  unfold IsAllQueueEmpty
  by_cases h : s.mQueues.any (fun p => !ops.Empty p.2) = true
  · simp only [h, if_true, Bool.false_eq_true, false_iff, not_and]
    intro hall
    rw [List.any_eq_true] at h
    obtain ⟨p, hp, hne⟩ := h
    rw [hall p hp] at hne
    simp at hne
  · simp only [h, Bool.false_eq_true, if_false, iff_and_self]
    intro _ p hp
    rw [List.any_eq_true] at h
    by_contra hE
    apply h
    exact ⟨p, hp, by simpa using hE⟩

/-! ## Backpressure -/

/-- C14 as stated fails: key 5 is held by the exactly-once registry only;
`IsValidToPush(5)` returns false, and the push that follows is accepted with
code 0. -/
theorem IsValidToPush_false_yet_accepted :
    IsValidToPush plainQueueOps scenarioExactlyOnceOnly 5 = false ∧
    (PushQueue plainQueueOps plainExactlyOnceOps scenarioExactlyOnceOnly 5 41).1 = 0 := by
  decide

theorem plainQueueOps_respects : PushRespectsValidToPush plainQueueOps := by
  intro q item h
  have hlt : ¬ (q.pending.length + q.sending < q.high) := by
    simpa [plainQueueOps] using h
  simp [plainQueueOps, hlt]

/-- C14 as amended: with a `SenderQueue` that refuses a push when it is not
valid to push, for a key registered in the queue map a false `IsValidToPush(key)`
is followed by a `PushQueue(key, item)` that returns 1 and leaves the wake flag
alone; for a key that is not registered `IsValidToPush(key)` is false whatever
the exactly-once registry holds, and `PushQueue` returns the code of the
exactly-once registry. -/
theorem PushQueue_after_IsValidToPush (ops : SenderQueueOps Q Item)
    (eo : ExactlyOnceOps E Item) (s : SenderQueueManager Q E) (key : QueueKey) (item : Item)
    (hlaw : PushRespectsValidToPush ops) :
    (key ∈ mapKeys s.mQueues → IsValidToPush ops s key = false →
      (PushQueue ops eo s key item).1 = 1 ∧
      (PushQueue ops eo s key item).2.mValidToPop = s.mValidToPop) ∧
    (key ∉ mapKeys s.mQueues →
      IsValidToPush ops s key = false ∧
      (PushQueue ops eo s key item).1 = (eo.PushSenderQueue s.exactlyOnce key item).1) := by
  unfold IsValidToPush PushQueue
  cases hq : mapFind s.mQueues key with
  | none =>
    have hnot : key ∉ mapKeys s.mQueues := (mapFind_eq_none_iff _ _).mp hq
    refine ⟨fun h => absurd h hnot, fun _ => ⟨rfl, ?_⟩⟩
    by_cases hr : (eo.PushSenderQueue s.exactlyOnce key item).1 = 0
    · simp [hr]
    · simp [hr]
  | some q =>
    have hin : key ∈ mapKeys s.mQueues := by
      rw [← mapFind_isSome_iff, hq]
      rfl
    refine ⟨fun _ hv => ?_, fun h => absurd hin h⟩
    have := hlaw q item hv
    simp [this]

/-- Witness of C14 as amended: scenario S2, where queue 1 is at its high
watermark. -/
theorem PushQueue_after_IsValidToPush_witness :
    ((1 : QueueKey) ∈ mapKeys scenarioS2.mQueues ∧
      IsValidToPush plainQueueOps scenarioS2 1 = false) ∧
    (PushQueue plainQueueOps plainExactlyOnceOps scenarioS2 1 12).1 = 1 :=
  ⟨by decide,
    ((PushQueue_after_IsValidToPush plainQueueOps plainExactlyOnceOps scenarioS2 1 12
      plainQueueOps_respects).1 (by decide) (by decide)).1⟩

/-! ## Tombstones are invisible to the serving operations -/

/-- C15 (a tombstoned queue keeps serving): replace the deletion-time map of a
state by any other map `d`.  `GetQueue`, `IsValidToPush` and `IsAllQueueEmpty`
return the same value; `PushQueue`, `GetAvailableItems` and `RemoveItem` return
the same result and the same state (queue map, cursor, wake flag, exactly-once
registry) up to the deletion-time map, which they hand back as they got it. -/
theorem serving_ignores_tombstones (ops : SenderQueueOps Q Item) (eo : ExactlyOnceOps E Item)
    (s : SenderQueueManager Q E) (d : List (QueueKey × Int)) (key : QueueKey) (item : Item)
    (items : List Item) (L : Int) :
    GetQueue { s with mQueueDeletionTimeMap := d } key = GetQueue s key ∧
    IsValidToPush ops { s with mQueueDeletionTimeMap := d } key = IsValidToPush ops s key ∧
    IsAllQueueEmpty ops eo { s with mQueueDeletionTimeMap := d } = IsAllQueueEmpty ops eo s ∧
    PushQueue ops eo { s with mQueueDeletionTimeMap := d } key item =
      ((PushQueue ops eo s key item).1,
        { (PushQueue ops eo s key item).2 with mQueueDeletionTimeMap := d }) ∧
    (PushQueue ops eo s key item).2.mQueueDeletionTimeMap = s.mQueueDeletionTimeMap ∧
    GetAvailableItems ops eo { s with mQueueDeletionTimeMap := d } items L =
      ({ (GetAvailableItems ops eo s items L).1 with mQueueDeletionTimeMap := d },
        (GetAvailableItems ops eo s items L).2) ∧
    (GetAvailableItems ops eo s items L).1.mQueueDeletionTimeMap = s.mQueueDeletionTimeMap ∧
    RemoveItem ops eo { s with mQueueDeletionTimeMap := d } key item =
      ((RemoveItem ops eo s key item).1,
        { (RemoveItem ops eo s key item).2 with mQueueDeletionTimeMap := d }) ∧
    (RemoveItem ops eo s key item).2.mQueueDeletionTimeMap = s.mQueueDeletionTimeMap := by
  refine ⟨rfl, rfl, rfl, ?_, ?_, ?_, ?_, ?_, ?_⟩
  · unfold PushQueue
    cases hq : mapFind s.mQueues key with
    | some q =>
      simp only [hq]
      cases (ops.Push q item).1 <;> rfl
    | none =>
      simp only [hq]
      by_cases hr : (eo.PushSenderQueue s.exactlyOnce key item).1 = 0
      · simp [hr, Trigger]
      · simp [hr]
  · unfold PushQueue
    cases hq : mapFind s.mQueues key with
    | some q =>
      simp only
      cases (ops.Push q item).1 <;> rfl
    | none =>
      simp only
      by_cases hr : (eo.PushSenderQueue s.exactlyOnce key item).1 = 0
      · simp [hr, Trigger]
      · simp [hr]
  · unfold GetAvailableItems
    simp only
    by_cases he : s.mQueues.isEmpty = true
    · simp [he]
    · by_cases hL : L = -1
      · simp [he, hL]
      · simp [he, hL]
  · unfold GetAvailableItems
    simp only
    by_cases he : s.mQueues.isEmpty = true
    · simp [he]
    · by_cases hL : L = -1
      · simp [he, hL]
      · simp [he, hL]
  · unfold RemoveItem
    cases hq : mapFind s.mQueues key <;> simp [hq]
  · unfold RemoveItem
    cases hq : mapFind s.mQueues key <;> rfl

/-! ## CreateQueue -/

theorem mapFind_mapSet_ne {V : Type} (m : List (QueueKey × V)) (key k : QueueKey) (v : V)
    (h : k ≠ key) : mapFind (mapSet m key v) k = mapFind m k := by
  induction m with
  | nil => rfl
  | cons p rest ih =>
    obtain ⟨a, w⟩ := p
    by_cases ha : a = key
    · have e : mapSet ((a, w) :: rest) key v = (a, v) :: mapSet rest key v := by
        simp [mapSet, ha]
      have hak : ¬ a = k := fun e2 => h (e2.symm.trans ha)
      rw [e]
      simp [mapFind, hak, ih]
    · have e : mapSet ((a, w) :: rest) key v = (a, w) :: mapSet rest key v := by
        simp [mapSet, ha]
      rw [e]
      by_cases hk : a = k
      · simp [mapFind, hk]
      · simp [mapFind, hk, ih]

/-- C16: `CreateQueue` returns true and afterwards the key is in the queue map.
If the key was absent, the entry added (last) is the queue constructed with the
manager's default capacity, low watermark and high watermark, with the two
setters applied.  If the key was mapped to `q`, it is now mapped to `q` with the
two setters applied, the keys and their order are as before, and whatever the
setters preserve of a queue (its pending items, say) is preserved.  Every other
key is mapped as before, and every other member of the state (cursor,
deletion-time map, wake flag, ...) is unchanged, so a tombstoned key stays
tombstoned. -/
theorem CreateQueue_spec {Ctx Limiters : Type} (cfg : SenderQueueConfigOps Q Ctx Limiters)
    (s : SenderQueueManager Q E) (key : QueueKey) (flusherId : String) (ctx : Ctx)
    (lims : Limiters) (maxRate : Nat) :
    (CreateQueue cfg s key flusherId ctx lims maxRate).1 = true ∧
    key ∈ mapKeys (CreateQueue cfg s key flusherId ctx lims maxRate).2.mQueues ∧
    (GetQueue s key = none →
      (CreateQueue cfg s key flusherId ctx lims maxRate).2.mQueues =
        s.mQueues ++ [(key, cfg.SetRateLimiter (cfg.SetConcurrencyLimiters
          (cfg.Create s.mDefaultCapacity (defaultLowWatermark s) (defaultHighWatermark s)
            key flusherId ctx) lims) maxRate)]) ∧
    (∀ q, GetQueue s key = some q →
      GetQueue (CreateQueue cfg s key flusherId ctx lims maxRate).2 key =
        some (cfg.SetRateLimiter (cfg.SetConcurrencyLimiters q lims) maxRate) ∧
      mapKeys (CreateQueue cfg s key flusherId ctx lims maxRate).2.mQueues = mapKeys s.mQueues ∧
      ∀ (α : Type) (obs : Q → α),
        (∀ q2 l, obs (cfg.SetConcurrencyLimiters q2 l) = obs q2) →
        (∀ q2 r, obs (cfg.SetRateLimiter q2 r) = obs q2) →
        (GetQueue (CreateQueue cfg s key flusherId ctx lims maxRate).2 key).map obs
          = some (obs q)) ∧
    (∀ k, k ≠ key →
      GetQueue (CreateQueue cfg s key flusherId ctx lims maxRate).2 k = GetQueue s k) ∧
    (CreateQueue cfg s key flusherId ctx lims maxRate).2 =
      { s with mQueues := (CreateQueue cfg s key flusherId ctx lims maxRate).2.mQueues } ∧
    (CreateQueue cfg s key flusherId ctx lims maxRate).2.mSenderQueueBeginIndex
      = s.mSenderQueueBeginIndex ∧
    (CreateQueue cfg s key flusherId ctx lims maxRate).2.mQueueDeletionTimeMap
      = s.mQueueDeletionTimeMap ∧
    (key ∈ mapKeys s.mQueueDeletionTimeMap →
      key ∈ mapKeys (CreateQueue cfg s key flusherId ctx lims maxRate).2.mQueueDeletionTimeMap) := by
  unfold GetQueue CreateQueue
  cases hq : mapFind s.mQueues key with
  | none =>
    simp only [forall_true_left, true_and, and_true]
    refine ⟨by simp [mapKeys], by simp, fun k hk => mapFind_append_singleton_ne _ _ _ _ hk,
      fun h => h⟩
  | some q =>
    have hin : key ∈ mapKeys s.mQueues := by
      rw [← mapFind_isSome_iff, hq]
      rfl
    simp only [true_and, and_true]
    refine ⟨by rw [mapKeys_mapSet]; exact hin, by simp, ?_,
      fun k hk => mapFind_mapSet_ne _ _ _ _ hk, fun h => h⟩
    intro q2 hq2
    have hqq : q2 = q := by
      injection hq2 with h
      exact h.symm
    subst hqq
    refine ⟨mapFind_mapSet_self _ _ _ hin, mapKeys_mapSet _ _ _, ?_⟩
    intro α obs h1 h2
    rw [mapFind_mapSet_self _ _ _ hin]
    simp [h1, h2]

/-- Witness of C16: `CreateQueue` on the tombstoned queue 7 of scenario S4
keeps its pending item and its tombstone; on the new key 3 it adds an empty
queue with the default high watermark. -/
theorem CreateQueue_spec_witness :
    GetQueue scenarioS4 7 = some (plainQueueOf 0 1) ∧
    GetQueue (CreateQueue plainQueueConfigOps scenarioS4 7 "flusher" () () 0).2 7
      = some (plainQueueOf 0 1) ∧
    mapFind (CreateQueue plainQueueConfigOps scenarioS4 7 "flusher" () () 0).2.mQueueDeletionTimeMap 7
      = some 100 ∧
    GetQueue scenarioS4 3 = none ∧
    GetQueue (CreateQueue plainQueueConfigOps scenarioS4 3 "flusher" () () 0).2 3
      = some (plainQueueOf 0 0) :=
  ⟨by decide,
    ((CreateQueue_spec plainQueueConfigOps scenarioS4 7 "flusher" () () 0).2.2.2.1
      (plainQueueOf 0 1) (by decide)).1,
    by decide, by decide, by decide⟩

/-! ## Fairness -/

theorem GetAvailableItems_asks (ops : SenderQueueOps Q Item) (eo : ExactlyOnceOps E Item)
    (s : SenderQueueManager Q E) (items : List Item) (L : Int) (hne : s.mQueues ≠ []) :
    (GetAvailableItems ops eo s items L).1.mQueues =
      s.mQueues.map (fun p => (p.1, (ops.GetAvailableItems p.2
        (if L = -1 then -1
         else cntLimitPerQueue s.mDefaultCapacity L s.mQueues.length)).2)) ∧
    (GetAvailableItems ops eo s items L).1.mDefaultCapacity = s.mDefaultCapacity ∧
    ∃ order : List (QueueKey × Q), order.Perm s.mQueues ∧
      (GetAvailableItems ops eo s items L).2 =
        items ++ (order.map (fun p => (ops.GetAvailableItems p.2
          (if L = -1 then -1
           else cntLimitPerQueue s.mDefaultCapacity L s.mQueues.length)).1)).flatten
          ++ (eo.GetAvailableSenderQueueItems s.exactlyOnce L).1 := by
  by_cases hL : L = -1
  · subst hL
    rw [GetAvailableItems_unlimited ops eo s items hne]
    exact ⟨rfl, rfl, _, List.Perm.refl _, rfl⟩
  · rw [GetAvailableItems_limited ops eo s items L hne hL, if_neg hL]
    exact ⟨rfl, rfl, _, List.rotate_perm _ _, rfl⟩

theorem GetAvailableItems_extends (ops : SenderQueueOps Q Item) (eo : ExactlyOnceOps E Item)
    (s : SenderQueueManager Q E) (items : List Item) (L : Int) :
    ∃ tail, (GetAvailableItems ops eo s items L).2 = items ++ tail := by
  by_cases hne : s.mQueues = []
  · rw [GetAvailableItems_no_queue ops eo s items L hne]
    exact ⟨[], by simp⟩
  · obtain ⟨_, _, order, _, hout⟩ := GetAvailableItems_asks ops eo s items L hne
    rw [hout]
    exact ⟨_, List.append_assoc _ _ _⟩

theorem GetAvailableItems_contains_yield (ops : SenderQueueOps Q Item)
    (eo : ExactlyOnceOps E Item) (s : SenderQueueManager Q E) (items : List Item) (L : Int)
    (p : QueueKey × Q) (hp : p ∈ s.mQueues) :
    ∃ before after, (GetAvailableItems ops eo s items L).2 =
      before ++ (ops.GetAvailableItems p.2
        (if L = -1 then -1
         else cntLimitPerQueue s.mDefaultCapacity L s.mQueues.length)).1 ++ after := by
  have hne : s.mQueues ≠ [] := List.ne_nil_of_mem hp
  obtain ⟨_, _, order, hperm, hout⟩ := GetAvailableItems_asks ops eo s items L hne
  have hpo : p ∈ order := hperm.symm.subset hp
  obtain ⟨a, b, hab⟩ := List.append_of_mem hpo
  rw [hout, hab]
  refine ⟨items ++ (a.map (fun p => (ops.GetAvailableItems p.2
      (if L = -1 then -1
       else cntLimitPerQueue s.mDefaultCapacity L s.mQueues.length)).1)).flatten,
    (b.map (fun p => (ops.GetAvailableItems p.2
      (if L = -1 then -1
       else cntLimitPerQueue s.mDefaultCapacity L s.mQueues.length)).1)).flatten
      ++ (eo.GetAvailableSenderQueueItems s.exactlyOnce L).1, ?_⟩
  simp [List.append_assoc]

theorem drainCycles_extends (ops : SenderQueueOps Q Item) (eo : ExactlyOnceOps E Item)
    (L : Int) (n : Nat) :
    ∀ (s : SenderQueueManager Q E) (items : List Item),
      ∃ tail, (drainCycles ops eo L n s items).2 = items ++ tail := by
  induction n with
  | zero => intro s items; exact ⟨[], by simp [drainCycles]⟩
  | succ n ih =>
    intro s items
    obtain ⟨t1, h1⟩ := GetAvailableItems_extends ops eo s items L
    obtain ⟨t2, h2⟩ := ih (GetAvailableItems ops eo s items L).1
      (GetAvailableItems ops eo s items L).2
    refine ⟨t1 ++ t2, ?_⟩
    simp only [drainCycles]
    rw [h2, h1, List.append_assoc]

theorem drainCycles_contains_yield (ops : SenderQueueOps Q Item) (eo : ExactlyOnceOps E Item)
    (L : Int) (n : Nat) :
    ∀ (s : SenderQueueManager Q E) (items : List Item) (i : Nat), i < n →
      ∀ p ∈ (drainCycles ops eo L i s items).1.mQueues,
        ∃ before after, (drainCycles ops eo L n s items).2 =
          before ++ (ops.GetAvailableItems p.2
            (if L = -1 then -1
             else cntLimitPerQueue s.mDefaultCapacity L s.mQueues.length)).1 ++ after := by
  induction n with
  | zero => intro s items i hi; omega
  | succ n ih =>
    intro s items i hi p hp
    cases i with
    | zero =>
      simp only [drainCycles] at hp
      obtain ⟨b, a, hba⟩ := GetAvailableItems_contains_yield ops eo s items L p hp
      obtain ⟨t, ht⟩ := drainCycles_extends ops eo L n (GetAvailableItems ops eo s items L).1
        (GetAvailableItems ops eo s items L).2
      refine ⟨b, a ++ t, ?_⟩
      simp only [drainCycles]
      rw [ht, hba]
      simp [List.append_assoc]
    | succ j =>
      simp only [drainCycles] at hp ⊢
      by_cases hne : s.mQueues = []
      · rw [GetAvailableItems_no_queue ops eo s items L hne] at hp ⊢
        exact ih s items j (by omega) p hp
      · obtain ⟨hq, hc, _⟩ := GetAvailableItems_asks ops eo s items L hne
        have hlen : (GetAvailableItems ops eo s items L).1.mQueues.length = s.mQueues.length := by
          rw [hq, List.length_map]
        have := ih (GetAvailableItems ops eo s items L).1 (GetAvailableItems ops eo s items L).2
          j (by omega) p hp
        rw [hc, hlen] at this
        exact this

/-- C12 (fairness): on a registry with `N >= 1` queues and a default capacity of
at least 4 (the default is 15), for every limit `L` a drain cycle asks each
registered queue exactly once (the queues visited are a permutation of the
registry and each queue of the map is replaced by the result of its one call),
with a slice that is `-1` or at least 1.  Therefore, in a window of `n` drain
cycles, whatever a queue of the registry yields for that slice at the start of
any cycle of the window is part of the output of the window. -/
theorem drain_fairness (ops : SenderQueueOps Q Item) (eo : ExactlyOnceOps E Item)
    (s : SenderQueueManager Q E) (items : List Item) (L : Int)
    (hne : s.mQueues ≠ []) (hcap : 4 ≤ s.mDefaultCapacity) :
    ((if L = -1 then -1 else cntLimitPerQueue s.mDefaultCapacity L s.mQueues.length) = -1 ∨
      1 ≤ (if L = -1 then -1 else cntLimitPerQueue s.mDefaultCapacity L s.mQueues.length)) ∧
    (GetAvailableItems ops eo s items L).1.mQueues =
      s.mQueues.map (fun p => (p.1, (ops.GetAvailableItems p.2
        (if L = -1 then -1
         else cntLimitPerQueue s.mDefaultCapacity L s.mQueues.length)).2)) ∧
    (∃ order : List (QueueKey × Q), order.Perm s.mQueues ∧
      (GetAvailableItems ops eo s items L).2 =
        items ++ (order.map (fun p => (ops.GetAvailableItems p.2
          (if L = -1 then -1
           else cntLimitPerQueue s.mDefaultCapacity L s.mQueues.length)).1)).flatten
          ++ (eo.GetAvailableSenderQueueItems s.exactlyOnce L).1) ∧
    ∀ n i, i < n → ∀ p ∈ (drainCycles ops eo L i s items).1.mQueues,
      ∃ before after, (drainCycles ops eo L n s items).2 =
        before ++ (ops.GetAvailableItems p.2
          (if L = -1 then -1
           else cntLimitPerQueue s.mDefaultCapacity L s.mQueues.length)).1 ++ after := by
  obtain ⟨hq, _, hout⟩ := GetAvailableItems_asks ops eo s items L hne
  refine ⟨?_, hq, hout, fun n i hi p hp => drainCycles_contains_yield ops eo L n s items i hi p hp⟩
  by_cases hL : L = -1
  · left
    simp [hL]
  · right
    rw [if_neg hL]
    have h1 : (1 : Int) ≤ capacityShare s.mDefaultCapacity := by
      unfold capacityShare
      have : 1 ≤ s.mDefaultCapacity * 3 / 10 := by omega
      exact_mod_cast this
    exact le_trans h1 (le_max_left _ _)

/-- Witness of C12: three recording queues, default capacity, limit 9: after one
cycle every queue has recorded exactly one request, for 4 items. -/
theorem drain_fairness_witness :
    (scenarioRecording.mQueues ≠ [] ∧ 4 ≤ scenarioRecording.mDefaultCapacity) ∧
    (GetAvailableItems recordingQueueOps plainExactlyOnceOps scenarioRecording [] 9).1.mQueues
      = [(0, [4]), (1, [4]), (2, [4])] ∧
    ((if (9 : Int) = -1 then -1
      else cntLimitPerQueue scenarioRecording.mDefaultCapacity 9
        scenarioRecording.mQueues.length) = -1 ∨
      1 ≤ (if (9 : Int) = -1 then -1
        else cntLimitPerQueue scenarioRecording.mDefaultCapacity 9
          scenarioRecording.mQueues.length)) :=
  ⟨by decide, by decide,
    (drain_fairness recordingQueueOps plainExactlyOnceOps scenarioRecording [] 9
      (by decide) (by decide)).1⟩

/-! ## The registry invariant -/

theorem gcStep_rest (ops : SenderQueueOps Q Item) (curTime threshold : Int) (st : GCLoop Q)
    (p : QueueKey × Int) (tl : List (QueueKey × Int)) (h : st.rest = p :: tl) :
    gcStep ops curTime threshold st = st ∨ (gcStep ops curTime threshold st).rest = tl := by
  obtain ⟨kept, rest, qs, rm⟩ := st
  simp only at h
  subst h
  obtain ⟨k, t⟩ := p
  simp only [gcStep]
  by_cases hage : tombstoneAged curTime threshold t = true
  · simp only [hage, Bool.not_true, Bool.false_eq_true, if_false]
    cases hfind : mapFind qs k with
    | none => exact Or.inl rfl
    | some q =>
      by_cases hempty : ops.Empty q = true
      · simp [hempty]
      · simp [hempty]
  · simp [hage]

theorem gcIterate_fixed (ops : SenderQueueOps Q Item) (curTime threshold : Int) (n : Nat)
    (st : GCLoop Q) (h : gcStep ops curTime threshold st = st) :
    gcIterate ops curTime threshold n st = st := by
  induction n with
  | zero => rfl
  | succ n ih => simp only [gcIterate, h, ih]

theorem gcIterate_fuel_canonical (ops : SenderQueueOps Q Item) (curTime threshold : Int)
    (n : Nat) :
    ∀ st : GCLoop Q, (gcIterate ops curTime threshold n st).rest = [] →
      gcIterate ops curTime threshold st.rest.length st = gcIterate ops curTime threshold n st := by
  induction n with
  | zero =>
    intro st h
    simp only [gcIterate] at h
    rw [h]
    rfl
  | succ n ih =>
    intro st h
    cases hr : st.rest with
    | nil =>
      rw [gcIterate_done ops curTime threshold (n + 1) st hr]
      rfl
    | cons p tl =>
      simp only [gcIterate] at h ⊢
      rcases gcStep_rest ops curTime threshold st p tl hr with hs | hs
      · rw [hs, gcIterate_fixed ops curTime threshold n st hs, hr] at h
        exact absurd h (by simp)
      · have := ih _ h
        rw [hs] at this
        exact this

theorem ClearUnusedQueues_fuel_canonical (ops : SenderQueueOps Q Item) (fuel : Nat)
    (curTime threshold : Int) (s s2 : SenderQueueManager Q E)
    (h : ClearUnusedQueues ops fuel curTime threshold s = some s2) :
    ClearUnusedQueues ops s.mQueueDeletionTimeMap.length curTime threshold s = some s2 := by
  unfold ClearUnusedQueues at h ⊢
  simp only at h ⊢
  by_cases hdone : (gcIterate ops curTime threshold fuel (gcStart s)).rest.isEmpty = true
  · have hnil : (gcIterate ops curTime threshold fuel (gcStart s)).rest = [] := by
      simpa using hdone
    have := gcIterate_fuel_canonical ops curTime threshold fuel (gcStart s) hnil
    simp only [gcStart] at this
    simp only [gcStart]
    rw [this]
    exact h
  · simp [hdone] at h

theorem gcStep_registered (ops : SenderQueueOps Q Item) (curTime threshold : Int)
    (st : GCLoop Q) (h : gcRegistered st) :
    gcRegistered (gcStep ops curTime threshold st) := by
  obtain ⟨kept, rest, qs, rm⟩ := st
  cases rest with
  | nil => exact h
  | cons p tl =>
    obtain ⟨k, t⟩ := p
    have hadv : gcRegistered
        ({ kept := kept ++ [(k, t)], rest := tl, mQueues := qs, removedKeys := rm } : GCLoop Q) := by
      unfold gcRegistered at h ⊢
      simp only [List.append_assoc, List.singleton_append] at h ⊢
      exact h
    simp only [gcStep]
    by_cases hage : tombstoneAged curTime threshold t = true
    · simp only [hage, Bool.not_true, Bool.false_eq_true, if_false]
      cases hfind : mapFind qs k with
      | none => exact h
      | some q =>
        by_cases hempty : ops.Empty q = true
        · simp only [hempty, Bool.not_true, Bool.false_eq_true, if_false]
          obtain ⟨hnd, hreg⟩ := h
          simp only [keysNodup, mapKeys, List.map_append, List.map_cons] at hnd hreg
          rw [List.nodup_middle, List.nodup_cons] at hnd
          refine ⟨by simpa [keysNodup, mapKeys] using hnd.2, ?_⟩
          intro k2 hk2
          simp only [mapKeys, List.map_append] at hk2
          rw [mem_mapKeys_mapErase]
          refine ⟨hreg k2 ?_, ?_⟩
          · simp only [List.mem_append, List.mem_cons] at hk2 ⊢
            rcases hk2 with h1 | h1
            · exact Or.inl h1
            · exact Or.inr (Or.inr h1)
          · intro e
            exact hnd.1 (e ▸ hk2)
        · simp only [hempty, Bool.not_false, if_true]
          exact hadv
    · simp only [hage, Bool.not_false, if_true]
      exact hadv

theorem gcIterate_registered (ops : SenderQueueOps Q Item) (curTime threshold : Int)
    (n : Nat) : ∀ st : GCLoop Q, gcRegistered st →
      gcRegistered (gcIterate ops curTime threshold n st) := by
  induction n with
  | zero => intro st h; exact h
  | succ n ih => intro st h; exact ih _ (gcStep_registered ops curTime threshold st h)

theorem gcRegistered_not_missing (curTime threshold : Int) (st : GCLoop Q)
    (h : gcRegistered st) : gcAtMissingQueue curTime threshold st = false := by
  obtain ⟨kept, rest, qs, rm⟩ := st
  cases rest with
  | nil => rfl
  | cons p tl =>
    obtain ⟨k, t⟩ := p
    have hk : k ∈ mapKeys qs := h.2 k (by simp [mapKeys])
    have hsome : (mapFind qs k).isSome = true := (mapFind_isSome_iff _ _).mpr hk
    simp only [gcAtMissingQueue]
    cases hf : mapFind qs k with
    | none => rw [hf] at hsome; simp at hsome
    | some q => simp

theorem gcStart_registered (s : SenderQueueManager Q E) (h : registryInvariant s) :
    gcRegistered (gcStart s) := by
  unfold gcRegistered gcStart
  simpa using h

theorem serving_tombstones_untouched (ops : SenderQueueOps Q Item)
    (eo : ExactlyOnceOps E Item) (s : SenderQueueManager Q E) (items : List Item) (L : Int) :
    (GetAvailableItems ops eo s items L).1.mQueueDeletionTimeMap = s.mQueueDeletionTimeMap := by
  by_cases hne : s.mQueues = []
  · rw [GetAvailableItems_no_queue ops eo s items L hne]
  · by_cases hL : L = -1
    · subst hL
      rw [GetAvailableItems_unlimited ops eo s items hne]
    · rw [GetAvailableItems_limited ops eo s items L hne hL]

theorem registryInvariant_mono (s s2 : SenderQueueManager Q E)
    (hd : s2.mQueueDeletionTimeMap = s.mQueueDeletionTimeMap)
    (hk : ∀ k ∈ mapKeys s.mQueues, k ∈ mapKeys s2.mQueues)
    (h : registryInvariant s) : registryInvariant s2 := by
  unfold registryInvariant at h ⊢
  rw [hd]
  exact ⟨h.1, fun k hk2 => hk k (h.2 k hk2)⟩

theorem mapKeys_GetAvailableItems (ops : SenderQueueOps Q Item) (eo : ExactlyOnceOps E Item)
    (s : SenderQueueManager Q E) (items : List Item) (L : Int) :
    mapKeys (GetAvailableItems ops eo s items L).1.mQueues = mapKeys s.mQueues := by
  by_cases hne : s.mQueues = []
  · rw [GetAvailableItems_no_queue ops eo s items L hne]
  · rw [(GetAvailableItems_asks ops eo s items L hne).1]
    simp [mapKeys, List.map_map, Function.comp_def]

theorem applyOp_invariant {Ctx Limiters : Type} (ops : SenderQueueOps Q Item)
    (eo : ExactlyOnceOps E Item) (cfg : SenderQueueConfigOps Q Ctx Limiters)
    (s : SenderQueueManager Q E) (op : ManagerOp Item Ctx Limiters)
    (h : registryInvariant s) :
    ∃ s2, applyOp ops eo cfg s op = some s2 ∧ registryInvariant s2 := by
  cases op with
  | createQueue key flusherId ctx lims maxRate =>
    refine ⟨_, rfl, registryInvariant_mono s _ ?_ ?_ h⟩
    · unfold CreateQueue
      cases mapFind s.mQueues key <;> rfl
    · intro k hk
      unfold CreateQueue
      cases mapFind s.mQueues key with
      | none =>
        simp only [mapKeys, List.map_append, List.mem_append]
        exact Or.inl hk
      | some q =>
        simp only
        rw [mapKeys_mapSet]
        exact hk
  | deleteQueue now key =>
    refine ⟨_, rfl, ?_⟩
    by_cases hreg : key ∈ mapKeys s.mQueues ∧ key ∉ mapKeys s.mQueueDeletionTimeMap
    · rw [DeleteQueue_of_live s now key hreg.1 hreg.2]
      unfold registryInvariant at h ⊢
      simp only [keysNodup, mapKeys, List.map_append, List.map_cons, List.map_nil]
      refine ⟨?_, ?_⟩
      · rw [List.nodup_append]
        refine ⟨h.1, List.nodup_singleton _, ?_⟩
        intro a ha hb
        rw [List.mem_singleton] at hb
        subst hb
        exact hreg.2 ha
      · intro k hk
        rw [List.mem_append, List.mem_singleton] at hk
        rcases hk with h1 | h1
        · exact h.2 k h1
        · rw [h1]
          exact hreg.1
    · have hfalse : (DeleteQueue s now key).2 = s := by
        rw [← mapFind_isSome_iff, ← mapFind_isNone_iff] at hreg
        unfold DeleteQueue
        cases h1 : mapFind s.mQueues key with
        | none => simp
        | some q =>
          cases h2 : mapFind s.mQueueDeletionTimeMap key with
          | none => simp [h1, h2] at hreg
          | some t => simp
      rw [hfalse]
      exact h
  | reuseQueue key =>
    refine ⟨_, rfl, ?_⟩
    unfold ReuseQueue
    cases hf : mapFind s.mQueueDeletionTimeMap key with
    | none => exact h
    | some t =>
      simp only [Option.isNone_some, Bool.false_eq_true, if_false]
      refine ⟨keysNodup_filter _ _ h.1, ?_⟩
      intro k hk
      exact h.2 k ((mem_mapKeys_mapErase _ _ _).mp hk).1
  | pushQueue key item =>
    refine ⟨_, rfl, registryInvariant_mono s _ ?_ ?_ h⟩
    · unfold PushQueue
      cases mapFind s.mQueues key with
      | none =>
        simp only
        split <;> rfl
      | some q =>
        simp only
        split <;> rfl
    · intro k hk
      unfold PushQueue
      cases mapFind s.mQueues key with
      | none =>
        simp only
        split <;> exact hk
      | some q =>
        simp only
        split
        · simp only
          rw [mapKeys_mapSet]
          exact hk
        · simp only [Trigger]
          rw [mapKeys_mapSet]
          exact hk
  | getAvailableItems items L =>
    refine ⟨_, rfl, registryInvariant_mono s _ ?_ ?_ h⟩
    · exact (serving_tombstones_untouched ops eo s items L)
    · intro k hk
      rw [mapKeys_GetAvailableItems]
      exact hk
  | removeItem key item =>
    refine ⟨_, rfl, registryInvariant_mono s _ ?_ ?_ h⟩
    · unfold RemoveItem
      cases mapFind s.mQueues key <;> rfl
    · intro k hk
      unfold RemoveItem
      cases mapFind s.mQueues key with
      | none => exact hk
      | some q =>
        simp only
        rw [mapKeys_mapSet]
        exact hk
  | clearUnusedQueues curTime threshold =>
    obtain ⟨s2, hret, hnd, hreg, _, _⟩ :=
      ClearUnusedQueues_pass ops s.mQueueDeletionTimeMap.length curTime threshold s h.1 h.2
        (le_refl _)
    exact ⟨s2, hret, hnd, hreg⟩
  | clear =>
    refine ⟨_, rfl, ?_⟩
    unfold registryInvariant Clear
    simp [keysNodup, mapKeys]

theorem runOps_invariant {Ctx Limiters : Type} (ops : SenderQueueOps Q Item)
    (eo : ExactlyOnceOps E Item) (cfg : SenderQueueConfigOps Q Ctx Limiters)
    (l : List (ManagerOp Item Ctx Limiters)) :
    ∀ s : SenderQueueManager Q E, registryInvariant s →
      ∃ s2, runOps ops eo cfg s l = some s2 ∧ registryInvariant s2 := by
  induction l with
  | nil => intro s h; exact ⟨s, rfl, h⟩
  | cons op rest ih =>
    intro s h
    obtain ⟨s1, h1, hinv1⟩ := applyOp_invariant ops eo cfg s op h
    obtain ⟨s2, h2, hinv2⟩ := ih s1 hinv1
    refine ⟨s2, ?_, hinv2⟩
    simp only [runOps, h1]
    exact h2

/-- C20 (registry invariant): from a manager with no tombstone, in particular
from the empty manager, every sequence of `CreateQueue`, `DeleteQueue`, `ReuseQueue`, `PushQueue`,
`GetAvailableItems`, `RemoveItem`, `ClearUnusedQueues` and `Clear` calls, made one
after the other, runs to a state in which every key of the deletion-time map is
a key of the queue map (and is tombstoned once); in a GC pass started in such a
state, at any clock value and threshold, the loop is never at the
`// should not happen` branch, after any number of iterations. -/
theorem reachable_registry_invariant {Ctx Limiters : Type} (ops : SenderQueueOps Q Item)
    (eo : ExactlyOnceOps E Item) (cfg : SenderQueueConfigOps Q Ctx Limiters)
    (s0 : SenderQueueManager Q E) (l : List (ManagerOp Item Ctx Limiters))
    (h0d : s0.mQueueDeletionTimeMap = []) :
    ∃ s, runOps ops eo cfg s0 l = some s ∧
      (∀ k ∈ mapKeys s.mQueueDeletionTimeMap, k ∈ mapKeys s.mQueues) ∧
      keysNodup s.mQueueDeletionTimeMap ∧
      ∀ (curTime threshold : Int) (n : Nat),
        gcAtMissingQueue curTime threshold
          (gcIterate ops curTime threshold n (gcStart s)) = false := by
  have h0 : registryInvariant s0 := by
    unfold registryInvariant
    rw [h0d]
    simp [keysNodup, mapKeys]
  obtain ⟨s, hrun, hinv⟩ := runOps_invariant ops eo cfg l s0 h0
  refine ⟨s, hrun, hinv.2, hinv.1, ?_⟩
  intro curTime threshold n
  exact gcRegistered_not_missing curTime threshold _
    (gcIterate_registered ops curTime threshold n _ (gcStart_registered s hinv))

/-- Witness of C20: the life cycle of scenario `scenarioLifeCycle` run from the
empty manager ends with queue 2 registered and no tombstone. -/
theorem reachable_registry_invariant_witness :
    (emptyManager [] : SenderQueueManager PlainQueue
      (List (QueueKey × List Nat))).mQueueDeletionTimeMap = [] ∧
    (runOps plainQueueOps plainExactlyOnceOps plainQueueConfigOps
        (emptyManager []) scenarioLifeCycle).map (fun s => (mapKeys s.mQueues,
          s.mQueueDeletionTimeMap, s.removedKeys)) = some ([2], [], [1]) ∧
    ∃ s, runOps plainQueueOps plainExactlyOnceOps plainQueueConfigOps
        (emptyManager []) scenarioLifeCycle = some s ∧
      ∀ k ∈ mapKeys s.mQueueDeletionTimeMap, k ∈ mapKeys s.mQueues := by
  refine ⟨rfl, by decide, ?_⟩
  obtain ⟨s, hrun, hreg, _⟩ :=
    reachable_registry_invariant plainQueueOps plainExactlyOnceOps plainQueueConfigOps
      (emptyManager []) scenarioLifeCycle rfl
  exact ⟨s, hrun, hreg⟩

/-! ## Lock order -/

theorem gcLocks_ordered (ops : SenderQueueOps Q Item) (curTime threshold : Int) (n : Nat) :
    ∀ st : GCLoop Q,
      properlyNested [.mGCMux] (gcLocks ops curTime threshold n st) = true ∧
      acquiresWhileHeld .mGCMux .mQueueMux [.mGCMux] (gcLocks ops curTime threshold n st)
        = false := by
  induction n with
  | zero =>
    intro st
    simp only [gcLocks]
    split <;> simp [properlyNested, acquiresWhileHeld]
  | succ n ih =>
    intro st
    cases hr : st.rest with
    | nil => simp [gcLocks, hr, properlyNested, acquiresWhileHeld]
    | cons p tl =>
      obtain ⟨k, t⟩ := p
      have h := ih (gcStep ops curTime threshold st)
      by_cases hage : tombstoneAged curTime threshold t = true
      · simp only [gcLocks, hr, hage, if_true, List.cons_append, List.nil_append,
          properlyNested, acquiresWhileHeld]
        have e : ([Mutex.mQueueMux, Mutex.mGCMux] : List Mutex).erase Mutex.mQueueMux
            = [Mutex.mGCMux] := by decide
        rw [e]
        refine ⟨?_, ?_⟩
        · simpa using h.1
        · simpa using h.2
      · simp only [gcLocks, hr, hage, Bool.false_eq_true, if_false, List.nil_append]
        exact h

/-- C18 (lock order): in the acquire/release trace of every member function, in
every state, `mGCMux` is never acquired while `mQueueMux` is held, the lock
regions are strictly nested, and `mQueueMux` is acquired while `mGCMux` is held
in `ClearUnusedQueues` only. -/
theorem lock_order (ops : SenderQueueOps Q Item) (eo : ExactlyOnceOps E Item)
    (s : SenderQueueManager Q E) (call : ManagerCall Item) :
    acquiresWhileHeld .mGCMux .mQueueMux [] (lockTrace ops eo s call) = false ∧
    properlyNested [] (lockTrace ops eo s call) = true ∧
    (acquiresWhileHeld .mQueueMux .mGCMux [] (lockTrace ops eo s call) = true →
      ∃ n curTime threshold, call = .ClearUnusedQueues n curTime threshold) := by
  cases call with
  | ClearUnusedQueues n curTime threshold =>
    have h := gcLocks_ordered ops curTime threshold n (gcStart s)
    refine ⟨?_, ?_, fun _ => ⟨n, curTime, threshold, rfl⟩⟩
    · simp only [lockTrace, acquiresWhileHeld]
      simpa using h.2
    · simp only [lockTrace, properlyNested]
      simpa using h.1
  | DeleteQueue key =>
    simp only [lockTrace]
    split <;> simp [properlyNested, acquiresWhileHeld]
  | PushQueue key item =>
    simp only [lockTrace]
    split <;> simp [properlyNested, acquiresWhileHeld]
  | Wait =>
    simp only [lockTrace]
    split <;> simp [properlyNested, acquiresWhileHeld]
  | CreateQueue => simp [lockTrace, properlyNested, acquiresWhileHeld]
  | GetQueue => simp [lockTrace, properlyNested, acquiresWhileHeld]
  | ReuseQueue => simp [lockTrace, properlyNested, acquiresWhileHeld]
  | GetAvailableItems => simp [lockTrace, properlyNested, acquiresWhileHeld]
  | RemoveItem => simp [lockTrace, properlyNested, acquiresWhileHeld]
  | DecreaseConcurrencyLimiterInSendingCnt =>
    simp [lockTrace, properlyNested, acquiresWhileHeld]
  | IsAllQueueEmpty => simp [lockTrace, properlyNested, acquiresWhileHeld]
  | IsValidToPush => simp [lockTrace, properlyNested, acquiresWhileHeld]
  | Trigger => simp [lockTrace, properlyNested, acquiresWhileHeld]
  | SetPipelineForItems => simp [lockTrace, properlyNested, acquiresWhileHeld]
  | Clear => simp [lockTrace, properlyNested, acquiresWhileHeld]
  | IsQueueMarkedDeleted => simp [lockTrace, properlyNested, acquiresWhileHeld]

/-- Witness of C18: the pass of scenario S4 at time 130 does acquire `mQueueMux`
while holding `mGCMux`. -/
theorem lock_order_witness :
    lockTrace plainQueueOps plainExactlyOnceOps scenarioS4 (.ClearUnusedQueues 2 130 30)
      = [.acquire .mGCMux, .acquire .mQueueMux, .release .mQueueMux,
         .acquire .mQueueMux, .release .mQueueMux, .release .mGCMux] ∧
    acquiresWhileHeld .mQueueMux .mGCMux []
      (lockTrace plainQueueOps plainExactlyOnceOps scenarioS4 (.ClearUnusedQueues 2 130 30))
      = true ∧
    ∃ n curTime threshold,
      (ManagerCall.ClearUnusedQueues 2 130 30 : ManagerCall Nat)
        = .ClearUnusedQueues n curTime threshold :=
  ⟨by decide, by decide,
    (lock_order plainQueueOps plainExactlyOnceOps scenarioS4 (.ClearUnusedQueues 2 130 30)).2.2
      (by decide)⟩

/-! ## Termination of the GC loop -/

theorem gcStep_progress (ops : SenderQueueOps Q Item) (curTime threshold : Int)
    (st : GCLoop Q) (p : QueueKey × Int) (tl : List (QueueKey × Int))
    (h : gcRegistered st) (hr : st.rest = p :: tl) :
    (gcStep ops curTime threshold st).rest = tl ∧
    (((gcStep ops curTime threshold st).kept = st.kept ++ [p] ∧
        (gcStep ops curTime threshold st).mQueues = st.mQueues ∧
        (gcStep ops curTime threshold st).removedKeys = st.removedKeys) ∨
      ((gcStep ops curTime threshold st).kept = st.kept ∧
        (gcStep ops curTime threshold st).mQueues = mapErase st.mQueues p.1 ∧
        (gcStep ops curTime threshold st).removedKeys = st.removedKeys ++ [p.1])) := by
  have hmiss := gcRegistered_not_missing curTime threshold st h
  obtain ⟨kept, rest, qs, rm⟩ := st
  simp only at hr
  subst hr
  obtain ⟨k, t⟩ := p
  simp only [gcAtMissingQueue] at hmiss
  simp only [gcStep]
  by_cases hage : tombstoneAged curTime threshold t = true
  · simp only [hage, Bool.not_true, Bool.false_eq_true, if_false]
    cases hfind : mapFind qs k with
    | none => simp [hage, hfind] at hmiss
    | some q =>
      by_cases hempty : ops.Empty q = true
      · simp [hempty]
      · simp [hempty]
  · simp [hage]

theorem gcIterate_rest (ops : SenderQueueOps Q Item) (curTime threshold : Int) (n : Nat) :
    ∀ st : GCLoop Q, gcRegistered st →
      (gcIterate ops curTime threshold n st).rest = st.rest.drop n := by
  induction n with
  | zero => intro st _; rfl
  | succ n ih =>
    intro st h
    simp only [gcIterate]
    cases hr : st.rest with
    | nil =>
      have hs : gcStep ops curTime threshold st = st := by
        unfold gcStep
        rw [hr]
      rw [hs, ih st h, hr]
      simp
    | cons p tl =>
      rw [ih _ (gcStep_registered ops curTime threshold st h),
        (gcStep_progress ops curTime threshold st p tl h hr).1]
      rfl

/-- C21 (the GC loop terminates): in a state whose deletion-time map holds no key
twice and whose tombstoned keys are all in the queue map, after `n` iterations
the loop has passed exactly the first `n` tombstones; every iteration before the
end either advances the iterator past its tombstone, leaving the queue map
alone, or erases that tombstone together with its queue; so the call returns
after one iteration per tombstone, and not before. -/
theorem ClearUnusedQueues_terminates (ops : SenderQueueOps Q Item) (curTime threshold : Int)
    (s : SenderQueueManager Q E)
    (hnodup : keysNodup s.mQueueDeletionTimeMap)
    (hreg : ∀ k ∈ mapKeys s.mQueueDeletionTimeMap, k ∈ mapKeys s.mQueues) :
    (∀ n, (gcIterate ops curTime threshold n (gcStart s)).rest
        = s.mQueueDeletionTimeMap.drop n) ∧
    (∀ n p tl, (gcIterate ops curTime threshold n (gcStart s)).rest = p :: tl →
      (gcIterate ops curTime threshold (n + 1) (gcStart s)).rest = tl ∧
      (((gcIterate ops curTime threshold (n + 1) (gcStart s)).kept
            = (gcIterate ops curTime threshold n (gcStart s)).kept ++ [p] ∧
          (gcIterate ops curTime threshold (n + 1) (gcStart s)).mQueues
            = (gcIterate ops curTime threshold n (gcStart s)).mQueues) ∨
        ((gcIterate ops curTime threshold (n + 1) (gcStart s)).kept
            = (gcIterate ops curTime threshold n (gcStart s)).kept ∧
          (gcIterate ops curTime threshold (n + 1) (gcStart s)).mQueues
            = mapErase (gcIterate ops curTime threshold n (gcStart s)).mQueues p.1))) ∧
    (∃ s2, ClearUnusedQueues ops s.mQueueDeletionTimeMap.length curTime threshold s = some s2) ∧
    (∀ fuel, fuel < s.mQueueDeletionTimeMap.length →
      ClearUnusedQueues ops fuel curTime threshold s = none) := by
  have hinv : registryInvariant s := ⟨hnodup, hreg⟩
  have hstart := gcStart_registered s hinv
  have hrest : ∀ n, (gcIterate ops curTime threshold n (gcStart s)).rest
      = s.mQueueDeletionTimeMap.drop n := fun n =>
    gcIterate_rest ops curTime threshold n _ hstart
  have hsucc : ∀ n, gcIterate ops curTime threshold (n + 1) (gcStart s)
      = gcStep ops curTime threshold (gcIterate ops curTime threshold n (gcStart s)) := by
    intro n
    generalize gcStart s = st
    induction n generalizing st with
    | zero => rfl
    | succ n ih =>
      show gcIterate ops curTime threshold (n + 1) (gcStep ops curTime threshold st) = _
      rw [ih]
      rfl
  refine ⟨hrest, ?_, ?_, ?_⟩
  · intro n p tl hr
    rw [hsucc]
    have hp := gcStep_progress ops curTime threshold _ p tl
      (gcIterate_registered ops curTime threshold n _ hstart) hr
    refine ⟨hp.1, ?_⟩
    rcases hp.2 with h1 | h1
    · exact Or.inl ⟨h1.1, h1.2.1⟩
    · exact Or.inr ⟨h1.1, h1.2.1⟩
  · unfold ClearUnusedQueues
    simp only [hrest, List.drop_length]
    exact ⟨_, rfl⟩
  · intro fuel hfuel
    unfold ClearUnusedQueues
    simp only [hrest]
    have hne : (s.mQueueDeletionTimeMap.drop fuel).isEmpty = false := by
      cases hd : s.mQueueDeletionTimeMap.drop fuel with
      | nil =>
        have := List.drop_eq_nil_iff.mp hd
        omega
      | cons a b => rfl
    simp [hne]

/-- Witness of C21: scenario S4 has two tombstones; the pass at time 130 returns
after two iterations and not after one. -/
theorem ClearUnusedQueues_terminates_witness :
    (keysNodup scenarioS4.mQueueDeletionTimeMap ∧
      ∀ k ∈ mapKeys scenarioS4.mQueueDeletionTimeMap, k ∈ mapKeys scenarioS4.mQueues) ∧
    (∃ s2, ClearUnusedQueues plainQueueOps scenarioS4.mQueueDeletionTimeMap.length 130 30
      scenarioS4 = some s2) ∧
    ClearUnusedQueues plainQueueOps 1 130 30 scenarioS4 = none :=
  ⟨by decide,
    (ClearUnusedQueues_terminates plainQueueOps 130 30 scenarioS4 (by decide) (by decide)).2.2.1,
    (ClearUnusedQueues_terminates plainQueueOps 130 30 scenarioS4 (by decide)
      (by decide)).2.2.2 1 (by decide)⟩

/-! ## Facts about digits and the numeric conversions -/

theorem digitValue_lt (c : Char) (h : isdigit c = true) : digitValue c < 10 := by
  simp only [isdigit, Bool.and_eq_true, decide_eq_true_eq] at h
  unfold digitValue
  omega

theorem decimalValue_foldl (ds : List Char) (a : Nat) :
    ds.foldl (fun a c => a * 10 + digitValue c) a = a * 10 ^ ds.length + decimalValue ds := by
  induction ds generalizing a with
  | nil => simp [decimalValue]
  | cons c rest ih =>
    simp only [decimalValue, List.foldl_cons, List.length_cons] at ih ⊢
    rw [ih (a * 10 + digitValue c), ih (0 * 10 + digitValue c)]
    ring

theorem decimalValue_cons (c : Char) (ds : List Char) :
    decimalValue (c :: ds) = digitValue c * 10 ^ ds.length + decimalValue ds := by
  have := decimalValue_foldl ds (0 * 10 + digitValue c)
  simp only [decimalValue, List.foldl_cons] at this ⊢
  rw [this]
  ring

theorem decimalValue_nil : decimalValue [] = 0 := rfl

theorem decimalValue_append (a b : List Char) :
    decimalValue (a ++ b) = decimalValue a * 10 ^ b.length + decimalValue b := by
  unfold decimalValue
  rw [List.foldl_append, decimalValue_foldl]
  rfl

theorem decimalValue_lt (ds : List Char) (hds : ∀ c ∈ ds, isdigit c = true) :
    decimalValue ds < 10 ^ ds.length := by
  induction ds with
  | nil => simp [decimalValue]
  | cons c rest ih =>
    rw [decimalValue_cons, List.length_cons, pow_succ]
    have h1 := digitValue_lt c (hds c (List.mem_cons_self _ _))
    have h2 := ih (fun x hx => hds x (List.mem_cons_of_mem _ hx))
    nlinarith

theorem conv_nanosecondLoop_digits (tail : List Char) (htail : isdigit (peek tail) = false)
    (ds : List Char) :
    ∀ (result digitNum : Nat) (ch : Char), (∀ c ∈ ds, isdigit c = true) →
      (result * 10 + digitValue ch) * 10 ^ ds.length + decimalValue ds < 2 ^ 32 →
      conv_nanosecondLoop result digitNum ch (ds ++ tail) =
        ((result * 10 + digitValue ch) * 10 ^ ds.length + decimalValue ds,
          digitNum + ds.length + 1, tail) := by
  induction ds with
  | nil =>
    intro result digitNum ch _ hlt
    simp only [List.length_nil, pow_zero, mul_one, decimalValue_nil, add_zero] at hlt
    have h1 : result * 10 % 4294967296 = result * 10 := Nat.mod_eq_of_lt (by omega)
    have h2 : (result * 10 + digitValue ch) % 4294967296 = result * 10 + digitValue ch :=
      Nat.mod_eq_of_lt hlt
    cases tail with
    | nil => simp [conv_nanosecondLoop, h1, h2, decimalValue_nil]
    | cons c t =>
      have hc : isdigit c = false := htail
      simp [conv_nanosecondLoop, h1, h2, hc, decimalValue_nil]
  | cons d rest ih =>
    intro result digitNum ch hds hlt
    have hd : isdigit d = true := hds d (List.mem_cons_self _ _)
    rw [decimalValue_cons, List.length_cons, pow_succ] at hlt
    have hpos : 0 < 10 ^ rest.length := pow_pos (by norm_num) _
    have hlt2 : ((result * 10 + digitValue ch) * 10 + digitValue d) * 10 ^ rest.length
        + decimalValue rest < 2 ^ 32 := by
      have : ((result * 10 + digitValue ch) * 10 + digitValue d) * 10 ^ rest.length
          = (result * 10 + digitValue ch) * (10 ^ rest.length * 10)
            + digitValue d * 10 ^ rest.length := by ring
      omega
    have hsmall : (result * 10 + digitValue ch) * 10 < 2 ^ 32 := by
      have : (result * 10 + digitValue ch) * 10 * 1 ≤
          (result * 10 + digitValue ch) * 10 * 10 ^ rest.length :=
        Nat.mul_le_mul_left _ hpos
      have e : ((result * 10 + digitValue ch) * 10 + digitValue d) * 10 ^ rest.length
          = (result * 10 + digitValue ch) * 10 * 10 ^ rest.length
            + digitValue d * 10 ^ rest.length := by ring
      omega
    have h1 : result * 10 % 4294967296 = result * 10 := Nat.mod_eq_of_lt (by omega)
    have h2 : (result * 10 + digitValue ch) % 4294967296 = result * 10 + digitValue ch :=
      Nat.mod_eq_of_lt (by omega)
    have e : conv_nanosecondLoop result digitNum ch (d :: rest ++ tail) =
        conv_nanosecondLoop (result * 10 + digitValue ch) (digitNum + 1) d (rest ++ tail) := by
      simp [conv_nanosecondLoop, h1, h2, hd]
    rw [e, ih _ _ _ (fun x hx => hds x (List.mem_cons_of_mem _ hx)) hlt2]
    rw [decimalValue_cons, List.length_cons, pow_succ]
    refine Prod.ext ?_ (Prod.ext ?_ rfl)
    · simp only
      ring
    · simp only
      omega

theorem padNanosecond_eq (count : Nat) :
    ∀ result : Nat, result * 10 ^ count < 2 ^ 32 →
      padNanosecond count result = result * 10 ^ count := by
  induction count with
  | zero => intro result _; simp [padNanosecond]
  | succ n ih =>
    intro result h
    have hpos : 0 < 10 ^ n := pow_pos (by norm_num) _
    have e : result * 10 ^ (n + 1) = result * 10 * 10 ^ n := by ring
    have hs : result * 10 < 2 ^ 32 := by
      have : result * 10 * 1 ≤ result * 10 * 10 ^ n := Nat.mul_le_mul_left _ hpos
      omega
    simp only [padNanosecond]
    rw [Nat.mod_eq_of_lt hs, ih _ (by omega), e]

theorem conv_nanosecond_nondigit (buf : List Char) (dest len : Int)
    (h : isdigit (peek buf) = false) :
    conv_nanosecond buf dest len = (none, dest, len) := by
  cases buf with
  | nil => rfl
  | cons c t =>
    have hc : isdigit c = false := h
    simp [conv_nanosecond, hc]

theorem conv_nanosecond_digits (ds tail : List Char) (dest len : Int)
    (hds : ∀ c ∈ ds, isdigit c = true) (hne : ds ≠ []) (hk : ds.length ≤ 9)
    (htail : isdigit (peek tail) = false) :
    conv_nanosecond (ds ++ tail) dest len =
      (some tail, ((decimalValue ds * 10 ^ (9 - ds.length) : Nat) : Int),
        ((ds.length : Nat) : Int)) := by
  cases ds with
  | nil => exact absurd rfl hne
  | cons ch rest =>
    have hch : isdigit ch = true := hds ch (List.mem_cons_self _ _)
    have hv := decimalValue_lt (ch :: rest) hds
    have hp : 10 ^ (ch :: rest).length * 10 ^ (9 - (ch :: rest).length) = 10 ^ 9 := by
      rw [← pow_add]
      congr 1
      omega
    have hpad : decimalValue (ch :: rest) * 10 ^ (9 - (ch :: rest).length) < 10 ^ 9 := by
      rw [← hp]
      exact Nat.mul_lt_mul_of_pos_right hv (pow_pos (by norm_num) _)
    have hle : decimalValue (ch :: rest) ≤
        decimalValue (ch :: rest) * 10 ^ (9 - (ch :: rest).length) :=
      Nat.le_mul_of_pos_right _ (pow_pos (by norm_num) _)
    have hloop := conv_nanosecondLoop_digits tail htail rest 0 0 ch
      (fun x hx => hds x (List.mem_cons_of_mem _ hx))
      (by
        simp only [zero_mul, zero_add]
        rw [← decimalValue_cons]
        omega)
    simp only [zero_mul, zero_add] at hloop
    rw [← decimalValue_cons] at hloop
    simp only [conv_nanosecond, List.cons_append, hch, Bool.not_true, Bool.false_eq_true,
      if_false, hloop]
    have hpad2 : decimalValue (ch :: rest) * 10 ^ (9 - (rest.length + 1)) < 2 ^ 32 := by
      have e2 : (ch :: rest).length = rest.length + 1 := rfl
      rw [e2] at hpad
      omega
    rw [padNanosecond_eq _ _ hpad2]
    simp [Nat.add_comm]

theorem isdigit_peek_cons (c : Char) (l : List Char) : peek (c :: l) = c := rfl

theorem conv_numLoop_spec (ulim : Nat) (hu : ulim ≤ 429496720) (rest : List Char) :
    ∀ (result rulim : Nat) (ch : Char), isdigit ch = true → result * 10 ≤ ulim → 1 ≤ rulim →
      ∃ k, 1 ≤ k ∧ k ≤ (Nat.digits 10 rulim).length ∧ k ≤ (ch :: rest).length ∧
        (∀ c ∈ (ch :: rest).take k, isdigit c = true) ∧
        conv_numLoop ulim result rulim ch rest =
          (result * 10 ^ k + decimalValue ((ch :: rest).take k), (ch :: rest).drop k) := by
  induction rest with
  | nil =>
    intro result rulim ch hch hres hr
    have hd := digitValue_lt ch hch
    refine ⟨1, le_refl _, ?_, by simp, by simpa using hch, ?_⟩
    · rw [Nat.digits_def' (by norm_num) (by omega)]
      simp
    · simp only [conv_numLoop, List.take_succ_cons, List.take_zero, List.drop_succ_cons,
        List.drop_zero, decimalValue_cons, decimalValue_nil, List.length_nil, pow_zero, mul_one,
        add_zero, pow_one]
      have h1 : result * 10 % 2 ^ 32 = result * 10 := Nat.mod_eq_of_lt (by omega)
      rw [h1, Nat.mod_eq_of_lt (by omega)]
  | cons ch2 rest2 ih =>
    intro result rulim ch hch hres hr
    have hd := digitValue_lt ch hch
    have h1 : result * 10 % 2 ^ 32 = result * 10 := Nat.mod_eq_of_lt (by omega)
    have h2 : (result * 10 + digitValue ch) % 2 ^ 32 = result * 10 + digitValue ch :=
      Nat.mod_eq_of_lt (by omega)
    have h3 : (result * 10 + digitValue ch) * 10 % 2 ^ 32 = (result * 10 + digitValue ch) * 10 :=
      Nat.mod_eq_of_lt (by omega)
    have hdig : (Nat.digits 10 rulim).length = (Nat.digits 10 (rulim / 10)).length + 1 := by
      rw [Nat.digits_def' (by norm_num) (by omega)]
      simp
    simp only [conv_numLoop, h1, h2, h3]
    by_cases hcont : (decide ((result * 10 + digitValue ch) * 10 ≤ ulim)
        && decide (rulim / 10 ≠ 0) && isdigit ch2) = true
    · rw [if_pos hcont]
      simp only [Bool.and_eq_true, decide_eq_true_eq] at hcont
      obtain ⟨⟨hle, hr2⟩, hch2⟩ := hcont
      obtain ⟨k, hk1, hk2, hk3, hk4, hk5⟩ :=
        ih (result * 10 + digitValue ch) (rulim / 10) ch2 hch2 hle (by omega)
      refine ⟨k + 1, by omega, by omega, by simpa using hk3, ?_, ?_⟩
      · intro c hc
        simp only [List.take_succ_cons, List.mem_cons] at hc
        rcases hc with h | h
        · rw [h]; exact hch
        · exact hk4 c h
      · rw [hk5]
        simp only [List.take_succ_cons, List.drop_succ_cons, decimalValue_cons]
        have hlen : ((ch2 :: rest2).take k).length = k := by
          rw [List.length_take]
          exact Nat.min_eq_left hk3
        rw [hlen]
        congr 1
        ring
    · rw [if_neg hcont]
      refine ⟨1, le_refl _, by omega, by simp, by simpa using hch, ?_⟩
      simp [decimalValue_cons, decimalValue_nil]

theorem toInt32_of_lt (n : Nat) (h : n < 2 ^ 31) : toInt32 n = (n : Int) := by
  unfold toInt32
  have h1 : n % 2 ^ 32 = n := Nat.mod_eq_of_lt (by omega)
  rw [h1, if_pos h]

theorem conv_num_bounded (buf : List Char) (dest : Int) (llim ulim : Nat)
    (h1 : 1 ≤ ulim) (hu : ulim ≤ 429496720) :
    (isdigit (peek buf) = false → conv_num buf dest llim ulim = (none, dest)) ∧
    (isdigit (peek buf) = true →
      ∃ k, 1 ≤ k ∧ k ≤ (Nat.digits 10 ulim).length ∧ k ≤ buf.length ∧
        (∀ c ∈ buf.take k, isdigit c = true) ∧
        conv_num buf dest llim ulim =
          if llim ≤ decimalValue (buf.take k) ∧ decimalValue (buf.take k) ≤ ulim then
            (some (buf.drop k), (decimalValue (buf.take k) : Int))
          else (none, dest)) := by
  cases buf with
  | nil =>
    refine ⟨fun _ => rfl, fun h => ?_⟩
    exact absurd h (by decide)
  | cons ch rest =>
    simp only [isdigit_peek_cons]
    refine ⟨fun h => by simp [conv_num, h], fun h => ?_⟩
    obtain ⟨k, hk1, hk2, hk3, hk4, hk5⟩ :=
      conv_numLoop_spec ulim hu rest 0 ulim ch h (by omega) h1
    refine ⟨k, hk1, hk2, hk3, hk4, ?_⟩
    simp only [conv_num, h, Bool.not_true, Bool.false_eq_true, if_false, hk5, zero_mul, zero_add,
      Bool.or_eq_true, decide_eq_true_eq]
    by_cases hin : llim ≤ decimalValue ((ch :: rest).take k)
        ∧ decimalValue ((ch :: rest).take k) ≤ ulim
    · rw [if_pos hin, if_neg (by omega), toInt32_of_lt _ (by omega)]
    · rw [if_neg hin, if_pos (by omega)]

theorem isdigit_not_space (c : Char) (h : isdigit c = true) : isspace c = false := by
  simp only [isdigit, Bool.and_eq_true, decide_eq_true_eq] at h
  simp only [isspace, Bool.or_eq_false_iff, beq_eq_false_iff_ne, ne_eq, Bool.and_eq_false_iff,
    decide_eq_false_iff_not]
  omega

theorem isdigit_ne_of_not_digit (c d : Char) (h : isdigit c = true) (hd : isdigit d = false) :
    c ≠ d := by
  intro e
  rw [e, hd] at h
  exact Bool.false_ne_true h

theorem digitValue_pos (c : Char) (h : isdigit c = true) (h0 : c ≠ '0') : 1 ≤ digitValue c := by
  simp only [isdigit, Bool.and_eq_true, decide_eq_true_eq] at h
  unfold digitValue
  have : c.toNat ≠ 48 := by
    intro e
    apply h0
    have h2 : Char.ofNat c.toNat = Char.ofNat 48 := by rw [e]
    rw [Char.ofNat_toNat] at h2
    exact h2
  omega

theorem takeWhile_digits (ds tail : List Char) (hds : ∀ c ∈ ds, isdigit c = true)
    (htail : isdigit (peek tail) = false) :
    (ds ++ tail).takeWhile isdigit = ds ∧ (ds ++ tail).dropWhile isdigit = tail := by
  induction ds with
  | nil =>
    cases tail with
    | nil => simp
    | cons c t =>
      have hc : isdigit c = false := htail
      simp [List.takeWhile, List.dropWhile, hc]
  | cons d rest ih =>
    have hd : isdigit d = true := hds d (List.mem_cons_self _ _)
    have := ih (fun x hx => hds x (List.mem_cons_of_mem _ hx))
    simp [List.takeWhile, List.dropWhile, hd, this.1, this.2]

theorem strtoll_digits (ds tail : List Char) (hds : ∀ c ∈ ds, isdigit c = true) (hne : ds ≠ [])
    (htail : isdigit (peek tail) = false) (hmax : decimalValue ds ≤ 2 ^ 63 - 1) :
    strtoll (ds ++ tail) = (((decimalValue ds : Nat) : Int), tail) := by
  cases ds with
  | nil => exact absurd rfl hne
  | cons ch rest =>
    have hch : isdigit ch = true := hds ch (List.mem_cons_self _ _)
    have hsp : skipSpace (ch :: rest ++ tail) = ch :: rest ++ tail := by
      simp [skipSpace, List.dropWhile, isdigit_not_space ch hch]
    have hm : ch ≠ '-' := isdigit_ne_of_not_digit ch '-' hch (by decide)
    have hp : ch ≠ '+' := isdigit_ne_of_not_digit ch '+' hch (by decide)
    have htd := takeWhile_digits (ch :: rest) tail hds htail
    have hv : ¬ (((decimalValue (ch :: rest) : Nat) : Int) > 2 ^ 63 - 1) := by
      have : ((decimalValue (ch :: rest) : Nat) : Int) ≤ 2 ^ 63 - 1 := by
        have h2 : (2 : Int) ^ 63 - 1 = ((2 ^ 63 - 1 : Nat) : Int) := by norm_num
        rw [h2]
        exact Int.ofNat_le.mpr hmax
      omega
    unfold strtoll
    simp only [hsp]
    have hpk : peek (ch :: rest ++ tail) = ch := rfl
    simp only [hpk, hm, hp, or_self, if_false, htd.1, htd.2, decide_False, Bool.false_eq_true,
      List.isEmpty_cons, hv]

theorem decimalDigits_eq (fuel : Nat) :
    ∀ n d : Nat, 1 ≤ d → d ≤ fuel + 1 → 10 ^ (d - 1) ≤ n → n < 10 ^ d →
      decimalDigits fuel n = d := by
  induction fuel with
  | zero =>
    intro n d h1 h2 _ _
    simp only [decimalDigits]
    omega
  | succ f ih =>
    intro n d h1 h2 hlo hhi
    simp only [decimalDigits]
    by_cases hn : n < 10
    · rw [if_pos hn]
      by_contra hd
      have h3 : 10 ^ 1 ≤ 10 ^ (d - 1) := Nat.pow_le_pow_right (by norm_num) (by omega)
      omega
    · rw [if_neg hn]
      have hd2 : 2 ≤ d := by
        by_contra hd
        have : d = 1 := by omega
        rw [this] at hhi
        omega
      have e1 : 10 ^ (d - 1) = 10 ^ (d - 1 - 1) * 10 := by
        rw [← pow_succ]
        congr 1
        omega
      have e2 : 10 ^ d = 10 ^ (d - 1) * 10 := by
        rw [← pow_succ]
        congr 1
        omega
      have := ih (n / 10) (d - 1) (by omega) (by omega)
        (by
          rw [Nat.le_div_iff_mul_le (by norm_num), ← e1]
          exact hlo)
        (by
          rw [Nat.div_lt_iff_lt_mul (by norm_num), ← e2]
          exact hhi)
      omega

theorem decimalValue_ge (ds : List Char) (hds : ∀ c ∈ ds, isdigit c = true) (hne : ds ≠ [])
    (hlead : peek ds ≠ '0') : 10 ^ (ds.length - 1) ≤ decimalValue ds := by
  cases ds with
  | nil => exact absurd rfl hne
  | cons ch rest =>
    have hch : isdigit ch = true := hds ch (List.mem_cons_self _ _)
    have h1 := digitValue_pos ch hch hlead
    rw [decimalValue_cons]
    simp only [List.length_cons, Nat.add_sub_cancel]
    have : 1 * 10 ^ rest.length ≤ digitValue ch * 10 ^ rest.length :=
      Nat.mul_le_mul_right _ h1
    omega

theorem iterate_tdiv (j : Nat) (n : Nat) :
    (fun x : Int => x.tdiv 10)^[j] (n : Int) = ((n / 10 ^ j : Nat) : Int) := by
  induction j with
  | zero => simp
  | succ k ih =>
    rw [Function.iterate_succ_apply', ih, pow_succ, ← Nat.div_div_eq_div_mul]
    rfl

theorem to_string_length_digits (ds : List Char) (hds : ∀ c ∈ ds, isdigit c = true)
    (hne : ds ≠ []) (hlead : peek ds ≠ '0') (hmax : decimalValue ds ≤ 2 ^ 63 - 1) :
    ds.length ≤ 19 ∧ to_string_length ((decimalValue ds : Nat) : Int) = ds.length := by
  have hlo := decimalValue_ge ds hds hne hlead
  have hhi := decimalValue_lt ds hds
  have hpos : 1 ≤ ds.length := by
    cases ds with
    | nil => exact absurd rfl hne
    | cons c t => simp
  have h19 : ds.length ≤ 19 := by
    by_contra h
    have : 10 ^ 19 ≤ 10 ^ (ds.length - 1) := Nat.pow_le_pow_right (by norm_num) (by omega)
    omega
  refine ⟨h19, ?_⟩
  unfold to_string_length
  have hneg : ¬ (((decimalValue ds : Nat) : Int) < 0) := by omega
  rw [if_neg hneg, Int.natAbs_ofNat, decimalDigits_eq 18 _ ds.length hpos (by omega) hlo hhi]
  rfl

theorem strptime_epoch_digits (localtime_r : Int → Option Tm) (ds tail : List Char) (tm : Tm)
    (nanosecond nanosecondLength : Int) (hds : ∀ c ∈ ds, isdigit c = true) (hne : ds ≠ [])
    (hlead : peek ds ≠ '0') (htail : isdigit (peek tail) = false)
    (hmax : decimalValue ds ≤ 2 ^ 63 - 1) :
    strptime_epoch localtime_r (ds ++ tail) tm nanosecond nanosecondLength =
      match localtime_r ((decimalValue ds / 10 ^ (ds.length - 10) : Nat) : Int) with
      | none =>
        { ret := none, tm := tm, nanosecond := nanosecond, nanosecondLength := nanosecondLength }
      | some tm2 =>
        { ret := some tail, tm := tm2,
          nanosecond :=
            ((decimalValue ds % 10 ^ (ds.length - 10) * 10 ^ (19 - ds.length) : Nat) : Int),
          nanosecondLength := ((ds.length - 10 : Nat) : Int) } := by
  obtain ⟨h19, hlen⟩ := to_string_length_digits ds hds hne hlead hmax
  have hlo := decimalValue_ge ds hds hne hlead
  have hpos : 1 ≤ ds.length := by
    cases ds with
    | nil => exact absurd rfl hne
    | cons c t => simp
  have hsub : ds.length - (if ds.length ≥ 10 then 10 else ds.length) = ds.length - 10 := by
    split <;> omega
  have hn0 : ((decimalValue ds / 10 ^ (ds.length - 10) : Nat) : Int) ≠ 0 := by
    have h1 : 10 ^ (ds.length - 10) ≤ 10 ^ (ds.length - 1) :=
      Nat.pow_le_pow_right (by norm_num) (by omega)
    have h2 : 0 < decimalValue ds / 10 ^ (ds.length - 10) :=
      Nat.div_pos (le_trans h1 hlo) (pow_pos (by norm_num) _)
    omega
  unfold strptime_epoch
  simp only [strtoll_digits ds tail hds hne htail hmax, hlen, hsub, iterate_tdiv, hn0, if_false]
  cases localtime_r ((decimalValue ds / 10 ^ (ds.length - 10) : Nat) : Int) with
  | none => rfl
  | some tm2 =>
    simp only
    by_cases hd : ds.length ≤ 10
    · have e1 : (if ds.length ≥ 10 then 10 else ds.length) = ds.length := by
        split <;> omega
      have e2 : ds.length - 10 = 0 := by omega
      rw [e1, List.drop_left, conv_nanosecond_nondigit _ _ _ htail, e2]
      simp
    · have e1 : (if ds.length ≥ 10 then 10 else ds.length) = 10 := by
        split <;> omega
      have e3 : (ds ++ tail).drop 10 = ds.drop 10 ++ tail := by
        rw [List.drop_append_of_le_length (by omega)]
      have hlen2 : (ds.drop 10).length = ds.length - 10 := List.length_drop _ _
      have hds2 : ∀ c ∈ ds.drop 10, isdigit c = true :=
        fun c hc => hds c (List.mem_of_mem_drop hc)
      have hne2 : ds.drop 10 ≠ [] := by
        intro e
        rw [e] at hlen2
        simp only [List.length_nil] at hlen2
        omega
      have hsplit := decimalValue_append (ds.take 10) (ds.drop 10)
      rw [List.take_append_drop, hlen2] at hsplit
      have hlt := decimalValue_lt (ds.drop 10) hds2
      rw [hlen2] at hlt
      have hmod : decimalValue ds % 10 ^ (ds.length - 10) = decimalValue (ds.drop 10) := by
        rw [hsplit, Nat.mul_add_mod_of_lt hlt]
      have e4 : 9 - (ds.length - 10) = 19 - ds.length := by omega
      rw [e1, e3, conv_nanosecond_digits _ _ _ _ hds2 hne2 (by omega) htail, hlen2, hmod, e4]

/-! ## The conversion of seconds since the epoch -/

/-- C22: with the format `"%s"` and a buffer that starts with `d` decimal digits
without a leading zero, of value `n` at most `2 ^ 63 - 1`, followed by a character
that is not a digit, the call returns (`d` is at most 19).  When `localtime_r`
succeeds the pointer returned is just after the digits and `*tm` is the conversion
of the seconds value: for `d ≤ 10` the seconds value is `n`, the nanosecond is 0
and its length 0; for `11 ≤ d` the seconds value is `n / 10 ^ (d - 10)`, the
nanosecond is `(n mod 10 ^ (d - 10)) * 10 ^ (19 - d)` and its length `d - 10`.
When `localtime_r` fails the result is `NULL` and nothing is written. -/
theorem strptime_ns_epoch (localtime_r : Int → Option Tm) (ds tail : List Char) (tm tm2 : Tm)
    (nanosecond nanosecondLength : Int) (hds : ∀ c ∈ ds, isdigit c = true) (hne : ds ≠ [])
    (hlead : peek ds ≠ '0') (htail : isdigit (peek tail) = false)
    (hmax : decimalValue ds ≤ 2 ^ 63 - 1) :
    ds.length ≤ 19 ∧
    (ds.length ≤ 10 → localtime_r ((decimalValue ds : Nat) : Int) = some tm2 →
      strptime_ns localtime_r (ds ++ tail) "%s".toList tm nanosecond nanosecondLength =
        some { ret := some tail, tm := tm2, nanosecond := 0, nanosecondLength := 0 }) ∧
    (11 ≤ ds.length →
      localtime_r ((decimalValue ds / 10 ^ (ds.length - 10) : Nat) : Int) = some tm2 →
      strptime_ns localtime_r (ds ++ tail) "%s".toList tm nanosecond nanosecondLength =
        some { ret := some tail, tm := tm2,
               nanosecond :=
                 ((decimalValue ds % 10 ^ (ds.length - 10) * 10 ^ (19 - ds.length) : Nat) : Int),
               nanosecondLength := ((ds.length - 10 : Nat) : Int) }) ∧
    (localtime_r ((decimalValue ds / 10 ^ (ds.length - 10) : Nat) : Int) = none →
      strptime_ns localtime_r (ds ++ tail) "%s".toList tm nanosecond nanosecondLength =
        some { ret := none, tm := tm, nanosecond := nanosecond,
               nanosecondLength := nanosecondLength }) := by
  have h := strptime_epoch_digits localtime_r ds tail tm nanosecond nanosecondLength hds hne hlead
    htail hmax
  have hcall : strptime_ns localtime_r (ds ++ tail) "%s".toList tm nanosecond nanosecondLength =
      some (strptime_epoch localtime_r (ds ++ tail) tm nanosecond nanosecondLength) := by
    simp [strptime_ns, strptime_nsDepth]
  refine ⟨(to_string_length_digits ds hds hne hlead hmax).1, ?_, ?_, ?_⟩
  · intro hd hlt
    have e : ds.length - 10 = 0 := by omega
    rw [e] at h
    simp only [pow_zero, Nat.div_one, Nat.mod_one, zero_mul, hlt] at h
    rw [hcall, h]
    rfl
  · intro _ hlt
    rw [hlt] at h
    rw [hcall, h]
  · intro hlt
    rw [hlt] at h
    rw [hcall, h]

theorem strptime_ns_epoch_witness :
    strptime_ns utcClock ("1700000000123".toList ++ " x".toList) "%s".toList zeroTm 5 5 =
      some { ret := some " x".toList,
             tm := { zeroTm with tm_sec := 20, tm_min := 13, tm_hour := 22 },
             nanosecond := 123000000, nanosecondLength := 3 } :=
  (strptime_ns_epoch utcClock "1700000000123".toList " x".toList zeroTm
    { zeroTm with tm_sec := 20, tm_min := 13, tm_hour := 22 } 5 5
    (by decide) (by decide) (by decide) (by decide) (by decide)).2.2.1 (by decide) (by decide)

theorem conv_numLoop_exact (ulim : Nat) (hu : ulim ≤ 429496720) (tail : List Char)
    (ds : List Char) :
    ∀ (result rulim : Nat) (ch : Char), isdigit ch = true → (∀ c ∈ ds, isdigit c = true) →
      result * 10 ≤ ulim →
      (result * 10 + digitValue ch) * 10 ^ ds.length + decimalValue ds ≤ ulim →
      10 ^ ds.length ≤ rulim →
      (isdigit (peek tail) = false ∨ rulim / 10 ^ (ds.length + 1) = 0 ∨
        ulim < ((result * 10 + digitValue ch) * 10 ^ ds.length + decimalValue ds) * 10) →
      conv_numLoop ulim result rulim ch (ds ++ tail) =
        ((result * 10 + digitValue ch) * 10 ^ ds.length + decimalValue ds, tail) := by
  induction ds with
  | nil =>
    intro result rulim ch hch _ hres hv hr hstop
    have hd := digitValue_lt ch hch
    simp only [List.length_nil, pow_zero, mul_one, decimalValue_nil, add_zero, zero_add,
      pow_one] at hv hstop ⊢
    have h1 : result * 10 % 2 ^ 32 = result * 10 := Nat.mod_eq_of_lt (by omega)
    have h2 : (result * 10 + digitValue ch) % 2 ^ 32 = result * 10 + digitValue ch :=
      Nat.mod_eq_of_lt (by omega)
    have h3 : (result * 10 + digitValue ch) * 10 % 2 ^ 32 = (result * 10 + digitValue ch) * 10 :=
      Nat.mod_eq_of_lt (by omega)
    cases tail with
    | nil => simp only [List.nil_append, conv_numLoop, h1, h2]
    | cons c t =>
      simp only [List.nil_append, conv_numLoop, h1, h2, h3]
      rw [if_neg]
      intro hc
      simp only [Bool.and_eq_true, decide_eq_true_eq] at hc
      obtain ⟨⟨hle, hr2⟩, hc2⟩ := hc
      rcases hstop with h | h | h
      · have : isdigit c = false := h
        rw [this] at hc2
        exact Bool.false_ne_true hc2
      · exact hr2 h
      · omega
  | cons d rest ih =>
    intro result rulim ch hch hds hres hv hr hstop
    have hd := digitValue_lt ch hch
    have hdd : isdigit d = true := hds d (List.mem_cons_self _ _)
    have hpos : 0 < 10 ^ rest.length := pow_pos (by norm_num) _
    rw [decimalValue_cons, List.length_cons, pow_succ] at hv
    have e : (result * 10 + digitValue ch) * (10 ^ rest.length * 10)
          + (digitValue d * 10 ^ rest.length + decimalValue rest)
        = ((result * 10 + digitValue ch) * 10 + digitValue d) * 10 ^ rest.length
          + decimalValue rest := by ring
    have hle10 : (result * 10 + digitValue ch) * 10 ≤ ulim := by
      have : (result * 10 + digitValue ch) * 10 * 1 ≤
          (result * 10 + digitValue ch) * 10 * 10 ^ rest.length := Nat.mul_le_mul_left _ hpos
      have e2 : (result * 10 + digitValue ch) * (10 ^ rest.length * 10)
          = (result * 10 + digitValue ch) * 10 * 10 ^ rest.length := by ring
      omega
    have h1 : result * 10 % 2 ^ 32 = result * 10 := Nat.mod_eq_of_lt (by omega)
    have h2 : (result * 10 + digitValue ch) % 2 ^ 32 = result * 10 + digitValue ch :=
      Nat.mod_eq_of_lt (by omega)
    have h3 : (result * 10 + digitValue ch) * 10 % 2 ^ 32 = (result * 10 + digitValue ch) * 10 :=
      Nat.mod_eq_of_lt (by omega)
    have hr10 : 10 ^ rest.length ≤ rulim / 10 := by
      rw [Nat.le_div_iff_mul_le (by norm_num), ← pow_succ]
      exact hr
    have hrne : rulim / 10 ≠ 0 := by omega
    simp only [List.cons_append, conv_numLoop, h1, h2, h3]
    rw [if_pos (by simp [hle10, hrne, hdd])]
    have hstop2 : isdigit (peek tail) = false ∨ rulim / 10 / 10 ^ (rest.length + 1) = 0 ∨
        ulim < (((result * 10 + digitValue ch) * 10 + digitValue d) * 10 ^ rest.length
          + decimalValue rest) * 10 := by
      rcases hstop with h | h | h
      · exact Or.inl h
      · right; left
        rw [Nat.div_div_eq_div_mul, ← pow_succ']
        exact h
      · right; right
        rw [decimalValue_cons, List.length_cons, pow_succ, e] at h
        exact h
    show conv_numLoop ulim (result * 10 + digitValue ch) (rulim / 10) d (rest ++ tail) = _
    rw [ih _ _ _ hdd (fun x hx => hds x (List.mem_cons_of_mem _ hx)) hle10 (by omega) hr10 hstop2]
    rw [decimalValue_cons, List.length_cons, pow_succ, e]

theorem conv_num_exact (ds tail : List Char) (dest : Int) (llim ulim : Nat)
    (hds : ∀ c ∈ ds, isdigit c = true) (hne : ds ≠ []) (hu : ulim ≤ 429496720)
    (hlow : llim ≤ decimalValue ds) (hhigh : decimalValue ds ≤ ulim)
    (hlen : 10 ^ (ds.length - 1) ≤ ulim)
    (hstop : isdigit (peek tail) = false ∨ ulim / 10 ^ ds.length = 0
      ∨ ulim < decimalValue ds * 10) :
    conv_num (ds ++ tail) dest llim ulim = (some tail, ((decimalValue ds : Nat) : Int)) := by
  cases ds with
  | nil => exact absurd rfl hne
  | cons ch rest =>
    have hch : isdigit ch = true := hds ch (List.mem_cons_self _ _)
    have hloop := conv_numLoop_exact ulim hu tail rest 0 ulim ch hch
      (fun x hx => hds x (List.mem_cons_of_mem _ hx)) (by omega)
      (by
        simp only [zero_mul, zero_add]
        rw [← decimalValue_cons]
        exact hhigh)
      (by simpa using hlen)
      (by
        simp only [zero_mul, zero_add]
        rw [← decimalValue_cons]
        exact hstop)
    simp only [zero_mul, zero_add] at hloop
    rw [← decimalValue_cons] at hloop
    simp only [conv_num, List.cons_append, hch, Bool.not_true, Bool.false_eq_true, if_false,
      hloop, Bool.or_eq_true, decide_eq_true_eq]
    rw [if_neg (by omega), toInt32_of_lt _ (by omega)]

/-! ## The twelve-hour clock -/

theorem find_string_am_pm (pm : Bool) (m1 m2 : Char) (tail : List Char)
    (hm1 : m1 = (if pm then 'p' else 'a') ∨ m1 = (if pm then 'P' else 'A'))
    (hm2 : m2 = 'm' ∨ m2 = 'M') :
    find_string (m1 :: m2 :: tail) 0 am_pm none 2 = (some tail, if pm then 1 else 0) := by
  cases pm <;> rcases hm1 with h | h <;> rcases hm2 with h2 | h2 <;> subst h <;> subst h2 <;>
    simp [find_string, find_stringIn, am_pm, CStringNCaseInsensitiveCmp, tolower, peek, NUL]

theorem skipSpace_am_pm (pm : Bool) (m1 : Char) (rest : List Char)
    (hm1 : m1 = (if pm then 'p' else 'a') ∨ m1 = (if pm then 'P' else 'A')) :
    skipSpace (' ' :: m1 :: rest) = m1 :: rest := by
  cases pm <;> rcases hm1 with h | h <;> subst h <;>
    simp [skipSpace, List.dropWhile, isspace]

/-- C24: with the format `"%I %p"` and a buffer holding an hour `h` from 1 to 12
written with one or two digits, a space and the marker AM or PM in any letter
case, the call returns the position after the marker and `tm_hour` is
`h mod 12`, plus 12 for PM; and `%p` returns `NULL`, leaving `*tm` as it is, when
`tm_hour` is already greater than 11. -/
theorem strptime_ns_twelve_hour (localtime_r : Int → Option Tm) (hs tail : List Char)
    (pm : Bool) (m1 m2 : Char) (tm : Tm) (nanosecond nanosecondLength : Int)
    (hds : ∀ c ∈ hs, isdigit c = true) (hlen : hs.length = 1 ∨ hs.length = 2)
    (h1 : 1 ≤ decimalValue hs) (h12 : decimalValue hs ≤ 12)
    (hm1 : m1 = (if pm then 'p' else 'a') ∨ m1 = (if pm then 'P' else 'A'))
    (hm2 : m2 = 'm' ∨ m2 = 'M') :
    strptime_ns localtime_r (hs ++ ' ' :: m1 :: m2 :: tail) "%I %p".toList tm nanosecond
        nanosecondLength =
      some { ret := some tail,
             tm := { tm with tm_hour :=
               ((decimalValue hs % 12 + (if pm then 12 else 0) : Nat) : Int) },
             nanosecond := 0, nanosecondLength := nanosecondLength } ∧
    ∀ (bp : List Char) (tm0 : Tm), 11 < tm0.tm_hour →
      strptime_ns localtime_r bp "%p".toList tm0 nanosecond nanosecondLength =
        some { ret := none, tm := tm0, nanosecond := 0, nanosecondLength := nanosecondLength } := by
  have hne : hs ≠ [] := by
    intro e
    rw [e] at hlen
    simp at hlen
  have hconv := conv_num_exact hs (' ' :: m1 :: m2 :: tail) tm.tm_hour 1 12 hds hne (by norm_num)
    h1 h12
    (by rcases hlen with h | h <;> rw [h] <;> norm_num)
    (Or.inl rfl)
  have hf : "%I %p".toList = ['%', 'I', ' ', '%', 'p'] := rfl
  have hp : "%p".toList = ['%', 'p'] := rfl
  constructor
  · rw [hf]
    simp [strptime_ns, strptime_nsDepth, strptimeLoop, strptimeSwitch, isspace, hconv,
      legalAlt, LEGAL_ALT, ALT_O, skipSpace_am_pm pm m1 (m2 :: tail) hm1,
      find_string_am_pm pm m1 m2 tail hm1 hm2]
    interval_cases hv2 : decimalValue hs <;> cases pm <;> simp [strptimeLoop]
  · intro bp tm0 h11
    rw [hp]
    simp [strptime_ns, strptime_nsDepth, strptimeLoop, strptimeSwitch, isspace, h11]

theorem strptime_ns_twelve_hour_witness :
    strptime_ns utcClock ("12".toList ++ ' ' :: 'p' :: 'M' :: "!".toList) "%I %p".toList zeroTm 0
        0 =
      some { ret := some "!".toList, tm := { zeroTm with tm_hour := 12 }, nanosecond := 0,
             nanosecondLength := 0 } :=
  (strptime_ns_twelve_hour utcClock "12".toList "!".toList true 'p' 'M' zeroTm 0 0 (by decide)
    (by decide) (by decide) (by decide) (by decide) (by decide)).1

/-! ## The two-digit year -/

theorem conv_num_year (ys tail : List Char) (dest : Int) (hds : ∀ c ∈ ys, isdigit c = true)
    (hlen : ys.length = 2 ∨ (ys.length = 1 ∧ isdigit (peek tail) = false)) :
    conv_num (ys ++ tail) dest 0 99 = (some tail, ((decimalValue ys : Nat) : Int)) ∧
      decimalValue ys ≤ 99 := by
  have hne : ys ≠ [] := by
    intro e
    rw [e] at hlen
    simp at hlen
  have hv := decimalValue_lt ys hds
  have hv99 : decimalValue ys ≤ 99 := by
    rcases hlen with h | h
    · rw [h] at hv
      omega
    · rw [h.1] at hv
      omega
  refine ⟨conv_num_exact ys tail dest 0 99 hds hne (by norm_num) (Nat.zero_le _) hv99 ?_ ?_, hv99⟩
  · rcases hlen with h | h
    · rw [h]; norm_num
    · rw [h.1]; norm_num
  · rcases hlen with h | h
    · right; left
      rw [h]
      rfl
    · exact Or.inl h.2

/-- C25: `%y` met while `split_year` is unset, which is how every call starts and
how it stays until a `%C` or `%y` is converted, reads a year `yy` written with two
digits (or with one digit before a character that is not a digit) and sets
`tm_year` to `yy + 100` when `yy ≤ 68` and to `yy` when `yy ≥ 69`; the format
`"%y"` alone returns the position after the digits with that `tm_year`. -/
theorem strptime_ns_year_pivot (localtime_r : Int → Option Tm) (ys tail : List Char) (tm : Tm)
    (nanosecond nanosecondLength : Int) (hds : ∀ c ∈ ys, isdigit c = true)
    (hlen : ys.length = 2 ∨ (ys.length = 1 ∧ isdigit (peek tail) = false)) :
    decimalValue ys ≤ 99 ∧
    strptime_ns localtime_r (ys ++ tail) "%y".toList tm nanosecond nanosecondLength =
      some { ret := some tail,
             tm := { tm with tm_year :=
               if decimalValue ys ≤ 68 then ((decimalValue ys : Nat) : Int) + 100
               else ((decimalValue ys : Nat) : Int) },
             nanosecond := 0, nanosecondLength := nanosecondLength } ∧
    ∀ (recurse : List Char → List Char → Tm → Int → Int → Option StrptimeResult) (fuel : Nat)
      (fmt : List Char) (st : StrptimeState),
      st.bp = some (ys ++ tail) → st.split_year = false →
      strptimeLoop recurse (fuel + 1) ('%' :: 'y' :: fmt) st =
        strptimeLoop recurse fuel fmt
          { st with bp := some tail, split_year := true,
                    tm := { st.tm with tm_year :=
                      (if decimalValue ys ≤ 68 then ((decimalValue ys : Nat) : Int) + 100
                       else ((decimalValue ys : Nat) : Int)) } } := by
  obtain ⟨hconv, hv99⟩ := conv_num_year ys tail 0 hds hlen
  have hf : "%y".toList = ['%', 'y'] := rfl
  refine ⟨hv99, ?_, ?_⟩
  · rw [hf]
    simp [strptime_ns, strptime_nsDepth, strptimeLoop, strptimeSwitch, isspace, hconv,
      TM_YEAR_BASE]
    split <;> omega
  · intro recurse fuel fmt st hbp hsplit
    obtain ⟨bp, tm0, ns0, len0, sy⟩ := st
    simp only at hbp hsplit
    subst hbp
    subst hsplit
    simp [strptimeLoop, strptimeSwitch, isspace, hconv, TM_YEAR_BASE]
    have key : (if decimalValue ys ≤ 68 then ((decimalValue ys : Nat) : Int) + 2000 - 1900
        else ((decimalValue ys : Nat) : Int)) =
        if decimalValue ys ≤ 68 then ((decimalValue ys : Nat) : Int) + 100
        else ((decimalValue ys : Nat) : Int) := by
      split <;> omega
    rw [key]

theorem strptime_ns_year_pivot_witness :
    strptime_ns utcClock ("68".toList ++ "-".toList) "%y".toList zeroTm 0 0 =
      some { ret := some "-".toList, tm := { zeroTm with tm_year := 168 }, nanosecond := 0,
             nanosecondLength := 0 } :=
  (strptime_ns_year_pivot utcClock "68".toList "-".toList zeroTm 0 0 (by decide)
    (by decide)).2.1

/-! ## Century and year -/

theorem century_then_year (c y : Nat) :
    ((y : Int) + ((c : Int) * 100 - 1900).tdiv 100 * 100) = 100 * (c : Int) + (y : Int) - 1900 := by
  have e : (c : Int) * 100 - 1900 = ((c : Int) - 19) * 100 := by ring
  rw [e, Int.mul_tdiv_cancel _ (by norm_num)]
  ring

theorem year_then_century (c y : Nat) (hy : y ≤ 99) :
    ((c : Int) * 100 - 1900 +
        (if y ≤ 68 then (y : Int) + 2000 - 1900 else (y : Int)).tmod 100) =
      100 * (c : Int) + (y : Int) - 1900 := by
  have h : (if y ≤ 68 then (y : Int) + 2000 - 1900 else (y : Int)).tmod 100 = (y : Int) := by
    split
    · rw [Int.tmod_eq_emod (by omega) (by norm_num)]
      omega
    · rw [Int.tmod_eq_emod (by omega) (by norm_num)]
      omega
  rw [h]
  ring

/-- C26: for a century and a year in the century, each written with two digits,
the format `"%C%y"` on the century followed by the year and the format `"%y%C"` on
the year followed by the century both return the position after the four digits
and set `tm_year` to `100 * C + y - 1900`. -/
theorem strptime_ns_century_year (localtime_r : Int → Option Tm) (cs ys tail : List Char)
    (tm : Tm) (nanosecond nanosecondLength : Int) (hcs : ∀ c ∈ cs, isdigit c = true)
    (hys : ∀ c ∈ ys, isdigit c = true) (hclen : cs.length = 2) (hylen : ys.length = 2) :
    strptime_ns localtime_r (cs ++ (ys ++ tail)) "%C%y".toList tm nanosecond nanosecondLength =
      some { ret := some tail,
             tm := { tm with tm_year :=
               100 * ((decimalValue cs : Nat) : Int) + ((decimalValue ys : Nat) : Int) - 1900 },
             nanosecond := 0, nanosecondLength := nanosecondLength } ∧
    strptime_ns localtime_r (ys ++ (cs ++ tail)) "%y%C".toList tm nanosecond nanosecondLength =
      some { ret := some tail,
             tm := { tm with tm_year :=
               100 * ((decimalValue cs : Nat) : Int) + ((decimalValue ys : Nat) : Int) - 1900 },
             nanosecond := 0, nanosecondLength := nanosecondLength } := by
  have hf1 : "%C%y".toList = ['%', 'C', '%', 'y'] := rfl
  have hf2 : "%y%C".toList = ['%', 'y', '%', 'C'] := rfl
  obtain ⟨hc1, _⟩ := conv_num_year cs (ys ++ tail) 20 hcs (Or.inl hclen)
  obtain ⟨hy1, _⟩ := conv_num_year ys tail 0 hys (Or.inl hylen)
  obtain ⟨hy2, hy99⟩ := conv_num_year ys (cs ++ tail) 0 hys (Or.inl hylen)
  obtain ⟨hc2, _⟩ := conv_num_year cs tail 20 hcs (Or.inl hclen)
  constructor
  · rw [hf1]
    simp [strptime_ns, strptime_nsDepth, strptimeLoop, strptimeSwitch, isspace, hc1, hy1,
      legalAlt, LEGAL_ALT, ALT_E, TM_YEAR_BASE]
    exact century_then_year _ _
  · rw [hf2]
    simp [strptime_ns, strptime_nsDepth, strptimeLoop, strptimeSwitch, isspace, hc2, hy2,
      legalAlt, LEGAL_ALT, ALT_E, TM_YEAR_BASE]
    exact year_then_century _ _ hy99

theorem strptime_ns_century_year_witness :
    strptime_ns utcClock ("19".toList ++ ("24".toList ++ "!".toList)) "%C%y".toList zeroTm 0 0 =
        some { ret := some "!".toList, tm := { zeroTm with tm_year := 24 }, nanosecond := 0,
               nanosecondLength := 0 } ∧
      strptime_ns utcClock ("24".toList ++ ("19".toList ++ "!".toList)) "%y%C".toList zeroTm 0 0 =
        some { ret := some "!".toList, tm := { zeroTm with tm_year := 24 }, nanosecond := 0,
               nanosecondLength := 0 } :=
  strptime_ns_century_year utcClock "19".toList "24".toList "!".toList zeroTm 0 0 (by decide)
    (by decide) (by decide) (by decide)

/-! ## Composite conversions and the two numeric helpers -/

/-- C23: the composite conversions are not shorthands.  On the buffer
`"123 10:11:12"` the format `"%f %T"` ends with nanosecond 0, because the
recursive call made for `%T` runs the prologue `*nanosecond = 0` again, while
`"%f %H:%M:%S"` ends with nanosecond 123000000; and on `"19 03/05/24"` the format
`"%C %D"` gives `tm_year` 124, because the recursive call has its own
`split_year`, while `"%C %m/%d/%y"` gives 24. -/
theorem composite_conversion_not_shorthand :
    strptime_ns utcClock "123 10:11:12".toList "%f %T".toList zeroTm 7 7 =
        some { ret := some [], tm := { zeroTm with tm_hour := 10, tm_min := 11, tm_sec := 12 },
               nanosecond := 0, nanosecondLength := 3 } ∧
      strptime_ns utcClock "123 10:11:12".toList "%f %H:%M:%S".toList zeroTm 7 7 =
        some { ret := some [], tm := { zeroTm with tm_hour := 10, tm_min := 11, tm_sec := 12 },
               nanosecond := 123000000, nanosecondLength := 3 } ∧
      strptime_ns utcClock "19 03/05/24".toList "%C %D".toList zeroTm 0 0 =
        some { ret := some [], tm := { zeroTm with tm_mon := 2, tm_mday := 5, tm_year := 124 },
               nanosecond := 0, nanosecondLength := 0 } ∧
      strptime_ns utcClock "19 03/05/24".toList "%C %m/%d/%y".toList zeroTm 0 0 =
        some { ret := some [], tm := { zeroTm with tm_mon := 2, tm_mday := 5, tm_year := 24 },
               nanosecond := 0, nanosecondLength := 0 } := by
  decide

/-- C28, counterexample: with `ulim = 4294967295` the ten digits `9999999999` are
all consumed and the call succeeds, although their value is above `ulim`; what is
stored is 1410065407, the value modulo `2 ^ 32`. -/
theorem conv_num_wraps :
    conv_num "9999999999".toList 5 0 4294967295 = (some [], 1410065407) ∧
      decimalValue "9999999999".toList = 9999999999 ∧ 4294967295 < 9999999999 := by
  decide

/-- C28, amended: for limits with `1 ≤ ulim ≤ 429496720` (every call in the file
has `ulim ≤ 9999`) `conv_num` returns `NULL` and leaves the destination as it is
when the first character is not a digit; otherwise it consumes `k` digits with
`1 ≤ k ≤` the number of decimal digits of `ulim`, and with `v` their decimal value
it returns the position after them and stores `v` when `llim ≤ v ≤ ulim`, and
returns `NULL` and leaves the destination as it is when not. -/
theorem conv_num_spec (buf : List Char) (dest : Int) (llim ulim : Nat)
    (h1 : 1 ≤ ulim) (hu : ulim ≤ 429496720) :
    (isdigit (peek buf) = false → conv_num buf dest llim ulim = (none, dest)) ∧
    (isdigit (peek buf) = true →
      ∃ k, 1 ≤ k ∧ k ≤ (Nat.digits 10 ulim).length ∧ k ≤ buf.length ∧
        (∀ c ∈ buf.take k, isdigit c = true) ∧
        conv_num buf dest llim ulim =
          if llim ≤ decimalValue (buf.take k) ∧ decimalValue (buf.take k) ≤ ulim then
            (some (buf.drop k), (decimalValue (buf.take k) : Int))
          else (none, dest)) ∧
    ((conv_num buf dest llim ulim).1 = none → (conv_num buf dest llim ulim).2 = dest) := by
  obtain ⟨hno, hyes⟩ := conv_num_bounded buf dest llim ulim h1 hu
  refine ⟨hno, hyes, ?_⟩
  intro hnone
  cases hd : isdigit (peek buf) with
  | false => rw [hno hd]
  | true =>
    obtain ⟨k, _, _, _, _, hk⟩ := hyes hd
    rw [hk] at hnone ⊢
    split
    · rename_i hin
      rw [if_pos hin] at hnone
      exact absurd hnone (by simp)
    · rfl

theorem conv_num_spec_witness :
    (isdigit (peek "12x".toList) = false → conv_num "12x".toList 7 1 12 = (none, 7)) ∧
    (isdigit (peek "12x".toList) = true →
      ∃ k, 1 ≤ k ∧ k ≤ (Nat.digits 10 12).length ∧ k ≤ "12x".toList.length ∧
        (∀ c ∈ "12x".toList.take k, isdigit c = true) ∧
        conv_num "12x".toList 7 1 12 =
          if 1 ≤ decimalValue ("12x".toList.take k) ∧ decimalValue ("12x".toList.take k) ≤ 12 then
            (some ("12x".toList.drop k), (decimalValue ("12x".toList.take k) : Int))
          else (none, 7)) ∧
    ((conv_num "12x".toList 7 1 12).1 = none → (conv_num "12x".toList 7 1 12).2 = 7) :=
  conv_num_spec "12x".toList 7 1 12 (by decide) (by decide)

/-- C29: on the ten digits `1234567890`, `conv_nanosecond` stores 1234567890, which
is above 999999999 and is not the first nine digits 123456789: beyond nine digits
the value is neither cut nor scaled (and it wraps modulo `2 ^ 32`, as on
`9999999999`).  The format `"%f"` hands this value back. -/
theorem conv_nanosecond_ten_digits :
    conv_nanosecond "1234567890".toList 0 0 = (some [], 1234567890, 10) ∧
      decimalValue "1234567890".toList * 10 ^ 9 / 10 ^ 10 = 123456789 ∧
      conv_nanosecond "9999999999".toList 0 0 = (some [], 1410065407, 10) ∧
      strptime_ns utcClock "1234567890".toList "%f".toList zeroTm 0 0 =
        some { ret := some [], tm := zeroTm, nanosecond := 1234567890,
               nanosecondLength := 10 } := by
  decide

/-! ## The time-zone conversion -/

theorem strptimeLoop_done (recurse : List Char → List Char → Tm → Int → Int → Option StrptimeResult)
    (fuel : Nat) (st : StrptimeState) : strptimeLoop recurse fuel [] st = some st := by
  obtain ⟨bp, tm, ns, len, sy⟩ := st
  cases bp <;> simp [strptimeLoop]

theorem strptime_ns_zone_call (localtime_r : Int → Option Tm) (buf : List Char) (tm : Tm)
    (ns len : Int) (st : StrptimeState)
    (hst : zoneConversion buf
      { bp := some buf, tm := tm, nanosecond := 0, nanosecondLength := len, split_year := false }
        = st) :
    strptime_ns localtime_r buf "%z".toList tm ns len =
      some { ret := st.bp, tm := st.tm, nanosecond := st.nanosecond,
             nanosecondLength := st.nanosecondLength } := by
  have hf : "%z".toList = ['%', 'z'] := rfl
  rw [hf]
  simp [strptime_ns, strptime_nsDepth, strptimeLoop, strptimeSwitch, isspace, strptimeLoop_done,
    hst]

theorem skipSpace_append (ws rest : List Char) (c : Char) (hws : ∀ x ∈ ws, isspace x = true)
    (hc : isspace c = false) : skipSpace (ws ++ c :: rest) = c :: rest := by
  induction ws with
  | nil => simp [skipSpace, List.dropWhile, hc]
  | cons w t ih =>
    have hw : isspace w = true := hws w (List.mem_cons_self _ _)
    have := ih (fun x hx => hws x (List.mem_cons_of_mem _ hx))
    simp only [skipSpace] at this ⊢
    simp [List.dropWhile, hw, this]

theorem zoneOffsetLoop_digit (i offs : Nat) (d : Char) (rest : List Char) (hi : i < 4)
    (hd : isdigit d = true) :
    zoneOffsetLoop i offs (d :: rest) = zoneOffsetLoop (i + 1) (offs * 10 + digitValue d) rest := by
  simp [zoneOffsetLoop, hi, hd]

theorem zoneOffsetLoop_colon (offs : Nat) (rest : List Char) :
    zoneOffsetLoop 2 offs (':' :: rest) = zoneOffsetLoop 2 offs rest := by
  simp [zoneOffsetLoop, isdigit]

theorem zoneOffsetLoop_four (offs : Nat) (tail : List Char) :
    zoneOffsetLoop 4 offs tail = (4, offs, tail) := by
  cases tail <;> simp [zoneOffsetLoop]

theorem zoneOffsetLoop_stop (i offs : Nat) (tail : List Char)
    (h : isdigit (peek tail) = false) (hc : i ≠ 2 ∨ peek tail ≠ ':') :
    zoneOffsetLoop i offs tail = (i, offs, tail) := by
  cases tail with
  | nil => simp [zoneOffsetLoop]
  | cons c t =>
    have h2 : isdigit c = false := h
    have hc2 : ¬ (i = 2 ∧ c = ':') := by
      rintro ⟨h3, h4⟩
      rcases hc with h5 | h5
      · exact h5 h3
      · exact h5 h4
    simp [zoneOffsetLoop, h2, hc2]

theorem zoneConversion_numeric (ws rest : List Char) (sign : Char) (st : StrptimeState)
    (hws : ∀ x ∈ ws, isspace x = true) (hsign : sign = '+' ∨ sign = '-') :
    zoneConversion (ws ++ sign :: rest) st = zoneNumeric rest st := by
  rcases hsign with h | h <;> subst h
  · simp [zoneConversion, skipSpace_append ws rest '+' hws (by decide), peek]
  · simp [zoneConversion, skipSpace_append ws rest '-' hws (by decide), peek]

theorem zoneNumeric_two (h1 h2 : Char) (tail : List Char) (st : StrptimeState)
    (hh1 : isdigit h1 = true) (hh2 : isdigit h2 = true) (htail : isdigit (peek tail) = false)
    (hcolon : peek tail ≠ ':') :
    zoneNumeric (h1 :: h2 :: tail) st =
      { st with bp := some tail, tm := { st.tm with tm_isdst := 0 } } := by
  have e : zoneOffsetLoop 0 0 (h1 :: h2 :: tail) =
      (2, (0 * 10 + digitValue h1) * 10 + digitValue h2, tail) := by
    rw [zoneOffsetLoop_digit _ _ _ _ (by norm_num) hh1,
      zoneOffsetLoop_digit _ _ _ _ (by norm_num) hh2,
      zoneOffsetLoop_stop _ _ _ htail (Or.inr hcolon)]
  simp [zoneNumeric, e]

theorem zoneOffsetLoop_four_digits (h1 h2 m1 m2 : Char) (tail : List Char)
    (hh1 : isdigit h1 = true) (hh2 : isdigit h2 = true) (hm1 : isdigit m1 = true)
    (hm2 : isdigit m2 = true) :
    zoneOffsetLoop 0 0 (h1 :: h2 :: m1 :: m2 :: tail) =
        (4, (((0 * 10 + digitValue h1) * 10 + digitValue h2) * 10 + digitValue m1) * 10
          + digitValue m2, tail) ∧
      zoneOffsetLoop 0 0 (h1 :: h2 :: ':' :: m1 :: m2 :: tail) =
        (4, (((0 * 10 + digitValue h1) * 10 + digitValue h2) * 10 + digitValue m1) * 10
          + digitValue m2, tail) := by
  constructor
  · rw [zoneOffsetLoop_digit _ _ _ _ (by norm_num) hh1,
      zoneOffsetLoop_digit _ _ _ _ (by norm_num) hh2,
      zoneOffsetLoop_digit _ _ _ _ (by norm_num) hm1,
      zoneOffsetLoop_digit _ _ _ _ (by norm_num) hm2, zoneOffsetLoop_four]
  · rw [zoneOffsetLoop_digit _ _ _ _ (by norm_num) hh1,
      zoneOffsetLoop_digit _ _ _ _ (by norm_num) hh2, zoneOffsetLoop_colon,
      zoneOffsetLoop_digit _ _ _ _ (by norm_num) hm1,
      zoneOffsetLoop_digit _ _ _ _ (by norm_num) hm2, zoneOffsetLoop_four]

theorem zoneNumeric_four (h1 h2 m1 m2 : Char) (tail : List Char) (st : StrptimeState)
    (hh1 : isdigit h1 = true) (hh2 : isdigit h2 = true) (hm1 : isdigit m1 = true)
    (hm2 : isdigit m2 = true) (bp : List Char)
    (hbp : bp = h1 :: h2 :: m1 :: m2 :: tail ∨ bp = h1 :: h2 :: ':' :: m1 :: m2 :: tail) :
    zoneNumeric bp st =
      if digitValue m1 * 10 + digitValue m2 < 60 then
        { st with bp := some tail, tm := { st.tm with tm_isdst := 0 } }
      else { st with bp := none } := by
  obtain ⟨e1, e2⟩ := zoneOffsetLoop_four_digits h1 h2 m1 m2 tail hh1 hh2 hm1 hm2
  have d1 := digitValue_lt m1 hm1
  have d2 := digitValue_lt m2 hm2
  have hmod : ((((0 * 10 + digitValue h1) * 10 + digitValue h2) * 10 + digitValue m1) * 10
      + digitValue m2) % 100 = digitValue m1 * 10 + digitValue m2 := by omega
  rcases hbp with h | h <;> subst h
  · simp only [zoneNumeric, e1, hmod]
    by_cases hmm : digitValue m1 * 10 + digitValue m2 < 60
    · rw [if_pos hmm, if_neg (by norm_num), if_pos trivial, if_neg (by omega)]
    · rw [if_neg hmm, if_neg (by norm_num), if_pos trivial, if_pos (by omega)]
  · simp only [zoneNumeric, e2, hmod]
    by_cases hmm : digitValue m1 * 10 + digitValue m2 < 60
    · rw [if_pos hmm, if_neg (by norm_num), if_pos trivial, if_neg (by omega)]
    · rw [if_neg hmm, if_neg (by norm_num), if_pos trivial, if_pos (by omega)]

theorem zoneNumeric_odd (h1 h2 m1 : Char) (tail : List Char) (st : StrptimeState)
    (hh1 : isdigit h1 = true) (hh2 : isdigit h2 = true) (hm1 : isdigit m1 = true)
    (htail : isdigit (peek tail) = false) :
    zoneNumeric (h1 :: tail) st = { st with bp := none } ∧
      zoneNumeric (h1 :: h2 :: m1 :: tail) st = { st with bp := none } := by
  have e1 : zoneOffsetLoop 0 0 (h1 :: tail) = (1, 0 * 10 + digitValue h1, tail) := by
    rw [zoneOffsetLoop_digit _ _ _ _ (by norm_num) hh1,
      zoneOffsetLoop_stop _ _ _ htail (Or.inl (by norm_num))]
  have e3 : zoneOffsetLoop 0 0 (h1 :: h2 :: m1 :: tail) =
      (3, ((0 * 10 + digitValue h1) * 10 + digitValue h2) * 10 + digitValue m1, tail) := by
    rw [zoneOffsetLoop_digit _ _ _ _ (by norm_num) hh1,
      zoneOffsetLoop_digit _ _ _ _ (by norm_num) hh2,
      zoneOffsetLoop_digit _ _ _ _ (by norm_num) hm1,
      zoneOffsetLoop_stop _ _ _ htail (Or.inl (by norm_num))]
  constructor
  · simp [zoneNumeric, e1]
  · simp [zoneNumeric, e3]

theorem zoneConversion_names (ws tail : List Char) (st : StrptimeState)
    (hws : ∀ x ∈ ws, isspace x = true) :
    zoneConversion (ws ++ 'Z' :: tail) st =
        { st with bp := some tail, tm := { st.tm with tm_isdst := 0 } } ∧
      zoneConversion (ws ++ 'U' :: 'T' :: tail) st =
        { st with bp := some tail, tm := { st.tm with tm_isdst := 0 } } ∧
      zoneConversion (ws ++ 'G' :: 'M' :: 'T' :: tail) st =
        { st with bp := some tail, tm := { st.tm with tm_isdst := 0 } } := by
  refine ⟨?_, ?_, ?_⟩
  · simp [zoneConversion, skipSpace_append ws tail 'Z' hws (by decide), peek]
  · simp [zoneConversion, skipSpace_append ws _ 'U' hws (by decide), peek]
  · simp [zoneConversion, skipSpace_append ws _ 'G' hws (by decide), peek]

/-- C27, counterexample: on `"+05:x"` the format `"%z"` accepts the offset `+05` and
returns the position of `x`, which is past the colon and so one character beyond
the offset (the position just past the offset is `":x"`). -/
theorem strptime_ns_zone_colon :
    strptime_ns utcClock "+05:x".toList "%z".toList zeroTm 0 0 =
        some { ret := some "x".toList, tm := zeroTm, nanosecond := 0, nanosecondLength := 0 } ∧
      "+05:x".toList.drop 3 = ":x".toList := by
  decide

/-- C27, amended: with the format `"%z"`, after optional white-space and a sign,
two digits followed by neither a digit nor a colon, four digits `hhmm` and `hh:mm`,
the last two with `mm < 60`, are accepted: the position returned is just past the
offset and `tm_isdst` is 0.  With `mm ≥ 60`, or with one or three digits before a
character that is not a digit, the result is `NULL` and `*tm` is left alone.
`Z`, `UT` and `GMT` are accepted and set `tm_isdst` to 0. -/
theorem strptime_ns_zone_offset (localtime_r : Int → Option Tm) (ws tail : List Char)
    (sign h1 h2 m1 m2 : Char) (tm : Tm) (ns len : Int) (acc rej : Option StrptimeResult)
    (hacc : acc = some { ret := some tail, tm := { tm with tm_isdst := 0 }, nanosecond := 0,
                         nanosecondLength := len })
    (hrej : rej = some { ret := none, tm := tm, nanosecond := 0, nanosecondLength := len })
    (hws : ∀ x ∈ ws, isspace x = true) (hsign : sign = '+' ∨ sign = '-')
    (hh1 : isdigit h1 = true) (hh2 : isdigit h2 = true) (hm1 : isdigit m1 = true)
    (hm2 : isdigit m2 = true) :
    (isdigit (peek tail) = false → peek tail ≠ ':' →
      strptime_ns localtime_r (ws ++ sign :: h1 :: h2 :: tail) "%z".toList tm ns len = acc) ∧
    (digitValue m1 * 10 + digitValue m2 < 60 →
      strptime_ns localtime_r (ws ++ sign :: h1 :: h2 :: m1 :: m2 :: tail) "%z".toList tm ns len
          = acc ∧
        strptime_ns localtime_r (ws ++ sign :: h1 :: h2 :: ':' :: m1 :: m2 :: tail) "%z".toList
          tm ns len = acc) ∧
    (60 ≤ digitValue m1 * 10 + digitValue m2 →
      strptime_ns localtime_r (ws ++ sign :: h1 :: h2 :: m1 :: m2 :: tail) "%z".toList tm ns len
          = rej ∧
        strptime_ns localtime_r (ws ++ sign :: h1 :: h2 :: ':' :: m1 :: m2 :: tail) "%z".toList
          tm ns len = rej) ∧
    (isdigit (peek tail) = false →
      strptime_ns localtime_r (ws ++ sign :: h1 :: tail) "%z".toList tm ns len = rej ∧
        strptime_ns localtime_r (ws ++ sign :: h1 :: h2 :: m1 :: tail) "%z".toList tm ns len
          = rej) ∧
    strptime_ns localtime_r (ws ++ 'Z' :: tail) "%z".toList tm ns len = acc ∧
    strptime_ns localtime_r (ws ++ 'U' :: 'T' :: tail) "%z".toList tm ns len = acc ∧
    strptime_ns localtime_r (ws ++ 'G' :: 'M' :: 'T' :: tail) "%z".toList tm ns len = acc := by
  subst hacc
  subst hrej
  refine ⟨?_, ?_, ?_, ?_, ?_, ?_, ?_⟩
  · intro htail hcolon
    rw [strptime_ns_zone_call localtime_r _ tm ns len _ rfl, zoneConversion_numeric _ _ _ _ hws hsign,
      zoneNumeric_two h1 h2 tail _ hh1 hh2 htail hcolon]
  · intro hmm
    constructor
    · rw [strptime_ns_zone_call localtime_r _ tm ns len _ rfl,
        zoneConversion_numeric _ _ _ _ hws hsign,
        zoneNumeric_four h1 h2 m1 m2 tail _ hh1 hh2 hm1 hm2 _ (Or.inl rfl), if_pos hmm]
    · rw [strptime_ns_zone_call localtime_r _ tm ns len _ rfl,
        zoneConversion_numeric _ _ _ _ hws hsign,
        zoneNumeric_four h1 h2 m1 m2 tail _ hh1 hh2 hm1 hm2 _ (Or.inr rfl), if_pos hmm]
  · intro hmm
    constructor
    · rw [strptime_ns_zone_call localtime_r _ tm ns len _ rfl,
        zoneConversion_numeric _ _ _ _ hws hsign,
        zoneNumeric_four h1 h2 m1 m2 tail _ hh1 hh2 hm1 hm2 _ (Or.inl rfl),
        if_neg (by omega)]
    · rw [strptime_ns_zone_call localtime_r _ tm ns len _ rfl,
        zoneConversion_numeric _ _ _ _ hws hsign,
        zoneNumeric_four h1 h2 m1 m2 tail _ hh1 hh2 hm1 hm2 _ (Or.inr rfl),
        if_neg (by omega)]
  · intro htail
    obtain ⟨e1, _⟩ := zoneNumeric_odd h1 h2 m1 tail
      { bp := some (ws ++ sign :: h1 :: tail), tm := tm, nanosecond := 0,
        nanosecondLength := len, split_year := false } hh1 hh2 hm1 htail
    obtain ⟨_, e3⟩ := zoneNumeric_odd h1 h2 m1 tail
      { bp := some (ws ++ sign :: h1 :: h2 :: m1 :: tail), tm := tm, nanosecond := 0,
        nanosecondLength := len, split_year := false } hh1 hh2 hm1 htail
    constructor
    · rw [strptime_ns_zone_call localtime_r _ tm ns len _ rfl,
        zoneConversion_numeric _ _ _ _ hws hsign, e1]
    · rw [strptime_ns_zone_call localtime_r _ tm ns len _ rfl,
        zoneConversion_numeric _ _ _ _ hws hsign, e3]
  · rw [strptime_ns_zone_call localtime_r _ tm ns len _ rfl, (zoneConversion_names ws tail _ hws).1]
  · rw [strptime_ns_zone_call localtime_r _ tm ns len _ rfl,
      (zoneConversion_names ws tail _ hws).2.1]
  · rw [strptime_ns_zone_call localtime_r _ tm ns len _ rfl,
      (zoneConversion_names ws tail _ hws).2.2]

theorem strptime_ns_zone_offset_witness :
    strptime_ns utcClock (" ".toList ++ '+' :: '0' :: '5' :: '3' :: '0' :: "x".toList)
        "%z".toList zeroTm 0 0 =
        some { ret := some "x".toList, tm := { zeroTm with tm_isdst := 0 }, nanosecond := 0,
               nanosecondLength := 0 } ∧
      strptime_ns utcClock (" ".toList ++ '+' :: '0' :: '5' :: ':' :: '3' :: '0' :: "x".toList)
        "%z".toList zeroTm 0 0 =
        some { ret := some "x".toList, tm := { zeroTm with tm_isdst := 0 }, nanosecond := 0,
               nanosecondLength := 0 } :=
  (strptime_ns_zone_offset utcClock " ".toList "x".toList '+' '0' '5' '3' '0' zeroTm 0 0 _ _ rfl
    rfl (by decide) (by decide) (by decide) (by decide) (by decide) (by decide)).2.1 (by decide)

/-! ## Termination of the parser -/

theorem strptimeSwitch_plain (alt_format : Nat) (c : Char) (fmt bp : List Char)
    (st : StrptimeState) (hE : c ≠ 'E') (hO : c ≠ 'O') (hc : c ∉ compositeConversions) :
    ∃ st2, ∀ r, strptimeSwitch r alt_format (c :: fmt) bp st = some (fmt, st2) := by
  simp only [compositeConversions, List.mem_cons, List.mem_singleton, not_or,
    List.mem_nil_iff, or_false] at hc
  obtain ⟨h1, h2, h3, h4, h5, h6, h7, h8⟩ := hc
  have hind : ∀ r, strptimeSwitch r alt_format (c :: fmt) bp st =
      strptimeSwitch (fun _ _ _ _ _ => none) alt_format (c :: fmt) bp st := by
    intro r
    simp only [strptimeSwitch, hE, hO, h1, h2, h3, h4, h5, h6, h7, h8, if_false]
  have hfst : (strptimeSwitch (fun _ _ _ _ _ => none) alt_format (c :: fmt) bp st).map Prod.fst
      = some fmt := by
    simp only [strptimeSwitch, hE, hO, h1, h2, h3, h4, h5, h6, h7, h8, if_false,
      apply_ite (Option.map Prod.fst), Option.map_some', ite_self]
  obtain ⟨x, hx, hx2⟩ := Option.map_eq_some'.mp hfst
  refine ⟨x.2, fun r => ?_⟩
  rw [hind r, hx, ← hx2]

theorem strptimeSwitch_composite (alt_format : Nat) (c : Char) (fmt bp : List Char)
    (st : StrptimeState) (hc : c ∈ compositeConversions) :
    (∃ st2, ∀ r, strptimeSwitch r alt_format (c :: fmt) bp st = some (fmt, st2)) ∨
      ∃ new_fmt ∈ compositeFormats, ∀ r, strptimeSwitch r alt_format (c :: fmt) bp st =
        (recurseConversion r alt_format new_fmt bp st).map (fun st2 => (fmt, st2)) := by
  simp only [compositeConversions, List.mem_cons, List.mem_singleton, List.mem_nil_iff,
    or_false] at hc
  by_cases hl : LEGAL_ALT alt_format 0 = true
  · right
    rcases hc with h | h | h | h | h | h | h | h <;> subst h
    · exact ⟨"%a %b %d %H:%M:%S %Y".toList, by simp [compositeFormats],
        fun r => by simp [strptimeSwitch]⟩
    · exact ⟨"%m/%d/%y".toList, by simp [compositeFormats],
        fun r => by simp [strptimeSwitch, hl]⟩
    · exact ⟨"%Y-%m-%d".toList, by simp [compositeFormats],
        fun r => by simp [strptimeSwitch, hl]⟩
    · exact ⟨"%H:%M".toList, by simp [compositeFormats],
        fun r => by simp [strptimeSwitch, hl]⟩
    · exact ⟨"%I:%M:%S %p".toList, by simp [compositeFormats],
        fun r => by simp [strptimeSwitch, hl]⟩
    · exact ⟨"%H:%M:%S".toList, by simp [compositeFormats],
        fun r => by simp [strptimeSwitch, hl]⟩
    · exact ⟨"%H:%M:%S".toList, by simp [compositeFormats],
        fun r => by simp [strptimeSwitch]⟩
    · exact ⟨"%m/%d/%y".toList, by simp [compositeFormats],
        fun r => by simp [strptimeSwitch]⟩
  · rcases hc with h | h | h | h | h | h | h | h <;> subst h
    · right
      exact ⟨"%a %b %d %H:%M:%S %Y".toList, by simp [compositeFormats],
        fun r => by simp [strptimeSwitch]⟩
    · left
      exact ⟨{ st with bp := none }, fun r => by simp [strptimeSwitch, hl]⟩
    · left
      exact ⟨{ st with bp := none }, fun r => by simp [strptimeSwitch, hl]⟩
    · left
      exact ⟨{ st with bp := none }, fun r => by simp [strptimeSwitch, hl]⟩
    · left
      exact ⟨{ st with bp := none }, fun r => by simp [strptimeSwitch, hl]⟩
    · left
      exact ⟨{ st with bp := none }, fun r => by simp [strptimeSwitch, hl]⟩
    · right
      exact ⟨"%H:%M:%S".toList, by simp [compositeFormats],
        fun r => by simp [strptimeSwitch]⟩
    · right
      exact ⟨"%m/%d/%y".toList, by simp [compositeFormats],
        fun r => by simp [strptimeSwitch]⟩

theorem strptimeSwitch_modifier (alt_format : Nat) (c : Char) (fmt bp : List Char)
    (st : StrptimeState) (hc : c = 'E' ∨ c = 'O') :
    (∃ st2, ∀ r, strptimeSwitch r alt_format (c :: fmt) bp st = some (fmt, st2)) ∨
      ∃ alt2, ∀ r, strptimeSwitch r alt_format (c :: fmt) bp st =
        strptimeSwitch r alt2 fmt bp st := by
  by_cases hl : LEGAL_ALT alt_format 0 = true
  · right
    rcases hc with h | h <;> subst h
    · exact ⟨alt_format ||| ALT_E, fun r => by simp [strptimeSwitch, hl]⟩
    · exact ⟨alt_format ||| ALT_O, fun r => by simp [strptimeSwitch, hl]⟩
  · left
    rcases hc with h | h <;> subst h
    · exact ⟨{ st with bp := none }, fun r => by simp [strptimeSwitch, hl]⟩
    · exact ⟨{ st with bp := none }, fun r => by simp [strptimeSwitch, hl]⟩

theorem strptimeSwitch_shape (fmt : List Char) :
    ∀ (alt_format : Nat) (bp : List Char) (st : StrptimeState),
      (∃ new_fmt ∈ compositeFormats, ∃ (alt2 : Nat) (pre rest : List Char) (c : Char),
          fmt = pre ++ rest ∧ pre ≠ [] ∧ c ∈ pre ∧ c ∈ compositeConversions ∧
          ∀ r, strptimeSwitch r alt_format fmt bp st =
            (recurseConversion r alt2 new_fmt bp st).map (fun st2 => (rest, st2))) ∨
      (∃ (pre rest : List Char) (st2 : StrptimeState),
          fmt = pre ++ rest ∧ (fmt ≠ [] → pre ≠ []) ∧
          ∀ r, strptimeSwitch r alt_format fmt bp st = some (rest, st2)) := by
  induction fmt with
  | nil =>
    intro alt_format bp st
    right
    exact ⟨[], [], { st with bp := none }, rfl, fun h => absurd rfl h, fun r => rfl⟩
  | cons c fmt ih =>
    intro alt_format bp st
    by_cases hm : c = 'E' ∨ c = 'O'
    · rcases strptimeSwitch_modifier alt_format c fmt bp st hm with ⟨st2, h⟩ | ⟨alt2, h⟩
      · right
        exact ⟨[c], fmt, st2, rfl, fun _ => by simp, h⟩
      · rcases ih alt2 bp st with ⟨F, hF, alt3, pre, rest, c2, hsplit, _, hc2, hcc, h1⟩ |
          ⟨pre, rest, st2, hsplit, _, h1⟩
        · left
          refine ⟨F, hF, alt3, c :: pre, rest, c2, by rw [hsplit]; rfl, by simp,
            List.mem_cons_of_mem _ hc2, hcc, fun r => ?_⟩
          rw [h r, h1 r]
        · right
          refine ⟨c :: pre, rest, st2, by rw [hsplit]; rfl, fun _ => by simp, fun r => ?_⟩
          rw [h r, h1 r]
    · by_cases hc : c ∈ compositeConversions
      · rcases strptimeSwitch_composite alt_format c fmt bp st hc with ⟨st2, h⟩ | ⟨F, hF, h⟩
        · right
          exact ⟨[c], fmt, st2, rfl, fun _ => by simp, h⟩
        · left
          exact ⟨F, hF, alt_format, [c], fmt, c, rfl, by simp, by simp, hc, h⟩
      · obtain ⟨st2, h⟩ := strptimeSwitch_plain alt_format c fmt bp st
          (fun h => hm (Or.inl h)) (fun h => hm (Or.inr h)) hc
        right
        exact ⟨[c], fmt, st2, rfl, fun _ => by simp, h⟩

theorem strptimeSwitch_some
    (r : List Char → List Char → Tm → Int → Int → Option StrptimeResult) (alt_format : Nat)
    (fmt bp : List Char) (st : StrptimeState)
    (h : (∀ c ∈ fmt, c ∉ compositeConversions) ∨
      ∀ b F tm ns len, F ∈ compositeFormats → (r b F tm ns len).isSome = true) :
    ∃ (pre rest : List Char) (st2 : StrptimeState), fmt = pre ++ rest ∧ (fmt ≠ [] → pre ≠ []) ∧
      strptimeSwitch r alt_format fmt bp st = some (rest, st2) := by
  rcases strptimeSwitch_shape fmt alt_format bp st with
    ⟨F, hF, alt2, pre, rest, c, hsplit, hne, hc, hcc, h1⟩ | ⟨pre, rest, st2, hsplit, hne, h1⟩
  · rcases h with h | h
    · exact absurd hcc (h c (by rw [hsplit]; exact List.mem_append_left _ hc))
    · have hs := h bp F st.tm st.nanosecond st.nanosecondLength hF
      obtain ⟨res, hres⟩ := Option.isSome_iff_exists.mp hs
      have hrc : ∃ s, recurseConversion r alt2 F bp st = some s := by
        simp only [recurseConversion, hres]
        exact ⟨_, rfl⟩
      obtain ⟨s, hs2⟩ := hrc
      refine ⟨pre, rest, s, hsplit, fun _ => hne, ?_⟩
      rw [h1 r, hs2]
      rfl
  · exact ⟨pre, rest, st2, hsplit, hne, h1 r⟩

theorem strptimeSwitch_congr
    (r1 r2 : List Char → List Char → Tm → Int → Int → Option StrptimeResult) (alt_format : Nat)
    (fmt bp : List Char) (st : StrptimeState)
    (h : (∀ c ∈ fmt, c ∉ compositeConversions) ∨
      ∀ b F tm ns len, F ∈ compositeFormats → r1 b F tm ns len = r2 b F tm ns len) :
    strptimeSwitch r1 alt_format fmt bp st = strptimeSwitch r2 alt_format fmt bp st := by
  rcases strptimeSwitch_shape fmt alt_format bp st with
    ⟨F, hF, alt2, pre, rest, c, hsplit, _, hc, hcc, h1⟩ | ⟨pre, rest, st2, _, _, h1⟩
  · rcases h with h | h
    · exact absurd hcc (h c (by rw [hsplit]; exact List.mem_append_left _ hc))
    · rw [h1 r1, h1 r2]
      simp only [recurseConversion, h bp F st.tm st.nanosecond st.nanosecondLength hF]
  · rw [h1 r1, h1 r2]

theorem strptimeSwitch_rest
    (r : List Char → List Char → Tm → Int → Int → Option StrptimeResult) (alt_format : Nat)
    (fmt bp : List Char) (st : StrptimeState) (res : List Char × StrptimeState)
    (h : strptimeSwitch r alt_format fmt bp st = some res) :
    ∃ pre, fmt = pre ++ res.1 ∧ (fmt ≠ [] → pre ≠ []) := by
  rcases strptimeSwitch_shape fmt alt_format bp st with
    ⟨F, _, alt2, pre, rest, c, hsplit, hne, _, _, h1⟩ | ⟨pre, rest, st2, hsplit, hne, h1⟩
  · rw [h1 r] at h
    obtain ⟨x, _, hx⟩ := Option.map_eq_some'.mp h
    refine ⟨pre, ?_, fun _ => hne⟩
    rw [← hx]
    exact hsplit
  · rw [h1 r] at h
    refine ⟨pre, ?_, hne⟩
    rw [← Option.some.inj h]
    exact hsplit

theorem strptimeLoop_null
    (r : List Char → List Char → Tm → Int → Int → Option StrptimeResult) (fuel : Nat)
    (fmt : List Char) (st : StrptimeState) (h : st.bp = none) :
    strptimeLoop r fuel fmt st = some st := by
  obtain ⟨bp, tm, ns, len, sy⟩ := st
  simp only at h
  subst h
  simp [strptimeLoop]

theorem strptimeLoop_zero
    (r : List Char → List Char → Tm → Int → Int → Option StrptimeResult) (c : Char)
    (fmt bp : List Char) (st : StrptimeState) (h : st.bp = some bp) :
    strptimeLoop r 0 (c :: fmt) st = none := by
  obtain ⟨bp0, tm, ns, len, sy⟩ := st
  simp only at h
  subst h
  simp [strptimeLoop]

theorem strptimeLoop_step
    (r : List Char → List Char → Tm → Int → Int → Option StrptimeResult) (fuel : Nat) (c : Char)
    (fmt bp : List Char) (st : StrptimeState) (h : st.bp = some bp) :
    strptimeLoop r (fuel + 1) (c :: fmt) st =
      if isspace c then strptimeLoop r fuel fmt { st with bp := some (skipSpace bp) }
      else if c ≠ '%' then
        if c ≠ peek bp then some { st with bp := none }
        else strptimeLoop r fuel fmt { st with bp := some (bp.drop 1) }
      else
        match strptimeSwitch r 0 fmt bp st with
        | none => none
        | some res => strptimeLoop r fuel res.1 res.2 := by
  obtain ⟨bp0, tm, ns, len, sy⟩ := st
  simp only at h
  subst h
  simp only [strptimeLoop]

theorem strptimeLoop_some
    (r : List Char → List Char → Tm → Int → Int → Option StrptimeResult) (fuel : Nat) :
    ∀ (fmt : List Char) (st : StrptimeState), fmt.length ≤ fuel →
      ((∀ c ∈ fmt, c ∉ compositeConversions) ∨
        ∀ b F tm ns len, F ∈ compositeFormats → (r b F tm ns len).isSome = true) →
      ∃ st2, strptimeLoop r fuel fmt st = some st2 := by
  induction fuel with
  | zero =>
    intro fmt st hlen _
    have hnil : fmt = [] := List.length_eq_zero.mp (Nat.le_zero.mp hlen)
    subst hnil
    exact ⟨st, strptimeLoop_done r 0 st⟩
  | succ n ih =>
    intro fmt st hlen h
    cases hbp : st.bp with
    | none => exact ⟨st, strptimeLoop_null r _ fmt st hbp⟩
    | some bp =>
      cases fmt with
      | nil => exact ⟨st, strptimeLoop_done r _ st⟩
      | cons c fmt2 =>
        have hlen2 : fmt2.length ≤ n := by simpa using hlen
        have h2 : (∀ c ∈ fmt2, c ∉ compositeConversions) ∨
            ∀ b F tm ns len, F ∈ compositeFormats → (r b F tm ns len).isSome = true := by
          rcases h with h | h
          · exact Or.inl (fun x hx => h x (List.mem_cons_of_mem _ hx))
          · exact Or.inr h
        rw [strptimeLoop_step r n c fmt2 bp st hbp]
        split
        · exact ih fmt2 _ hlen2 h2
        · split
          · split
            · exact ⟨_, rfl⟩
            · exact ih fmt2 _ hlen2 h2
          · obtain ⟨pre, rest, st2, hsplit, _, hsw⟩ := strptimeSwitch_some r 0 fmt2 bp st h2
            rw [hsw]
            have hlen3 : rest.length ≤ n := by
              have : fmt2.length = pre.length + rest.length := by rw [hsplit, List.length_append]
              omega
            have h3 : (∀ c ∈ rest, c ∉ compositeConversions) ∨
                ∀ b F tm ns len, F ∈ compositeFormats → (r b F tm ns len).isSome = true := by
              rcases h2 with h | h
              · exact Or.inl (fun x hx => h x (by rw [hsplit]; exact List.mem_append_right _ hx))
              · exact Or.inr h
            exact ih rest st2 hlen3 h3

theorem strptimeLoop_fuel
    (r : List Char → List Char → Tm → Int → Int → Option StrptimeResult) (fuel : Nat) :
    ∀ (fmt : List Char) (st st2 : StrptimeState), strptimeLoop r fuel fmt st = some st2 →
      ∀ fuel2, fuel ≤ fuel2 → strptimeLoop r fuel2 fmt st = some st2 := by
  induction fuel with
  | zero =>
    intro fmt st st2 h fuel2 _
    cases hbp : st.bp with
    | none =>
      rw [strptimeLoop_null r _ fmt st hbp] at h ⊢
      exact h
    | some bp =>
      cases fmt with
      | nil =>
        rw [strptimeLoop_done] at h ⊢
        exact h
      | cons c fmt2 =>
        rw [strptimeLoop_zero r c fmt2 bp st hbp] at h
        exact absurd h (by simp)
  | succ n ih =>
    intro fmt st st2 h fuel2 hle
    cases hbp : st.bp with
    | none =>
      rw [strptimeLoop_null r _ fmt st hbp] at h ⊢
      exact h
    | some bp =>
      cases fmt with
      | nil =>
        rw [strptimeLoop_done] at h ⊢
        exact h
      | cons c fmt2 =>
        obtain ⟨m, hm⟩ : ∃ m, fuel2 = m + 1 := ⟨fuel2 - 1, by omega⟩
        subst hm
        have hle2 : n ≤ m := by omega
        rw [strptimeLoop_step r n c fmt2 bp st hbp] at h
        rw [strptimeLoop_step r m c fmt2 bp st hbp]
        split at h
        · rename_i hsp
          rw [if_pos hsp]
          exact ih _ _ _ h m hle2
        · rename_i hsp
          rw [if_neg hsp]
          split at h
          · rename_i hpc
            rw [if_pos hpc]
            split at h
            · rename_i hpk
              rw [if_pos hpk]
              exact h
            · rename_i hpk
              rw [if_neg hpk]
              exact ih _ _ _ h m hle2
          · rename_i hpc
            rw [if_neg hpc]
            cases hsw : strptimeSwitch r 0 fmt2 bp st with
            | none =>
              rw [hsw] at h
              exact absurd h (by simp)
            | some res =>
              rw [hsw] at h
              exact ih _ _ _ h m hle2

theorem strptimeLoop_congr
    (r1 r2 : List Char → List Char → Tm → Int → Int → Option StrptimeResult) (fuel : Nat) :
    ∀ (fmt : List Char) (st : StrptimeState),
      ((∀ c ∈ fmt, c ∉ compositeConversions) ∨
        ∀ b F tm ns len, F ∈ compositeFormats → r1 b F tm ns len = r2 b F tm ns len) →
      strptimeLoop r1 fuel fmt st = strptimeLoop r2 fuel fmt st := by
  induction fuel with
  | zero =>
    intro fmt st _
    cases hbp : st.bp with
    | none => rw [strptimeLoop_null r1 _ fmt st hbp, strptimeLoop_null r2 _ fmt st hbp]
    | some bp =>
      cases fmt with
      | nil => rw [strptimeLoop_done, strptimeLoop_done]
      | cons c fmt2 =>
        rw [strptimeLoop_zero r1 c fmt2 bp st hbp, strptimeLoop_zero r2 c fmt2 bp st hbp]
  | succ n ih =>
    intro fmt st h
    cases hbp : st.bp with
    | none => rw [strptimeLoop_null r1 _ fmt st hbp, strptimeLoop_null r2 _ fmt st hbp]
    | some bp =>
      cases fmt with
      | nil => rw [strptimeLoop_done, strptimeLoop_done]
      | cons c fmt2 =>
        have h2 : (∀ c ∈ fmt2, c ∉ compositeConversions) ∨
            ∀ b F tm ns len, F ∈ compositeFormats → r1 b F tm ns len = r2 b F tm ns len := by
          rcases h with h | h
          · exact Or.inl (fun x hx => h x (List.mem_cons_of_mem _ hx))
          · exact Or.inr h
        rw [strptimeLoop_step r1 n c fmt2 bp st hbp, strptimeLoop_step r2 n c fmt2 bp st hbp,
          strptimeSwitch_congr r1 r2 0 fmt2 bp st h2, ih fmt2 _ h2, ih fmt2 _ h2]
        cases hsw : strptimeSwitch r2 0 fmt2 bp st with
        | none => rfl
        | some res =>
          obtain ⟨pre, hsplit, _⟩ := strptimeSwitch_rest r2 0 fmt2 bp st res hsw
          have h3 : (∀ c ∈ res.1, c ∉ compositeConversions) ∨
              ∀ b F tm ns len, F ∈ compositeFormats → r1 b F tm ns len = r2 b F tm ns len := by
            rcases h2 with h | h
            · exact Or.inl (fun x hx => h x (by rw [hsplit]; exact List.mem_append_right _ hx))
            · exact Or.inr h
          simp only [ih res.1 res.2 h3]

theorem compositeFormats_plain :
    ∀ F ∈ compositeFormats, (∀ c ∈ F, c ∉ compositeConversions) ∧ F ≠ "%s".toList := by
  decide

theorem strptime_nsDepth_succ (localtime_r : Int → Option Tm) (depth : Nat) (buf fmt : List Char)
    (tm : Tm) (ns len : Int) (h : fmt ≠ "%s".toList) :
    strptime_nsDepth localtime_r (depth + 1) buf fmt tm ns len =
      (strptimeLoop (strptime_nsDepth localtime_r depth) fmt.length fmt
        { bp := some buf, tm := tm, nanosecond := 0, nanosecondLength := len,
          split_year := false }).map
        (fun st => { ret := st.bp, tm := st.tm, nanosecond := st.nanosecond,
                     nanosecondLength := st.nanosecondLength }) := by
  rw [strptime_nsDepth, if_neg h]

theorem strptime_nsDepth_epoch (localtime_r : Int → Option Tm) (depth : Nat) (buf : List Char)
    (tm : Tm) (ns len : Int) :
    strptime_nsDepth localtime_r (depth + 1) buf "%s".toList tm ns len =
      some (strptime_epoch localtime_r buf tm ns len) := by
  rw [strptime_nsDepth, if_pos rfl]

theorem strptime_nsDepth_one_returns (localtime_r : Int → Option Tm) (b F : List Char) (tm : Tm)
    (ns len : Int) (hF : F ∈ compositeFormats) :
    (strptime_nsDepth localtime_r 1 b F tm ns len).isSome = true := by
  obtain ⟨hplain, hne⟩ := compositeFormats_plain F hF
  rw [strptime_nsDepth_succ localtime_r 0 b F tm ns len hne]
  obtain ⟨st2, h⟩ := strptimeLoop_some (strptime_nsDepth localtime_r 0) F.length F
    { bp := some b, tm := tm, nanosecond := 0, nanosecondLength := len, split_year := false }
    (le_refl _) (Or.inl hplain)
  rw [h]
  rfl

theorem strptime_nsDepth_composite (localtime_r : Int → Option Tm) (depth : Nat)
    (b F : List Char) (tm : Tm) (ns len : Int) (hF : F ∈ compositeFormats) :
    strptime_nsDepth localtime_r (depth + 1) b F tm ns len =
      strptime_nsDepth localtime_r 1 b F tm ns len := by
  obtain ⟨hplain, hne⟩ := compositeFormats_plain F hF
  rw [strptime_nsDepth_succ localtime_r depth b F tm ns len hne,
    strptime_nsDepth_succ localtime_r 0 b F tm ns len hne,
    strptimeLoop_congr (strptime_nsDepth localtime_r depth) (strptime_nsDepth localtime_r 0)
      F.length F _ (Or.inl hplain)]

theorem strptime_nsDepth_stable (localtime_r : Int → Option Tm) (depth : Nat)
    (buf fmt : List Char) (tm : Tm) (ns len : Int) :
    strptime_nsDepth localtime_r (depth + 2) buf fmt tm ns len =
      strptime_nsDepth localtime_r 2 buf fmt tm ns len := by
  by_cases h : fmt = "%s".toList
  · subst h
    rw [strptime_nsDepth_epoch, strptime_nsDepth_epoch]
  · rw [strptime_nsDepth_succ localtime_r (depth + 1) buf fmt tm ns len h,
      strptime_nsDepth_succ localtime_r 1 buf fmt tm ns len h,
      strptimeLoop_congr (strptime_nsDepth localtime_r (depth + 1))
        (strptime_nsDepth localtime_r 1) fmt.length fmt _
        (Or.inr (fun b F tm2 ns2 len2 hF =>
          strptime_nsDepth_composite localtime_r depth b F tm2 ns2 len2 hF))]

/-- C30: `strptime_ns` returns for every format and every buffer.  The result does
not change when more than one level of recursion below the top call is provided;
a loop needs no more iterations than the format has characters, since every pass
through the `switch` moves the format pointer forward; and each fixed format of
a recursive call holds no composite conversion, so that the call made with it
returns without a further level of recursion. -/
theorem strptime_ns_terminates (localtime_r : Int → Option Tm) (buf fmt : List Char) (tm : Tm)
    (nanosecond nanosecondLength : Int) :
    (∃ res, strptime_ns localtime_r buf fmt tm nanosecond nanosecondLength = some res) ∧
    (∀ depth, 2 ≤ depth →
      strptime_nsDepth localtime_r depth buf fmt tm nanosecond nanosecondLength =
        strptime_ns localtime_r buf fmt tm nanosecond nanosecondLength) ∧
    (∀ (st : StrptimeState) (fuel : Nat), fmt.length ≤ fuel →
      (∃ st2, strptimeLoop (strptime_nsDepth localtime_r 1) fmt.length fmt st = some st2) ∧
      strptimeLoop (strptime_nsDepth localtime_r 1) fuel fmt st =
        strptimeLoop (strptime_nsDepth localtime_r 1) fmt.length fmt st) ∧
    (∀ (r : List Char → List Char → Tm → Int → Int → Option StrptimeResult) (alt_format : Nat)
      (bp : List Char) (st : StrptimeState) (res : List Char × StrptimeState),
      strptimeSwitch r alt_format fmt bp st = some res →
        ∃ pre, fmt = pre ++ res.1 ∧ (fmt ≠ [] → pre ≠ [])) ∧
    (∀ F ∈ compositeFormats, (∀ c ∈ F, c ∉ compositeConversions) ∧
      ∀ (b : List Char) (tm2 : Tm) (ns2 len2 : Int),
        ∃ res, strptime_nsDepth localtime_r 1 b F tm2 ns2 len2 = some res) := by
  have hret : ∀ b F tm2 ns2 len2, F ∈ compositeFormats →
      (strptime_nsDepth localtime_r 1 b F tm2 ns2 len2).isSome = true :=
    fun b F tm2 ns2 len2 hF => strptime_nsDepth_one_returns localtime_r b F tm2 ns2 len2 hF
  refine ⟨?_, ?_, ?_, ?_, ?_⟩
  · unfold strptime_ns
    by_cases h : fmt = "%s".toList
    · subst h
      exact ⟨_, strptime_nsDepth_epoch localtime_r 1 buf tm nanosecond nanosecondLength⟩
    · rw [strptime_nsDepth_succ localtime_r 1 buf fmt tm nanosecond nanosecondLength h]
      obtain ⟨st2, h2⟩ := strptimeLoop_some (strptime_nsDepth localtime_r 1) fmt.length fmt
        { bp := some buf, tm := tm, nanosecond := 0, nanosecondLength := nanosecondLength,
          split_year := false } (le_refl _) (Or.inr hret)
      rw [h2]
      exact ⟨_, rfl⟩
  · intro depth hd
    obtain ⟨d, hd2⟩ : ∃ d, depth = d + 2 := ⟨depth - 2, by omega⟩
    subst hd2
    exact strptime_nsDepth_stable localtime_r d buf fmt tm nanosecond nanosecondLength
  · intro st fuel hfuel
    obtain ⟨st2, h2⟩ := strptimeLoop_some (strptime_nsDepth localtime_r 1) fmt.length fmt st
      (le_refl _) (Or.inr hret)
    exact ⟨⟨st2, h2⟩, by rw [strptimeLoop_fuel _ _ fmt st st2 h2 fuel hfuel, h2]⟩
  · intro r alt_format bp st res h
    exact strptimeSwitch_rest r alt_format fmt bp st res h
  · intro F hF
    refine ⟨(compositeFormats_plain F hF).1, fun b tm2 ns2 len2 => ?_⟩
    exact Option.isSome_iff_exists.mp (hret b F tm2 ns2 len2 hF)

end logtail
